import Mathlib

/-!
Verification of the connectivity/graph codec in
`neurokernel/tools/graph.py` (`conn_to_graph` / `graph_to_conn`).

The development shallowly embeds the two codec functions.  The connectivity
object (`base.BaseConnectivity` / `core.Connectivity`) is not part of the
source slice, so its accessor contract is modelled from the spec (see the
doc comment on `Conn`).  Python primitives (`str`, `int`, `float`,
`str.split`, the `(.+):(.+)` regular expression, `networkx` multigraph
operations and `networkx.is_bipartite`) are modelled by small executable
Lean functions defined below; each doc comment names what it models.

Conventions:
* Python dictionaries are modelled as association lists in insertion order
  (the CPython iteration order is arbitrary; the model pins it to insertion
  order, which is the order of the underlying lists).
* Python's numeric values are modelled by `Val` (integers as `Int`, floats
  as `Rat`, strings as `String`).
* A Python function that can raise is modelled with `Except`/`Option`.
-/

deriving instance DecidableEq for Except

namespace NK

/-- Model of a Python scalar value as it appears in the connectivity store
and in graph attribute maps: an `int`, a `float` (modelled as `Rat`), or a
`str`. -/
inductive Val where
  | intV : Int → Val
  | floatV : Rat → Val
  | strV : String → Val
deriving DecidableEq, Repr

/-- Python truthiness of a scalar (`if c[...]:`): nonzero numbers and
nonempty strings are truthy. -/
def pyTruthy : Val → Bool
  | .intV n => n ≠ 0
  | .floatV q => q ≠ 0
  | .strV s => s ≠ ""

/-- Python equality test `value == 1` for a scalar (an `int 1` and a
`float 1.0` both compare equal to `1`; strings never do). -/
def pyEqOne : Val → Bool
  | .intV n => n = 1
  | .floatV q => q = 1
  | .strV _ => false

/-! ### Decimal digits, `str(n)` and `int(s)` / `float(s)` -/

/-- The decimal digit character for `d` (`chr(48 + d)`). -/
def digitChar (d : Nat) : Char := Char.ofNat (48 + d)

/-- Numeric value of a list of decimal digit characters, most significant
first (the accumulator fold performed by Python's `int`). -/
def digitsVal (cs : List Char) : Nat :=
  cs.foldl (fun a c => 10 * a + (c.toNat - 48)) 0

/-- Digit expansion with explicit fuel (kept structurally recursive so the
kernel can evaluate it); `natStrL` supplies enough fuel. -/
def natStrAux : Nat → Nat → List Char
  | 0, _ => []
  | fuel + 1, n =>
    if n < 10 then [digitChar n]
    else natStrAux fuel (n / 10) ++ [digitChar (n % 10)]

/-- Model of Python `str(n)` for a nonnegative integer: its list of decimal
digit characters. -/
def natStrL (n : Nat) : List Char := natStrAux (n + 1) n

/-- Model of Python `str(n)` for a nonnegative integer. -/
def natStr (n : Nat) : String := ⟨natStrL n⟩

/-- Model of Python `str(n)` for an `int` (prepends `-` when negative). -/
def intStr (n : Int) : String :=
  if n < 0 then "-" ++ natStr n.natAbs else natStr n.toNat

/-- Parse a nonempty all-digit character list; `none` otherwise.  Helper
for the model of Python `int(s)`. -/
def parseDigits (cs : List Char) : Option Nat :=
  if cs ≠ [] && cs.all Char.isDigit then some (digitsVal cs) else none

/-- Model of Python `int(s)` on a string: an optional sign followed by
decimal digits; `none` models the `ValueError` raised on anything else.
(Surrounding whitespace and other Python integer syntaxes are not
exercised by this code base and are not modelled.) -/
def pyIntString (s : String) : Option Int :=
  match s.data with
  | [] => none
  | c :: cs =>
    if c = '-' then (parseDigits cs).map (fun n => -(n : Int))
    else if c = '+' then (parseDigits cs).map (fun n => (n : Int))
    else (parseDigits (c :: cs)).map (fun n => (n : Int))

/-- Split a character list at every occurrence of the separator, the model
of Python `s.split(sep)` for a one-character separator (`"".split` gives
`[""]`, i.e. `[[]]`). -/
def splitSep (sep : Char) : List Char → List (List Char)
  | [] => [[]]
  | c :: rest =>
    let r := splitSep sep rest
    if c = sep then [] :: r
    else
      match r with
      | [] => [[c]]
      | h :: t => (c :: h) :: t

/-- Model of Python `float(s)` on the character list of `s` without sign:
`digits`, `digits.digits`, `digits.` or `.digits`; `none` models
`ValueError`.  (Exponent and whitespace forms are not exercised by this
code base and are not modelled.) -/
def pyFloatChars (cs : List Char) : Option Rat :=
  match splitSep '.' cs with
  | [a] => if a ≠ [] && a.all Char.isDigit then some ((digitsVal a : Nat) : Rat) else none
  | [a, b] =>
    if (a ≠ [] || b ≠ []) && a.all Char.isDigit && b.all Char.isDigit then
      some ((digitsVal a : Rat) + (digitsVal b : Rat) / ((10 : Rat) ^ b.length))
    else none
  | _ => none

/-- Model of Python `float(s)` on a string: optional sign then a decimal
form. -/
def pyFloatString (s : String) : Option Rat :=
  match s.data with
  | '-' :: cs => (pyFloatChars cs).map (fun q => -q)
  | '+' :: cs => pyFloatChars cs
  | cs => pyFloatChars cs

/-- Model of Python `int(v)` on a scalar (`int` of a float truncates toward
zero; `int` of a string parses it). -/
def pyIntOfVal : Val → Option Int
  | .intV n => some n
  | .floatV q => some (q.num / (q.den : Int))
  | .strV s => pyIntString s

/-- Model of Python `float(v)` on a scalar. -/
def pyFloatOfVal : Val → Option Rat
  | .intV n => some (n : Rat)
  | .floatV q => some q
  | .strV s => pyFloatString s

/-! ### Node labels -/

/-- The node label `id + ":" + str(i)` built by `conn_to_graph`. -/
def mkLabel (id : String) (i : Nat) : String := id ++ ":" ++ natStr i

/-- Model of `re.search('(.+):(.+)', label).groups()`: with both groups
greedy, the label splits at the last colon that has at least one character
on each side; `none` models the match failure (caught by the bare
`except:` in `graph_to_conn`). -/
def regexLabel (cs : List Char) : Option (List Char × List Char) :=
  let cands := (List.range cs.length).filter
    (fun i => cs.getD i ' ' = ':' && 1 ≤ i && i + 2 ≤ cs.length)
  match cands.getLast? with
  | none => none
  | some i => some (cs.take i, cs.drop (i + 1))

/-- Errors raised by `graph_to_conn`, one constructor per distinct raise
site / uncaught exception kind. -/
inductive DecErr where
  /-- `ValueError('graph must be bipartite')` from the `nx.is_bipartite` check. -/
  | notBipartite : DecErr
  /-- `ValueError('incorrectly formatted node label: ...')`. -/
  | malformedLabel : String → DecErr
  /-- Uncaught `ValueError` from `int(n)` on a label's index part. -/
  | intParse : String → DecErr
  /-- `ValueError('incorrectly formatted graph')` (prefix count ≠ 2). -/
  | badPrefixCount : DecErr
  /-- `ValueError('nodes must be numbered consecutively from 0..N')`. -/
  | nonConsecutive : DecErr
  /-- `ValueError('invalid neuron type')`. -/
  | invalidNeuronType : DecErr
  /-- Uncaught `KeyError` when a node lacks the `neuron_type` attribute. -/
  | missingNeuronType : String → DecErr
  /-- Uncaught `ValueError` from `max([])` when the graph has no edges. -/
  | emptyMax : DecErr
  /-- Uncaught `ValueError` unpacking `label.split(':')` into two parts. -/
  | splitUnpack : String → DecErr
  /-- Uncaught `ValueError` from `int(...)` on an edge attribute value. -/
  | attrIntError : DecErr
  /-- Uncaught `ValueError` from `float(...)` on an edge attribute value. -/
  | attrFloatError : DecErr
deriving DecidableEq, Repr

/-- Model of the label parsing step of `graph_to_conn`'s node loop:
`re.search('(.+):(.+)', label)` (its failure raises the malformed-label
error) followed by `int(n)` on the second group (its failure propagates as
an uncaught `ValueError`). -/
def parseNodeLabel (s : String) : Except DecErr (String × Int) :=
  match regexLabel s.data with
  | none => .error (.malformedLabel s)
  | some (idc, nc) =>
    match pyIntString ⟨nc⟩ with
    | none => .error (.intParse ⟨nc⟩)
    | some k => .ok (⟨idc⟩, k)

/-- Model of `id, i = label.split(':'); i = int(i)` used in the edge loop
of `graph_to_conn`: the split must produce exactly two parts (otherwise
the unpacking raises) and the second must parse as an integer. -/
def splitLabelO (s : String) : Option (String × Int) :=
  match splitSep ':' s.data with
  | [a, b] => (pyIntString ⟨b⟩).map (fun k => ((⟨a⟩ : String), k))
  | _ => none

/-- `splitLabelO` with the corresponding uncaught errors. -/
def splitLabel (s : String) : Except DecErr (String × Int) :=
  match splitSep ':' s.data with
  | [a, b] =>
    match pyIntString ⟨b⟩ with
    | none => .error (.intParse (⟨b⟩ : String))
    | some k => .ok ((⟨a⟩ : String), k)
  | _ => .error (.splitUnpack s)

/-! ### The multigraph model -/

/-- Model of a `networkx.MultiDiGraph` as used by the codec: a node list
(dict order pinned to insertion order), the `neuron_type` node attributes,
and a flat edge list.  Each edge is `(u, v, key, attribute map)`; parallel
edges of the same ordered pair carry distinct keys (a `networkx`
invariant). -/
structure MultiDiGraph where
  nodes : List String
  nodeType : List (String × String)
  edges : List (String × String × Nat × List (String × Val))
deriving DecidableEq, Repr

/-- Lookup of the `neuron_type` attribute of a node
(`g.node[label]['neuron_type']`, `none` modelling `KeyError`). -/
def ntLookup (g : MultiDiGraph) (label : String) : Option String :=
  (g.nodeType.find? (fun e => e.1 = label)).map (·.2)

/-- The key dictionary `g[u][v]` of an ordered node pair: the list of
`(key, attribute map)` entries of its parallel edges, in insertion
order. -/
def keydict (g : MultiDiGraph) (u v : String) : List (Nat × List (String × Val)) :=
  g.edges.filterMap (fun e => if e.1 = u ∧ e.2.1 = v then some (e.2.2.1, e.2.2.2) else none)

/-- The ordered pair projection of `g.edges()`: one entry per edge, with
repetitions for parallel edges. -/
def pairsOf (g : MultiDiGraph) : List (String × String) :=
  g.edges.map (fun e => (e.1, e.2.1))

/-- Model of `g.add_edge(u, v)` with no explicit key: `networkx` assigns
the next free integer key, which (keys being auto-assigned throughout)
is the current number of parallel edges of the pair. -/
def addEdgeAuto (g : MultiDiGraph) (u v : String) : MultiDiGraph :=
  { g with edges := g.edges ++ [(u, v, (keydict g u v).length, [])] }

/-- Errors raised by `conn_to_graph`. -/
inductive EncErr where
  /-- Uncaught `KeyError` from `g[u][v][conn][name] = value` when the pair
  has no edge with key `conn` (or no edge at all). -/
  | keyError : EncErr
deriving DecidableEq, Repr

/-- Overwrite-or-append on an attribute map (Python dict assignment;
keys are unique, so replacing the first occurrence is the dict write). -/
def attrSet : List (String × Val) → String → Val → List (String × Val)
  | [], name, v => [(name, v)]
  | e :: rest, name, v =>
    if e.1 = name then (name, v) :: rest else e :: attrSet rest name v

/-- Model of `g[u][v][k][name] = value`: raises `KeyError` unless the edge
`(u, v, k)` exists. -/
def setEdgeAttr (g : MultiDiGraph) (u v : String) (k : Nat) (name : String) (v0 : Val) :
    Except EncErr MultiDiGraph :=
  if g.edges.any (fun e => e.1 = u ∧ e.2.1 = v ∧ e.2.2.1 = k) then
    let es := g.edges.map fun e =>
      if e.1 = u ∧ e.2.1 = v ∧ e.2.2.1 = k
      then (e.1, e.2.1, e.2.2.1, attrSet e.2.2.2 name v0) else e
    .ok { g with edges := es }
  else .error .keyError

/-- Overwrite-or-append on the `neuron_type` node attribute map (Python
dict assignment `g.node[label]['neuron_type'] = ty`). -/
def ntSet : List (String × String) → String → String → List (String × String)
  | [], label, ty => [(label, ty)]
  | e :: rest, label, ty =>
    if e.1 = label then (label, ty) :: rest else e :: ntSet rest label ty

/-- Apply a sequence of `neuron_type` assignments in order. -/
def applyTags (l : List (String × String)) (ops : List (String × String)) :
    List (String × String) :=
  ops.foldl (fun l p => ntSet l p.1 p.2) l

/-- Undirected adjacency of two labels (an edge in either direction), as
used by the bipartiteness test. -/
def undirAdj (g : MultiDiGraph) (u v : String) : Bool :=
  g.edges.any (fun e => (e.1 = u ∧ e.2.1 = v) ∨ (e.1 = v ∧ e.2.1 = u))

/-- All boolean lists of length `n` (candidate two-colourings). -/
def boolLists : Nat → List (List Bool)
  | 0 => [[]]
  | n + 1 => (boolLists n).flatMap (fun l => [true :: l, false :: l])

/-- Whether a colouring (indexed like `g.nodes`) is a proper two-colouring
of the undirected graph underlying `g`. -/
def colorOK (g : MultiDiGraph) (c : List Bool) : Bool :=
  (List.range g.nodes.length).all fun i =>
    (List.range g.nodes.length).all fun j =>
      !(undirAdj g (g.nodes.getD i "") (g.nodes.getD j "")) ||
        (c.getD i false ≠ c.getD j false)

/-- Model of `networkx.is_bipartite(g)`: the undirected graph underlying
`g` admits a proper two-colouring of its nodes (a self-loop or odd cycle
makes this false). -/
def isBipartiteStruct (g : MultiDiGraph) : Bool :=
  (boolLists g.nodes.length).any (colorOK g)

/-! ### The connectivity model -/

/-- Modelled from the spec: the composite key of the connectivity object's
sparse parameter store.  The source stores it as the string
`src + '/' + dest + '/' + str(slot) + '/' + name` and recovers the fields
with `key.split('/')`; following the spec's design note the key is modelled
structurally (population ids and parameter names are assumed free of `/`,
which the claims never exercise). -/
structure DKey where
  src : String
  dest : String
  slot : Nat
  name : String
deriving DecidableEq, Repr

/-- Modelled from the spec: `base.BaseConnectivity` / `core.Connectivity`
(absent from the source slice).  Two populations `A_id`/`B_id` with sizes
`N_A`/`N_B`, the parallel-connection capacity `N_mult`, the optionally
typed variant (`typed` with per-type counts and the index-translation
table `idxTranslate : population id → type ('gpot'/'spike') → local type
index → global index`), and the sparse parameter store `dat`: per
composite key, the per-(i, j) matrix of set values (in insertion order).
Reads of unset entries yield `0`, as the source's dense zero-initialised
matrices do. -/
structure Conn where
  A_id : String
  B_id : String
  N_A : Nat
  N_B : Nat
  N_mult : Nat
  typed : Bool
  N_A_gpot : Nat
  N_A_spike : Nat
  N_B_gpot : Nat
  N_B_spike : Nat
  idxTranslate : String → String → Nat → Nat
  dat : List (DKey × List ((Int × Int) × Val))

/-- Modelled from the spec: `c.N(id)`, the size of the population named
`id` (well-formed keys only ever use the two population ids). -/
def Conn.N (c : Conn) (id : String) : Nat :=
  if id = c.A_id then c.N_A else c.N_B

/-- Value lookup in a per-key matrix; unset entries read as the integer
`0`. -/
def pairsLookup (ps : List ((Int × Int) × Val)) (i j : Int) : Val :=
  match ps.find? (fun e => e.1 = (i, j)) with
  | some e => e.2
  | none => .intV 0

/-- Replace-first-or-append write in a per-key matrix (matrix cells are
unique per `(i, j)`). -/
def pairsSet : List ((Int × Int) × Val) → Int → Int → Val → List ((Int × Int) × Val)
  | [], i, j, v => [((i, j), v)]
  | e :: rest, i, j, v =>
    if e.1 = (i, j) then ((i, j), v) :: rest else e :: pairsSet rest i j v

/-- The store-level write behind `Conn.set`: update the matrix of the
(unique) entry of the composite key, or append a fresh one. -/
def datSet : List (DKey × List ((Int × Int) × Val)) → DKey → Int → Int → Val →
    List (DKey × List ((Int × Int) × Val))
  | [], k, i, j, v => [(k, [((i, j), v)])]
  | e :: rest, k, i, j, v =>
    if e.1 = k then (k, pairsSet e.2 i j v) :: rest else e :: datSet rest k i j v

/-- The store-level read behind `Conn.get`. -/
def datGet (dat : List (DKey × List ((Int × Int) × Val))) (k : DKey) (i j : Int) : Val :=
  match dat.find? (fun e => e.1 = k) with
  | some e => pairsLookup e.2 i j
  | none => .intV 0

/-- Modelled from the spec: the keyed read
`c[src, i, dest, j, slot, name]` (for the typed variant,
`c[src, 'all', i, dest, 'all', j, slot, name]`: the `'all'` port selects
the combined index space, which is how the store is addressed here
throughout). -/
def Conn.get (c : Conn) (src dest : String) (i j : Int) (slot : Nat) (name : String) : Val :=
  datGet c.dat (DKey.mk src dest slot name) i j

/-- Modelled from the spec: the keyed write
`c[src, i, dest, j, slot, name] = v`. -/
def Conn.set (c : Conn) (src dest : String) (i j : Int) (slot : Nat) (name : String)
    (v : Val) : Conn :=
  { c with dat := datSet c.dat (DKey.mk src dest slot name) i j v }

/-- The store keys whose composite string matches `.*\/conn$`, i.e. whose
parameter-name field is `"conn"`, in store order. -/
def connKeys (c : Conn) : List DKey :=
  (c.dat.map (·.1)).filter (fun k => k.name = "conn")

/-- The store keys not matching `.*\/conn$`, in store order. -/
def nonConnKeys (c : Conn) : List DKey :=
  (c.dat.map (·.1)).filter (fun k => k.name ≠ "conn")

/-- `itertools.product(xrange(a), xrange(b))` in row-major order. -/
def prodRange (a b : Nat) : List (Nat × Nat) :=
  (List.range a).flatMap (fun i => (List.range b).map (fun j => (i, j)))

/-! ### Encode: `conn_to_graph` -/

/-- The ordered label pairs at which one `"conn"` key adds an edge: the
`(i, j)` of the product loop whose presence flag compares equal to `1`. -/
def activePairs (c : Conn) (k : DKey) : List (String × String) :=
  (prodRange (c.N k.src) (c.N k.dest)).filterMap fun p =>
    if pyEqOne (c.get k.src k.dest p.1 p.2 k.slot "conn")
    then some (mkLabel k.src p.1, mkLabel k.dest p.2) else none

/-- The sequence of `g.add_edge(...)` calls performed by the edge loop of
`conn_to_graph`, flattened in execution order. -/
def edgeOps (c : Conn) : List (String × String) :=
  (connKeys c).flatMap (activePairs c)

/-- The sequence of `g[u][v][slot][name] = value` writes performed by the
attribute loop of `conn_to_graph`, flattened in execution order: one write
per non-`"conn"` key and product position whose stored value is truthy. -/
def attrOps (c : Conn) : List ((String × String) × Nat × String × Val) :=
  (nonConnKeys c).flatMap fun k =>
    (prodRange (c.N k.src) (c.N k.dest)).filterMap fun p =>
      let v := c.get k.src k.dest p.1 p.2 k.slot k.name
      if pyTruthy v
      then some ((mkLabel k.src p.1, mkLabel k.dest p.2), k.slot, k.name, v) else none

/-- The `neuron_type` assignments performed for a typed connectivity
object, in source order: `A` gpot, `B` gpot, `A` spike, `B` spike, each
indexed through the translation table. -/
def tagOps (c : Conn) : List (String × String) :=
  ((List.range c.N_A_gpot).map fun i =>
    (mkLabel c.A_id (c.idxTranslate c.A_id "gpot" i), "gpot")) ++
  ((List.range c.N_B_gpot).map fun i =>
    (mkLabel c.B_id (c.idxTranslate c.B_id "gpot" i), "gpot")) ++
  ((List.range c.N_A_spike).map fun i =>
    (mkLabel c.A_id (c.idxTranslate c.A_id "spike" i), "spike")) ++
  ((List.range c.N_B_spike).map fun i =>
    (mkLabel c.B_id (c.idxTranslate c.B_id "spike" i), "spike"))

/-- Apply the attribute writes in order; a failing write raises
`KeyError`. -/
def applyAttrOps : List ((String × String) × Nat × String × Val) → MultiDiGraph →
    Except EncErr MultiDiGraph
  | [], g => .ok g
  | op :: rest, g =>
    match setEdgeAttr g op.1.1 op.1.2 op.2.1 op.2.2.1 op.2.2.2 with
    | .error e => .error e
    | .ok g1 => applyAttrOps rest g1

/-- Apply the edge additions in order. -/
def applyEdgeOps (ops : List (String × String)) (g : MultiDiGraph) : MultiDiGraph :=
  ops.foldl (fun g p => addEdgeAuto g p.1 p.2) g

/-- Model of `conn_to_graph`: nodes `id:i` for both populations, the
`neuron_type` tags for the typed variant, one auto-keyed edge per
`"conn"`-flagged triple, then the attribute writes (whose failure raises
`KeyError`). -/
def conn_to_graph (c : Conn) : Except EncErr MultiDiGraph :=
  let aNodes := (List.range c.N_A).map (mkLabel c.A_id)
  let bNodes := (List.range c.N_B).map (mkLabel c.B_id)
  let nt := if c.typed then applyTags [] (tagOps c) else []
  let g0 : MultiDiGraph := ⟨aNodes ++ bNodes, nt, []⟩
  applyAttrOps (attrOps c) (applyEdgeOps (edgeOps c) g0)

/-! ### Decode: `graph_to_conn` -/

/-- One step of building `node_dict`: add an index to a population's index
set (Python `set` semantics, insertion order pinned). -/
def ndInsert : List (String × List Int) → String → Int → List (String × List Int)
  | [], id, n => [(id, [n])]
  | e :: rest, id, n =>
    if e.1 = id then (id, if n ∈ e.2 then e.2 else e.2 ++ [n]) :: rest
    else e :: ndInsert rest id n

/-- The node-categorisation loop of `graph_to_conn` from a given
accumulator: parse every label in order (failures raise) and group the
parsed indices by population id. -/
def buildND (acc : List (String × List Int)) : List String →
    Except DecErr (List (String × List Int))
  | [] => .ok acc
  | s :: rest =>
    match parseNodeLabel s with
    | .error e => .error e
    | .ok p => buildND (ndInsert acc p.1 p.2) rest

/-- The node-categorisation loop of `graph_to_conn`. -/
def buildNodeDict (labels : List String) : Except DecErr (List (String × List Int)) :=
  buildND [] labels

/-- The `max` of a nonempty integer list (Python `max`); `0` for `[]`,
which the decoder never reaches. -/
def maxIntList : List Int → Int
  | [] => 0
  | x :: xs => xs.foldl max x

/-- The consecutive-numbering check of `graph_to_conn`:
`set(range(max(S) + 1)) == S`. -/
def consecutiveB (s : List Int) : Bool :=
  let m := maxIntList s
  s.all (fun x => 0 ≤ x && x ≤ m) && (List.range (m + 1).toNat).all (fun k => (k : Int) ∈ s)

/-- The per-population neuron-type counting loop of `graph_to_conn` from
a given accumulator: a missing `neuron_type` attribute raises `KeyError`
and any value other than `gpot`/`spike` raises the invalid-neuron-type
error. -/
def countT (g : MultiDiGraph) (id : String) : List Int → Nat × Nat →
    Except DecErr (Nat × Nat)
  | [], acc => .ok acc
  | n :: rest, acc =>
    match ntLookup g (id ++ ":" ++ intStr n) with
    | none => .error (.missingNeuronType (id ++ ":" ++ intStr n))
    | some t =>
      if t = "gpot" then countT g id rest (acc.1 + 1, acc.2)
      else if t = "spike" then countT g id rest (acc.1, acc.2 + 1)
      else .error .invalidNeuronType

/-- The per-population neuron-type counting loop of `graph_to_conn`:
returns `(gpot count, spike count)`. -/
def countTypesPop (g : MultiDiGraph) (id : String) (ns : List Int) :
    Except DecErr (Nat × Nat) :=
  countT g id ns (0, 0)

/-- The neuron-type counting phase over both populations (typed decode
only). -/
def typedCounts (g : MultiDiGraph) (aid : String) (sa : List Int) (bid : String)
    (sb : List Int) : Except DecErr ((Nat × Nat) × Nat × Nat) :=
  match countTypesPop g aid sa with
  | .error e => .error e
  | .ok pa =>
    match countTypesPop g bid sb with
    | .error e => .error e
    | .ok pb => .ok (pa, pb)

/-- Keep-first deduplication relative to an already-seen list. -/
def dedupAux (seen : List (String × String)) : List (String × String) →
    List (String × String)
  | [] => []
  | p :: ps => if p ∈ seen then dedupAux seen ps else p :: dedupAux (p :: seen) ps

/-- Keep-first deduplication (Python `set(g.edges())`, order irrelevant to
its only consumer `max`). -/
def dedupPairs (l : List (String × String)) : List (String × String) :=
  dedupAux [] l

/-- `max([len(g[u][v]) for u, v in set(g.edges())])` over a graph with at
least one edge. -/
def maxMult (g : MultiDiGraph) : Nat :=
  ((dedupPairs (pairsOf g)).map (fun p => (keydict g p.1 p.2).length)).foldl max 0

/-- The value coercion of the decoder's attribute writes: `int(...)` for
the parameter named `"id"`, `float(...)` for every other name; parse
failures propagate as uncaught `ValueError`s. -/
def coerceParam (name : String) (v : Val) : Except DecErr Val :=
  if name = "id" then
    match pyIntOfVal v with
    | some n => .ok (.intV n)
    | none => .error .attrIntError
  else
    match pyFloatOfVal v with
    | some q => .ok (.floatV q)
    | none => .error .attrFloatError

/-- The coerced attribute writes of one enumerated slot, in attribute
order. -/
def setSlotAttrs (a : String) (i : Int) (b : String) (j : Int) (slot : Nat) :
    List (String × Val) → Conn → Except DecErr Conn
  | [], c => .ok c
  | nv :: rest, c =>
    match coerceParam nv.1 nv.2 with
    | .error e => .error e
    | .ok w => setSlotAttrs a i b j slot rest (c.set a b i j slot nv.1 w)

/-- The writes performed for one enumerated slot of a pair's key
dictionary: `c[a, i, b, j, slot] = 1` (i.e. the `"conn"` flag) followed by
one coerced write per attribute of that slot's edge. -/
def setSlotParams (a : String) (i : Int) (b : String) (j : Int) (slot : Nat)
    (attrs : List (String × Val)) (c : Conn) : Except DecErr Conn :=
  setSlotAttrs a i b j slot attrs (c.set a b i j slot "conn" (.intV 1))

/-- Walk an enumerated key dictionary, writing each enumerated position as
that pair's parallel-slot number. -/
def procKd (a : String) (i : Int) (b : String) (j : Int) :
    List (Nat × Nat × List (String × Val)) → Conn → Except DecErr Conn
  | [], c => .ok c
  | t :: rest, c =>
    match setSlotParams a i b j t.1 t.2.2 c with
    | .error e => .error e
    | .ok c1 => procKd a i b j rest c1

/-- Processing of one entry of `g.edges()`: split both labels, then walk
the pair's whole key dictionary with `enumerate`. -/
def processEdge (g : MultiDiGraph) (c : Conn) (u v : String) : Except DecErr Conn :=
  match splitLabel u with
  | .error e => .error e
  | .ok pa =>
    match splitLabel v with
    | .error e => .error e
    | .ok pb => procKd pa.1 pa.2 pb.1 pb.2 (keydict g u v).enum c

/-- The edge-processing loop of `graph_to_conn` (`for edge in
g.edges()`). -/
def decodeEdges (g : MultiDiGraph) : List (String × String × Nat × List (String × Val)) →
    Conn → Except DecErr Conn
  | [], c => .ok c
  | e :: rest, c =>
    match processEdge g c e.1 e.2.1 with
    | .error err => .error err
    | .ok c1 => decodeEdges g rest c1

/-- Modelled from the spec: the index-translation table installed by the
`core.Connectivity` constructor, mapping gpot indices first and spike
indices after them. -/
def defaultTranslate (aid : String) (agpot : Nat) (bgpot : Nat) :
    String → String → Nat → Nat :=
  fun id ty i => if ty = "gpot" then i else (if id = aid then agpot else bgpot) + i

/-- Model of `graph_to_conn` (the `conn_type` argument becomes the flag
`typedOut`: `true` for `core.Connectivity`, `false` for
`base.BaseConnectivity`).  The phases mirror the source: structural
bipartiteness, label parsing, prefix count, consecutive numbering, type
counting (typed only), parallel-edge maximum, then the per-edge parameter
writes into a freshly allocated connectivity object. -/
def graph_to_conn (g : MultiDiGraph) (typedOut : Bool) : Except DecErr Conn :=
  if !isBipartiteStruct g then .error .notBipartite
  else
    match buildNodeDict g.nodes with
    | .error e => .error e
    | .ok [(aid, sa), (bid, sb)] =>
      if !(consecutiveB sa && consecutiveB sb) then .error .nonConsecutive
      else
        match (if typedOut then typedCounts g aid sa bid sb
               else .ok ((0, 0), (0, 0))) with
        | .error e => .error e
        | .ok tc =>
          if pairsOf g = [] then .error .emptyMax
          else
            let nm := maxMult g
            let c0 : Conn :=
              if typedOut then
                ⟨aid, bid, tc.1.1 + tc.1.2, tc.2.1 + tc.2.2, nm, true,
                  tc.1.1, tc.1.2, tc.2.1, tc.2.2,
                  defaultTranslate aid tc.1.1 tc.2.1, []⟩
              else
                ⟨aid, bid, sa.length, sb.length, nm, false, 0, 0, 0, 0, fun _ _ i => i, []⟩
            decodeEdges g g.edges c0
    | .ok _ => .error .badPrefixCount

/-! ### Lemmas: decimal strings -/

theorem digitChar_toNat {d : Nat} (h : d < 10) : (digitChar d).toNat = 48 + d := by
  interval_cases d <;> rfl

theorem digitChar_isDigit {d : Nat} (h : d < 10) : (digitChar d).isDigit = true := by
  interval_cases d <;> rfl

theorem isDigit_ne_colon {c : Char} (h : c.isDigit = true) : c ≠ ':' := by
  intro e; subst e; exact absurd h (by decide)

theorem isDigit_ne_minus {c : Char} (h : c.isDigit = true) : c ≠ '-' := by
  intro e; subst e; exact absurd h (by decide)

theorem isDigit_ne_plus {c : Char} (h : c.isDigit = true) : c ≠ '+' := by
  intro e; subst e; exact absurd h (by decide)

theorem digitsVal_append_one (a : List Char) (c : Char) :
    digitsVal (a ++ [c]) = 10 * digitsVal a + (c.toNat - 48) := by
  simp [digitsVal, List.foldl_append]

theorem natStrAux_spec (fuel : Nat) : ∀ n : Nat, n < 10 ^ (fuel + 1) →
    natStrAux (fuel + 1) n ≠ [] ∧ (∀ c ∈ natStrAux (fuel + 1) n, c.isDigit = true) ∧
    digitsVal (natStrAux (fuel + 1) n) = n := by
  induction fuel with
  | zero =>
    intro n hn
    rw [pow_one] at hn
    rw [natStrAux, if_pos hn]
    refine ⟨by simp, ?_, ?_⟩
    · intro c hc
      simp only [List.mem_singleton] at hc
      subst hc
      exact digitChar_isDigit hn
    · simp [digitsVal, digitChar_toNat hn]
  | succ fuel ih =>
    intro n hn
    rw [natStrAux]
    by_cases h10 : n < 10
    · rw [if_pos h10]
      refine ⟨by simp, ?_, ?_⟩
      · intro c hc
        simp only [List.mem_singleton] at hc
        subst hc
        exact digitChar_isDigit h10
      · simp [digitsVal, digitChar_toNat h10]
    · rw [if_neg h10]
      have hdiv : n / 10 < 10 ^ (fuel + 1) := by
        rw [Nat.div_lt_iff_lt_mul (by omega)]
        calc n < 10 ^ (fuel + 1 + 1) := hn
        _ = 10 ^ (fuel + 1) * 10 := by ring
      obtain ⟨h1, h2, h3⟩ := ih (n / 10) hdiv
      refine ⟨by simp, ?_, ?_⟩
      · intro c hc
        rcases List.mem_append.mp hc with hc | hc
        · exact h2 c hc
        · simp only [List.mem_singleton] at hc
          subst hc
          exact digitChar_isDigit (Nat.mod_lt _ (by omega))
      · rw [digitsVal_append_one, h3, digitChar_toNat (Nat.mod_lt _ (by omega))]
        omega

theorem natStrL_spec (n : Nat) :
    natStrL n ≠ [] ∧ (∀ c ∈ natStrL n, c.isDigit = true) ∧ digitsVal (natStrL n) = n := by
  have hlt : n < 10 ^ (n + 1) :=
    lt_of_lt_of_le (Nat.lt_pow_self (by norm_num) n)
      (Nat.pow_le_pow_right (by norm_num) (Nat.le_succ n))
  exact natStrAux_spec n n hlt

theorem natStrL_ne_nil (n : Nat) : natStrL n ≠ [] := (natStrL_spec n).1

theorem natStrL_all_digits (n : Nat) : ∀ c ∈ natStrL n, c.isDigit = true :=
  (natStrL_spec n).2.1

theorem digitsVal_natStrL (n : Nat) : digitsVal (natStrL n) = n := (natStrL_spec n).2.2

theorem parseDigits_natStrL (n : Nat) : parseDigits (natStrL n) = some n := by
  have h1 := natStrL_ne_nil n
  have h2 := natStrL_all_digits n
  have hcond : (natStrL n ≠ [] && (natStrL n).all Char.isDigit) = true := by
    simp only [Bool.and_eq_true, ne_eq, decide_eq_true_eq, List.all_eq_true]
    exact ⟨h1, h2⟩
  rw [parseDigits, if_pos hcond]
  exact congrArg some (digitsVal_natStrL n)

theorem pyIntString_natStr (n : Nat) : pyIntString (natStr n) = some (n : Int) := by
  obtain ⟨c, cs, hc⟩ : ∃ c cs, natStrL n = c :: cs := by
    cases h : natStrL n with
    | nil => exact absurd h (natStrL_ne_nil n)
    | cons c cs => exact ⟨c, cs, rfl⟩
  have hd : c.isDigit = true := natStrL_all_digits n c (by rw [hc]; exact List.mem_cons_self _ _)
  have hdata : (natStr n).data = c :: cs := by simp [natStr, hc]
  have hpd : parseDigits (c :: cs) = some n := hc ▸ parseDigits_natStrL n
  simp only [pyIntString, hdata, if_neg (isDigit_ne_minus hd), if_neg (isDigit_ne_plus hd), hpd,
    Option.map_some]
  rfl

theorem natStr_injective : Function.Injective natStr := by
  intro a b h
  have : pyIntString (natStr a) = pyIntString (natStr b) := by rw [h]
  rw [pyIntString_natStr, pyIntString_natStr] at this
  simpa using this

theorem intStr_ofNat (n : Nat) : intStr (n : Int) = natStr n := by
  simp [intStr]

/-! ### Lemmas: labels -/

theorem mkLabel_data (id : String) (i : Nat) :
    (mkLabel id i).data = id.data ++ ':' :: natStrL i := by
  simp [mkLabel, String.data_append, natStr]

/-- A population id is usable in labels when it is nonempty and contains
no colon. -/
def goodId (id : String) : Prop := id.data ≠ [] ∧ ∀ c ∈ id.data, c ≠ ':'

instance (id : String) : Decidable (goodId id) := by unfold goodId; infer_instance

theorem regexLabel_split {a ds : List Char} (ha : a ≠ []) (hac : ∀ c ∈ a, c ≠ ':')
    (hd : ds ≠ []) (hdc : ∀ c ∈ ds, c ≠ ':') :
    regexLabel (a ++ ':' :: ds) = some (a, ds) := by
  have hlen : (a ++ ':' :: ds).length = a.length + 1 + ds.length := by
    simp; omega
  have hfilter : (List.range (a ++ ':' :: ds).length).filter
      (fun i => (a ++ ':' :: ds).getD i ' ' = ':' && 1 ≤ i &&
        i + 2 ≤ (a ++ ':' :: ds).length) = [a.length] := by
    rw [hlen]
    have hsplit : a.length + 1 + ds.length = (a.length + 1) + ds.length := rfl
    rw [hsplit, List.range_add, List.range_succ, List.filter_append, List.filter_append]
    have e1 : (List.range a.length).filter
        (fun i => (a ++ ':' :: ds).getD i ' ' = ':' && 1 ≤ i &&
          i + 2 ≤ a.length + 1 + ds.length) = [] := by
      apply List.filter_eq_nil_iff.mpr
      intro i hi
      rw [List.mem_range] at hi
      have hgd : (a ++ ':' :: ds).getD i ' ' = a.getD i ' ' := by
        simp [List.getD_eq_getElem?_getD, List.getElem?_append_left hi]
      simp only [hgd, Bool.and_eq_true, decide_eq_true_eq]
      rintro ⟨⟨hcol, -⟩, -⟩
      have hia : a.getD i ' ' = a[i] := by
        simp [List.getD_eq_getElem?_getD, List.getElem?_eq_getElem hi]
      exact hac _ (hia ▸ List.getElem_mem hi) (hia ▸ hcol)
    have e2 : List.filter
        (fun i => (a ++ ':' :: ds).getD i ' ' = ':' && 1 ≤ i &&
          i + 2 ≤ a.length + 1 + ds.length) [a.length] = [a.length] := by
      have hmid : (a ++ ':' :: ds).getD a.length ' ' = ':' := by
        simp [List.getD_eq_getElem?_getD, List.getElem?_append_right (Nat.le_refl a.length)]
      have h1 : 1 ≤ a.length := by
        cases a with
        | nil => exact absurd rfl ha
        | cons _ _ => simp
      have h2 : 1 ≤ ds.length := by
        cases ds with
        | nil => exact absurd rfl hd
        | cons _ _ => simp
      have hcond : ((a ++ ':' :: ds).getD a.length ' ' = ':' && 1 ≤ a.length &&
          a.length + 2 ≤ a.length + 1 + ds.length) = true := by
        simp only [Bool.and_eq_true, decide_eq_true_eq]
        exact ⟨⟨hmid, h1⟩, by omega⟩
      rw [List.filter_singleton, hcond]
      rfl
    have e3 : ((List.range ds.length).map (fun x => a.length + 1 + x)).filter
        (fun i => (a ++ ':' :: ds).getD i ' ' = ':' && 1 ≤ i &&
          i + 2 ≤ a.length + 1 + ds.length) = [] := by
      apply List.filter_eq_nil_iff.mpr
      intro i hi
      rw [List.mem_map] at hi
      obtain ⟨t, ht, rfl⟩ := hi
      rw [List.mem_range] at ht
      have hge : a.length ≤ a.length + 1 + t := by omega
      have : (a ++ ':' :: ds).getD (a.length + 1 + t) ' ' =
          (':' :: ds).getD (a.length + 1 + t - a.length) ' ' := by
        simp [List.getD_eq_getElem?_getD, List.getElem?_append_right hge]
      have hidx : a.length + 1 + t - a.length = t + 1 := by omega
      rw [hidx] at this
      have hds : (':' :: ds).getD (t + 1) ' ' = ds.getD t ' ' := by simp
      simp only [this, hds, Bool.and_eq_true, decide_eq_true_eq]
      rintro ⟨⟨hcol, -⟩, -⟩
      have hit : ds.getD t ' ' = ds[t] := by
        simp [List.getD_eq_getElem?_getD, List.getElem?_eq_getElem ht]
      exact hdc _ (hit ▸ List.getElem_mem ht) (hit ▸ hcol)
    rw [e1, e2, e3]
    simp
  rw [regexLabel]
  simp only [hfilter, List.getLast?_singleton]
  have htake : (a ++ ':' :: ds).take a.length = a := List.take_left a _
  have hdrop : (a ++ ':' :: ds).drop (a.length + 1) = ds := by
    have : a.length + 1 = (a ++ [':']).length := by simp
    rw [this]
    have : a ++ ':' :: ds = (a ++ [':']) ++ ds := by simp
    rw [this, List.drop_left]
  rw [htake, hdrop]

theorem parseNodeLabel_mkLabel {id : String} (h : goodId id) (i : Nat) :
    parseNodeLabel (mkLabel id i) = .ok (id, (i : Int)) := by
  obtain ⟨hne, hnc⟩ := h
  have hre := regexLabel_split hne hnc (natStrL_ne_nil i)
    (fun c hc => isDigit_ne_colon (natStrL_all_digits i c hc))
  have hint : pyIntString ⟨natStrL i⟩ = some (i : Int) := pyIntString_natStr i
  simp only [parseNodeLabel, mkLabel_data, hre, hint]

theorem splitSep_of_not_mem {sep : Char} {cs : List Char} (h : ∀ c ∈ cs, c ≠ sep) :
    splitSep sep cs = [cs] := by
  induction cs with
  | nil => rfl
  | cons c rest ih =>
    rw [splitSep, ih (fun x hx => h x (List.mem_cons_of_mem _ hx))]
    simp [h c (List.mem_cons_self _ _)]

theorem splitSep_append {sep : Char} {a b : List Char} (h : ∀ c ∈ a, c ≠ sep) :
    splitSep sep (a ++ sep :: b) = a :: splitSep sep b := by
  induction a with
  | nil => simp [splitSep]
  | cons c rest ih =>
    have hcs : c ≠ sep := h c (List.mem_cons_self _ _)
    rw [List.cons_append, splitSep, ih (fun x hx => h x (List.mem_cons_of_mem _ hx))]
    simp [hcs]

theorem splitLabelO_mkLabel {id : String} (h : goodId id) (i : Nat) :
    splitLabelO (mkLabel id i) = some (id, (i : Int)) := by
  obtain ⟨hne, hnc⟩ := h
  have hsp : splitSep ':' (mkLabel id i).data = [id.data, natStrL i] := by
    rw [mkLabel_data, splitSep_append hnc,
      splitSep_of_not_mem (fun c hc => isDigit_ne_colon (natStrL_all_digits i c hc))]
  have hint : pyIntString ⟨natStrL i⟩ = some (i : Int) := pyIntString_natStr i
  simp only [splitLabelO, hsp, hint, Option.map_some]
  rfl

theorem splitLabel_mkLabel {id : String} (h : goodId id) (i : Nat) :
    splitLabel (mkLabel id i) = .ok (id, (i : Int)) := by
  obtain ⟨hne, hnc⟩ := h
  have hsp : splitSep ':' (mkLabel id i).data = [id.data, natStrL i] := by
    rw [mkLabel_data, splitSep_append hnc,
      splitSep_of_not_mem (fun c hc => isDigit_ne_colon (natStrL_all_digits i c hc))]
  have hint : pyIntString ⟨natStrL i⟩ = some (i : Int) := pyIntString_natStr i
  simp only [splitLabel, hsp, hint]

theorem mkLabel_inj {id id' : String} (h : goodId id) (h' : goodId id')
    {i i' : Nat} (he : mkLabel id i = mkLabel id' i') : id = id' ∧ i = i' := by
  have := splitLabelO_mkLabel h i
  rw [he, splitLabelO_mkLabel h' i'] at this
  have hp : id' = id ∧ (i' : Int) = (i : Int) := by
    simpa [Prod.ext_iff] using this
  exact ⟨hp.1.symm, by exact_mod_cast hp.2.symm⟩

/-! ### Lemmas: the sparse store -/

theorem pairsLookup_nil (i j : Int) : pairsLookup [] i j = .intV 0 := rfl

theorem pairsLookup_cons_of_eq {e : (Int × Int) × Val} {ps : List ((Int × Int) × Val)}
    {i j : Int} (he : e.1 = (i, j)) : pairsLookup (e :: ps) i j = e.2 := by
  rw [pairsLookup, List.find?_cons_of_pos _ (by simpa using he)]

theorem pairsLookup_cons_of_ne {e : (Int × Int) × Val} {ps : List ((Int × Int) × Val)}
    {i j : Int} (he : ¬ e.1 = (i, j)) : pairsLookup (e :: ps) i j = pairsLookup ps i j := by
  rw [pairsLookup, List.find?_cons_of_neg _ (by simpa using he), pairsLookup]

theorem pairsLookup_pairsSet_same (ps : List ((Int × Int) × Val)) (i j : Int) (v : Val) :
    pairsLookup (pairsSet ps i j v) i j = v := by
  induction ps with
  | nil => exact pairsLookup_cons_of_eq rfl
  | cons e rest ih =>
    rw [pairsSet]
    by_cases he : e.1 = (i, j)
    · rw [if_pos he]
      exact pairsLookup_cons_of_eq rfl
    · rw [if_neg he, pairsLookup_cons_of_ne he]
      exact ih

theorem pairsLookup_pairsSet_ne (ps : List ((Int × Int) × Val)) {i j i' j' : Int}
    (h : (i', j') ≠ (i, j)) (v : Val) :
    pairsLookup (pairsSet ps i j v) i' j' = pairsLookup ps i' j' := by
  induction ps with
  | nil =>
    rw [pairsSet, pairsLookup_cons_of_ne (by intro hh; exact h hh.symm)]
  | cons e rest ih =>
    rw [pairsSet]
    by_cases he : e.1 = (i, j)
    · rw [if_pos he, pairsLookup_cons_of_ne (by intro hh; exact h hh.symm),
        pairsLookup_cons_of_ne (by intro hh; exact h (by rw [← hh, he]))]
    · rw [if_neg he]
      by_cases he' : e.1 = (i', j')
      · rw [pairsLookup_cons_of_eq he', pairsLookup_cons_of_eq he']
      · rw [pairsLookup_cons_of_ne he', pairsLookup_cons_of_ne he']
        exact ih

theorem datGet_nil (k : DKey) (i j : Int) : datGet [] k i j = .intV 0 := rfl

theorem datGet_cons_of_eq {e : DKey × List ((Int × Int) × Val)}
    {dat : List (DKey × List ((Int × Int) × Val))} {k : DKey} {i j : Int} (he : e.1 = k) :
    datGet (e :: dat) k i j = pairsLookup e.2 i j := by
  rw [datGet, List.find?_cons_of_pos _ (by simpa using he)]

theorem datGet_cons_of_ne {e : DKey × List ((Int × Int) × Val)}
    {dat : List (DKey × List ((Int × Int) × Val))} {k : DKey} {i j : Int} (he : ¬ e.1 = k) :
    datGet (e :: dat) k i j = datGet dat k i j := by
  rw [datGet, List.find?_cons_of_neg _ (by simpa using he), datGet]

theorem datGet_datSet_same (dat : List (DKey × List ((Int × Int) × Val))) (k : DKey)
    (i j : Int) (v : Val) : datGet (datSet dat k i j v) k i j = v := by
  induction dat with
  | nil =>
    rw [datSet, datGet_cons_of_eq rfl]
    exact pairsLookup_cons_of_eq rfl
  | cons e rest ih =>
    rw [datSet]
    by_cases he : e.1 = k
    · rw [if_pos he, datGet_cons_of_eq rfl]
      exact pairsLookup_pairsSet_same e.2 i j v
    · rw [if_neg he, datGet_cons_of_ne he]
      exact ih

theorem datGet_datSet_ne_key (dat : List (DKey × List ((Int × Int) × Val))) {k k' : DKey}
    (h : k' ≠ k) (i j i' j' : Int) (v : Val) :
    datGet (datSet dat k i j v) k' i' j' = datGet dat k' i' j' := by
  induction dat with
  | nil =>
    rw [datSet, datGet_cons_of_ne (by intro hh; exact h hh.symm)]
  | cons e rest ih =>
    rw [datSet]
    by_cases he : e.1 = k
    · rw [if_pos he, datGet_cons_of_ne (by intro hh; exact h hh.symm),
        datGet_cons_of_ne (by intro hh; exact h (by rw [← hh, he]))]
    · rw [if_neg he]
      by_cases he' : e.1 = k'
      · rw [datGet_cons_of_eq he', datGet_cons_of_eq he']
      · rw [datGet_cons_of_ne he', datGet_cons_of_ne he']
        exact ih

theorem datGet_datSet_ne_pair (dat : List (DKey × List ((Int × Int) × Val))) (k : DKey)
    {i j i' j' : Int} (h : (i', j') ≠ (i, j)) (v : Val) :
    datGet (datSet dat k i j v) k i' j' = datGet dat k i' j' := by
  induction dat with
  | nil =>
    rw [datSet, datGet_cons_of_eq rfl, datGet_nil,
      pairsLookup_cons_of_ne (by intro hh; exact h hh.symm)]
    rfl
  | cons e rest ih =>
    rw [datSet]
    by_cases he : e.1 = k
    · rw [if_pos he, datGet_cons_of_eq rfl, datGet_cons_of_eq he]
      exact pairsLookup_pairsSet_ne e.2 h v
    · rw [if_neg he, datGet_cons_of_ne he, datGet_cons_of_ne he]
      exact ih

theorem Conn.get_set_same (c : Conn) (src dest : String) (i j : Int) (slot : Nat)
    (name : String) (v : Val) :
    (c.set src dest i j slot name v).get src dest i j slot name = v :=
  datGet_datSet_same c.dat _ i j v

theorem Conn.get_set_ne (c : Conn) {src dest src' dest' : String} {i j i' j' : Int}
    {slot slot' : Nat} {name name' : String} (v : Val)
    (h : DKey.mk src' dest' slot' name' ≠ DKey.mk src dest slot name ∨ (i', j') ≠ (i, j)) :
    (c.set src dest i j slot name v).get src' dest' i' j' slot' name' =
      c.get src' dest' i' j' slot' name' := by
  by_cases hk : DKey.mk src' dest' slot' name' = DKey.mk src dest slot name
  · rcases h with h | h
    · exact absurd hk h
    · rw [Conn.get, Conn.set, hk, Conn.get, hk]
      exact datGet_datSet_ne_pair c.dat _ h v
  · exact datGet_datSet_ne_key c.dat hk i j i' j' v

theorem Conn.set_A_id (c : Conn) (src dest : String) (i j : Int) (slot : Nat)
    (name : String) (v : Val) : (c.set src dest i j slot name v).A_id = c.A_id := rfl

theorem Conn.set_B_id (c : Conn) (src dest : String) (i j : Int) (slot : Nat)
    (name : String) (v : Val) : (c.set src dest i j slot name v).B_id = c.B_id := rfl

theorem Conn.set_N_A (c : Conn) (src dest : String) (i j : Int) (slot : Nat)
    (name : String) (v : Val) : (c.set src dest i j slot name v).N_A = c.N_A := rfl

theorem Conn.set_N_B (c : Conn) (src dest : String) (i j : Int) (slot : Nat)
    (name : String) (v : Val) : (c.set src dest i j slot name v).N_B = c.N_B := rfl

theorem Conn.set_N_mult (c : Conn) (src dest : String) (i j : Int) (slot : Nat)
    (name : String) (v : Val) : (c.set src dest i j slot name v).N_mult = c.N_mult := rfl

theorem Conn.set_typed (c : Conn) (src dest : String) (i j : Int) (slot : Nat)
    (name : String) (v : Val) : (c.set src dest i j slot name v).typed = c.typed := rfl

/-! ### Lemmas: last-write association lookup -/

/-- The value of the last write with a given key in an operation list, if
any. -/
def lastVal {α : Type} : List (String × α) → String → Option α
  | [], _ => none
  | p :: rest, k =>
    match lastVal rest k with
    | some v => some v
    | none => if p.1 = k then some p.2 else none

/-- First-match association lookup. -/
def assocFind {α : Type} (l : List (String × α)) (k : String) : Option α :=
  (l.find? (fun e => e.1 = k)).map (·.2)

theorem assocFind_nil {α : Type} (k : String) : assocFind ([] : List (String × α)) k = none :=
  rfl

theorem assocFind_cons_of_eq {α : Type} {e : String × α} {l : List (String × α)}
    {k : String} (he : e.1 = k) : assocFind (e :: l) k = some e.2 := by
  rw [assocFind, List.find?_cons_of_pos _ (by simpa using he)]
  rfl

theorem assocFind_cons_of_ne {α : Type} {e : String × α} {l : List (String × α)}
    {k : String} (he : ¬ e.1 = k) : assocFind (e :: l) k = assocFind l k := by
  rw [assocFind, List.find?_cons_of_neg _ (by simpa using he), assocFind]

theorem lastVal_eq_none_of_not_mem {α : Type} {l : List (String × α)} {k : String}
    (h : k ∉ l.map Prod.fst) : lastVal l k = none := by
  induction l with
  | nil => rfl
  | cons p rest ih =>
    rw [lastVal, ih (fun hh => h (List.mem_cons_of_mem _ hh))]
    have : p.1 ≠ k := fun hh => h (hh ▸ List.mem_cons_self _ _)
    simp [this]

theorem lastVal_eq_assocFind {α : Type} {l : List (String × α)}
    (h : (l.map Prod.fst).Nodup) (k : String) : lastVal l k = assocFind l k := by
  induction l with
  | nil => rfl
  | cons p rest ih =>
    rw [List.map_cons, List.nodup_cons] at h
    rw [lastVal]
    by_cases hp : p.1 = k
    · rw [lastVal_eq_none_of_not_mem (hp ▸ h.1), assocFind_cons_of_eq hp]
      simp [hp]
    · rw [assocFind_cons_of_ne hp, ← ih h.2]
      cases lastVal rest k with
      | some v => rfl
      | none => simp [hp]

theorem assocFind_attrSet_same (l : List (String × Val)) (n : String) (v : Val) :
    assocFind (attrSet l n v) n = some v := by
  induction l with
  | nil => exact assocFind_cons_of_eq rfl
  | cons e rest ih =>
    rw [attrSet]
    by_cases he : e.1 = n
    · rw [if_pos he]
      exact assocFind_cons_of_eq rfl
    · rw [if_neg he, assocFind_cons_of_ne he]
      exact ih

theorem assocFind_attrSet_ne (l : List (String × Val)) {n n' : String} (h : n' ≠ n)
    (v : Val) : assocFind (attrSet l n v) n' = assocFind l n' := by
  induction l with
  | nil =>
    rw [attrSet, assocFind_cons_of_ne (by intro hh; exact h hh.symm)]
  | cons e rest ih =>
    rw [attrSet]
    by_cases he : e.1 = n
    · rw [if_pos he, assocFind_cons_of_ne (by intro hh; exact h hh.symm),
        assocFind_cons_of_ne (by intro hh; exact h (by rw [← hh, he]))]
    · rw [if_neg he]
      by_cases he' : e.1 = n'
      · rw [assocFind_cons_of_eq he', assocFind_cons_of_eq he']
      · rw [assocFind_cons_of_ne he', assocFind_cons_of_ne he']
        exact ih

theorem attrSet_keys_subset (l : List (String × Val)) (n : String) (v : Val) :
    (attrSet l n v).map Prod.fst ⊆ n :: l.map Prod.fst := by
  induction l with
  | nil => simp [attrSet]
  | cons e rest ih =>
    rw [attrSet]
    by_cases he : e.1 = n
    · rw [if_pos he]
      intro x hx
      rcases List.mem_cons.mp hx with h | h
      · exact h ▸ List.mem_cons_self _ _
      · exact List.mem_cons_of_mem _ (List.mem_cons_of_mem _ h)
    · rw [if_neg he]
      intro x hx
      rcases List.mem_cons.mp hx with h | h
      · exact List.mem_cons_of_mem _ (h ▸ List.mem_cons_self _ _)
      · rcases List.mem_cons.mp (ih h) with h1 | h1
        · exact h1 ▸ List.mem_cons_self _ _
        · exact List.mem_cons_of_mem _ (List.mem_cons_of_mem _ h1)

theorem attrSet_keys_nodup {l : List (String × Val)} (h : (l.map Prod.fst).Nodup)
    (n : String) (v : Val) : ((attrSet l n v).map Prod.fst).Nodup := by
  induction l with
  | nil => simp [attrSet]
  | cons e rest ih =>
    rw [List.map_cons, List.nodup_cons] at h
    rw [attrSet]
    by_cases he : e.1 = n
    · rw [if_pos he, List.map_cons, List.nodup_cons]
      exact ⟨he ▸ h.1, h.2⟩
    · rw [if_neg he, List.map_cons, List.nodup_cons]
      refine ⟨fun hc => ?_, ih h.2⟩
      rcases List.mem_cons.mp (attrSet_keys_subset rest n v hc) with h1 | h1
      · exact he h1
      · exact h.1 h1

/-- One `ntSet` write through `assocFind`. -/
theorem assocFind_ntSet (l : List (String × String)) (lab ty k : String) :
    assocFind (ntSet l lab ty) k = if lab = k then some ty else assocFind l k := by
  induction l with
  | nil =>
    by_cases hp : lab = k
    · rw [ntSet, assocFind_cons_of_eq hp, if_pos hp]
    · rw [ntSet, assocFind_cons_of_ne hp, if_neg hp, assocFind_nil]
  | cons e rest ih =>
    rw [ntSet]
    by_cases he : e.1 = lab
    · by_cases hp : lab = k
      · rw [if_pos he, assocFind_cons_of_eq hp, if_pos hp]
      · rw [if_pos he, assocFind_cons_of_ne hp, if_neg hp,
          assocFind_cons_of_ne (by rw [he]; exact hp)]
    · rw [if_neg he]
      by_cases he' : e.1 = k
      · rw [assocFind_cons_of_eq he', assocFind_cons_of_eq he']
        have : ¬ lab = k := fun hh => he (by rw [hh, ← he'])
        rw [if_neg this]
      · rw [assocFind_cons_of_ne he', assocFind_cons_of_ne he']
        exact ih

/-- Lookup after a tag sequence: the last matching write wins, else the
initial map's value. -/
theorem assocFind_applyTags (l : List (String × String)) (ops : List (String × String))
    (k : String) :
    assocFind (applyTags l ops) k =
      match lastVal ops k with
      | some v => some v
      | none => assocFind l k := by
  induction ops generalizing l with
  | nil => rfl
  | cons p rest ih =>
    have hfold : applyTags l (p :: rest) = applyTags (ntSet l p.1 p.2) rest := rfl
    rw [hfold, ih, lastVal, assocFind_ntSet]
    cases lastVal rest k with
    | some v => rfl
    | none => by_cases hp : p.1 = k <;> simp [hp]

/-! ### Lemmas: decoder control flow -/

theorem decode_not_bipartite {g : MultiDiGraph} (ty : Bool)
    (h : isBipartiteStruct g = false) : graph_to_conn g ty = .error .notBipartite := by
  rw [graph_to_conn]
  simp [h]

theorem decode_label_error {g : MultiDiGraph} (ty : Bool) {e : DecErr}
    (hb : isBipartiteStruct g = true) (h : buildNodeDict g.nodes = .error e) :
    graph_to_conn g ty = .error e := by
  rw [graph_to_conn]
  simp [hb, h]

theorem decode_bad_prefix_count {g : MultiDiGraph} (ty : Bool)
    {nd : List (String × List Int)} (hb : isBipartiteStruct g = true)
    (h : buildNodeDict g.nodes = .ok nd) (hlen : nd.length ≠ 2) :
    graph_to_conn g ty = .error .badPrefixCount := by
  rw [graph_to_conn]
  simp only [hb, Bool.not_true, Bool.false_eq_true, if_false, h]
  match nd, hlen with
  | [], _ => rfl
  | [x], _ => rfl
  | [x, y], hlen => exact absurd rfl hlen
  | x :: y :: z :: rest, _ => rfl

theorem decode_non_consecutive {g : MultiDiGraph} (ty : Bool) {aid bid : String}
    {sa sb : List Int} (hb : isBipartiteStruct g = true)
    (h : buildNodeDict g.nodes = .ok [(aid, sa), (bid, sb)])
    (hc : consecutiveB sa = false ∨ consecutiveB sb = false) :
    graph_to_conn g ty = .error .nonConsecutive := by
  rw [graph_to_conn]
  have : (consecutiveB sa && consecutiveB sb) = false := by
    rcases hc with hc | hc <;> simp [hc]
  simp [hb, h, this]

theorem decode_typed_count_error {g : MultiDiGraph} {aid bid : String}
    {sa sb : List Int} {e : DecErr} (hb : isBipartiteStruct g = true)
    (h : buildNodeDict g.nodes = .ok [(aid, sa), (bid, sb)])
    (hca : consecutiveB sa = true) (hcb : consecutiveB sb = true)
    (htc : typedCounts g aid sa bid sb = .error e) :
    graph_to_conn g true = .error e := by
  rw [graph_to_conn]
  simp [hb, h, hca, hcb, htc]

theorem decode_empty_max_untyped {g : MultiDiGraph} {aid bid : String}
    {sa sb : List Int} (hb : isBipartiteStruct g = true)
    (h : buildNodeDict g.nodes = .ok [(aid, sa), (bid, sb)])
    (hca : consecutiveB sa = true) (hcb : consecutiveB sb = true)
    (he : pairsOf g = []) : graph_to_conn g false = .error .emptyMax := by
  rw [graph_to_conn]
  simp [hb, h, hca, hcb, he]

theorem decode_checks_pass_untyped {g : MultiDiGraph} {aid bid : String}
    {sa sb : List Int} (hb : isBipartiteStruct g = true)
    (h : buildNodeDict g.nodes = .ok [(aid, sa), (bid, sb)])
    (hca : consecutiveB sa = true) (hcb : consecutiveB sb = true)
    (hne : ¬ pairsOf g = []) :
    graph_to_conn g false = decodeEdges g g.edges
      ⟨aid, bid, sa.length, sb.length, maxMult g, false, 0, 0, 0, 0, fun _ _ i => i, []⟩ := by
  rw [graph_to_conn]
  simp [hb, h, hca, hcb, hne]

theorem decode_checks_pass_typed {g : MultiDiGraph} {aid bid : String}
    {sa sb : List Int} {tc : (Nat × Nat) × Nat × Nat} (hb : isBipartiteStruct g = true)
    (h : buildNodeDict g.nodes = .ok [(aid, sa), (bid, sb)])
    (hca : consecutiveB sa = true) (hcb : consecutiveB sb = true)
    (htc : typedCounts g aid sa bid sb = .ok tc)
    (hne : ¬ pairsOf g = []) :
    graph_to_conn g true = decodeEdges g g.edges
      ⟨aid, bid, tc.1.1 + tc.1.2, tc.2.1 + tc.2.2, maxMult g, true,
        tc.1.1, tc.1.2, tc.2.1, tc.2.2, defaultTranslate aid tc.1.1 tc.2.1, []⟩ := by
  rw [graph_to_conn]
  simp [hb, h, hca, hcb, htc, hne]

/-! ### Lemmas: error kinds of the later decoder phases -/

theorem coerceParam_ne_bpc {n : String} {v : Val} :
    coerceParam n v ≠ .error .badPrefixCount := by
  rw [coerceParam]
  split
  · cases pyIntOfVal v <;> simp
  · cases pyFloatOfVal v <;> simp

theorem setSlotAttrs_ne_bpc (a : String) (i : Int) (b : String) (j : Int) (slot : Nat)
    (attrs : List (String × Val)) (c : Conn) :
    setSlotAttrs a i b j slot attrs c ≠ .error .badPrefixCount := by
  induction attrs generalizing c with
  | nil => simp [setSlotAttrs]
  | cons nv rest ih =>
    rw [setSlotAttrs]
    cases hco : coerceParam nv.1 nv.2 with
    | error e =>
      intro hc
      exact coerceParam_ne_bpc (hco.trans (by injection hc with h; rw [h]))
    | ok w => exact ih _

theorem procKd_ne_bpc (a : String) (i : Int) (b : String) (j : Int)
    (l : List (Nat × Nat × List (String × Val))) (c : Conn) :
    procKd a i b j l c ≠ .error .badPrefixCount := by
  induction l generalizing c with
  | nil => simp [procKd]
  | cons t rest ih =>
    rw [procKd]
    cases hs : setSlotParams a i b j t.1 t.2.2 c with
    | error e =>
      intro hc
      exact setSlotAttrs_ne_bpc a i b j t.1 t.2.2 _ (hs.trans (by injection hc with h; rw [h]))
    | ok c1 => exact ih _

theorem splitLabel_ne_bpc {s : String} : splitLabel s ≠ .error .badPrefixCount := by
  rw [splitLabel]
  split
  · split <;> simp
  · simp

theorem processEdge_ne_bpc (g : MultiDiGraph) (c : Conn) (u v : String) :
    processEdge g c u v ≠ .error .badPrefixCount := by
  rw [processEdge]
  cases hu : splitLabel u with
  | error e =>
    intro hc
    exact splitLabel_ne_bpc (hu.trans (by injection hc with h; rw [h]))
  | ok pa =>
    cases hv : splitLabel v with
    | error e =>
      intro hc
      exact splitLabel_ne_bpc (hv.trans (by injection hc with h; rw [h]))
    | ok pb => exact procKd_ne_bpc _ _ _ _ _ _

theorem decodeEdges_ne_bpc (g : MultiDiGraph)
    (es : List (String × String × Nat × List (String × Val))) (c : Conn) :
    decodeEdges g es c ≠ .error .badPrefixCount := by
  induction es generalizing c with
  | nil => simp [decodeEdges]
  | cons e rest ih =>
    rw [decodeEdges]
    cases hp : processEdge g c e.1 e.2.1 with
    | error err =>
      intro hc
      exact processEdge_ne_bpc g c e.1 e.2.1 (hp.trans (by injection hc with h; rw [h]))
    | ok c1 => exact ih _

theorem countT_ne_bpc (g : MultiDiGraph) (id : String) (ns : List Int) (acc : Nat × Nat) :
    countT g id ns acc ≠ .error .badPrefixCount := by
  induction ns generalizing acc with
  | nil => simp [countT]
  | cons n rest ih =>
    rw [countT]
    cases ntLookup g (id ++ ":" ++ intStr n) with
    | none => simp
    | some t =>
      by_cases h1 : t = "gpot"
      · simp only [if_pos h1]; exact ih _
      · by_cases h2 : t = "spike"
        · simp only [if_neg h1, if_pos h2]; exact ih _
        · simp [h1, h2]

theorem typedCounts_ne_bpc (g : MultiDiGraph) (aid : String) (sa : List Int)
    (bid : String) (sb : List Int) :
    typedCounts g aid sa bid sb ≠ .error .badPrefixCount := by
  rw [typedCounts]
  cases ha : countTypesPop g aid sa with
  | error e =>
    intro hc
    exact countT_ne_bpc g aid sa (0, 0) (ha.trans (by injection hc with h; rw [h]))
  | ok pa =>
    cases hbb : countTypesPop g bid sb with
    | error e =>
      intro hc
      exact countT_ne_bpc g bid sb (0, 0) (hbb.trans (by injection hc with h; rw [h]))
    | ok pb => simp

/-- Among structurally bipartite graphs whose labels all parse, the
prefix-count error is raised exactly when the number of distinct prefixes
differs from two. -/
theorem decode_bpc_iff {g : MultiDiGraph} (ty : Bool) {nd : List (String × List Int)}
    (hb : isBipartiteStruct g = true) (h : buildNodeDict g.nodes = .ok nd) :
    (graph_to_conn g ty = .error .badPrefixCount ↔ nd.length ≠ 2) := by
  constructor
  · intro hdec hlen
    match nd, hlen, h with
    | [(aid, sa), (bid, sb)], _, h =>
      rw [graph_to_conn] at hdec
      simp only [hb, Bool.not_true, Bool.false_eq_true, if_false, h] at hdec
      cases hca : consecutiveB sa with
      | false => simp [hca] at hdec
      | true =>
      cases hcb : consecutiveB sb with
      | false => simp [hca, hcb] at hdec
      | true =>
        simp only [hca, hcb, Bool.and_self, Bool.not_true, Bool.false_eq_true,
          if_false] at hdec
        cases htc : (if ty = true then typedCounts g aid sa bid sb
            else Except.ok ((0, 0), 0, 0)) with
        | error e =>
          rw [htc] at hdec
          simp only [] at hdec
          cases ty with
          | false => simp at htc
          | true =>
            rw [if_pos rfl] at htc
            refine typedCounts_ne_bpc g aid sa bid sb ?_
            rw [htc]
            simpa using hdec
        | ok tc =>
          rw [htc] at hdec
          simp only [] at hdec
          by_cases hne : pairsOf g = []
          · simp [hne] at hdec
          · simp only [hne, if_false] at hdec
            exact decodeEdges_ne_bpc _ _ _ hdec
  · exact decode_bad_prefix_count ty hb h

/-! ### Lemmas: maximum multiplicity -/

theorem init_le_foldl_max (l : List Nat) (a : Nat) : a ≤ l.foldl max a := by
  induction l generalizing a with
  | nil => exact Nat.le_refl a
  | cons x t ih => exact le_trans (Nat.le_max_left a x) (ih (max a x))

theorem le_foldl_max {l : List Nat} {x : Nat} (h : x ∈ l) (a : Nat) :
    x ≤ l.foldl max a := by
  induction l generalizing a with
  | nil => exact absurd h (List.not_mem_nil x)
  | cons y t ih =>
    rcases List.mem_cons.mp h with h1 | h1
    · subst h1
      rw [List.foldl_cons]
      exact le_trans (Nat.le_max_right a x) (init_le_foldl_max t (max a x))
    · rw [List.foldl_cons]
      exact ih h1 (max a y)

theorem foldl_max_mem (l : List Nat) (a : Nat) :
    l.foldl max a = a ∨ l.foldl max a ∈ l := by
  induction l generalizing a with
  | nil => exact Or.inl rfl
  | cons x t ih =>
    rcases ih (max a x) with h | h
    · rcases Nat.le_total a x with hax | hax
      · right
        rw [List.foldl_cons, h, Nat.max_eq_right hax]
        exact List.mem_cons_self _ _
      · left
        rw [List.foldl_cons, h, Nat.max_eq_left hax]
    · exact Or.inr (List.mem_cons_of_mem _ h)

theorem dedupAux_mem (l : List (String × String)) :
    ∀ (seen : List (String × String)) (p : String × String),
      p ∈ dedupAux seen l ↔ p ∈ l ∧ p ∉ seen := by
  induction l with
  | nil => simp [dedupAux]
  | cons q ps ih =>
    intro seen p
    rw [dedupAux]
    by_cases hq : q ∈ seen
    · rw [if_pos hq, ih]
      constructor
      · rintro ⟨h1, h2⟩
        exact ⟨List.mem_cons_of_mem _ h1, h2⟩
      · rintro ⟨h1, h2⟩
        rcases List.mem_cons.mp h1 with h3 | h3
        · exact absurd (h3 ▸ hq) h2
        · exact ⟨h3, h2⟩
    · rw [if_neg hq, List.mem_cons, ih]
      constructor
      · rintro (h1 | ⟨h1, h2⟩)
        · subst h1
          exact ⟨List.mem_cons_self _ _, hq⟩
        · exact ⟨List.mem_cons_of_mem _ h1,
            fun hc => h2 (List.mem_cons_of_mem _ hc)⟩
      · rintro ⟨h1, h2⟩
        by_cases hpq : p = q
        · exact Or.inl hpq
        · rcases List.mem_cons.mp h1 with h3 | h3
          · exact absurd h3 hpq
          · exact Or.inr ⟨h3, fun hc => (List.mem_cons.mp hc).elim hpq h2⟩

theorem dedupPairs_mem (l : List (String × String)) (p : String × String) :
    p ∈ dedupPairs l ↔ p ∈ l := by
  rw [dedupPairs, dedupAux_mem]
  simp

theorem keydict_ne_nil_of_mem_pairs {g : MultiDiGraph} {p : String × String}
    (h : p ∈ pairsOf g) : keydict g p.1 p.2 ≠ [] := by
  rw [pairsOf] at h
  obtain ⟨e, he, hpe⟩ := List.mem_map.mp h
  intro hk
  have hnone := (List.filterMap_eq_nil_iff.mp hk) e he
  rw [← hpe] at hnone
  simp at hnone

theorem maxMult_ge {g : MultiDiGraph} {p : String × String} (h : p ∈ pairsOf g) :
    (keydict g p.1 p.2).length ≤ maxMult g := by
  rw [maxMult]
  refine le_foldl_max ?_ 0
  exact List.mem_map_of_mem _ ((dedupPairs_mem _ _).mpr h)

theorem maxMult_attained {g : MultiDiGraph} (h : pairsOf g ≠ []) :
    ∃ p ∈ pairsOf g, (keydict g p.1 p.2).length = maxMult g := by
  obtain ⟨p0, hp0⟩ : ∃ p0, p0 ∈ pairsOf g := by
    cases hps : pairsOf g with
    | nil => exact absurd hps h
    | cons q t => exact ⟨q, by simp [hps]⟩
  rcases foldl_max_mem ((dedupPairs (pairsOf g)).map
      (fun p => (keydict g p.1 p.2).length)) 0 with h0 | hmem
  · exfalso
    have h1 : (keydict g p0.1 p0.2).length ≤ maxMult g := maxMult_ge hp0
    have h2 : keydict g p0.1 p0.2 ≠ [] := keydict_ne_nil_of_mem_pairs hp0
    rw [maxMult] at h1
    rw [h0] at h1
    have : keydict g p0.1 p0.2 = [] := List.length_eq_zero.mp (Nat.le_zero.mp h1)
    exact h2 this
  · obtain ⟨p, hp, hlen⟩ := List.mem_map.mp hmem
    exact ⟨p, (dedupPairs_mem _ _).mp hp, hlen⟩

/-! ### Lemmas: the consecutive-numbering check -/

/-- The check `set(range(max(s) + 1)) == s` is exactly the spec's "the
set of local indices equals `{0, 1, ..., max}`". -/
theorem consecutiveB_iff (s : List Int) :
    consecutiveB s = true ↔ (∀ x : Int, x ∈ s ↔ 0 ≤ x ∧ x ≤ maxIntList s) := by
  rw [consecutiveB]
  simp only [Bool.and_eq_true, List.all_eq_true, decide_eq_true_eq]
  constructor
  · rintro ⟨h1, h2⟩ x
    constructor
    · intro hx
      have := h1 x hx
      exact ⟨by simpa using this.1, by simpa using this.2⟩
    · rintro ⟨hx0, hxm⟩
      have hk : x.toNat ∈ List.range (maxIntList s + 1).toNat := by
        rw [List.mem_range]
        omega
      have := h2 x.toNat hk
      rwa [Int.toNat_of_nonneg hx0] at this
  · intro h
    constructor
    · intro x hx
      have := (h x).mp hx
      exact ⟨by simpa using this.1, by simpa using this.2⟩
    · intro k hk
      rw [List.mem_range] at hk
      exact (h (k : Int)).mpr ⟨by positivity, by omega⟩

/-! ### Lemmas: the node-categorisation loop -/

theorem buildND_append (acc : List (String × List Int)) (xs ys : List String) :
    buildND acc (xs ++ ys) =
      match buildND acc xs with
      | .error e => .error e
      | .ok acc2 => buildND acc2 ys := by
  induction xs generalizing acc with
  | nil => rfl
  | cons s rest ih =>
    rw [List.cons_append, buildND, buildND]
    cases parseNodeLabel s with
    | error e => rfl
    | ok p => exact ih _

theorem buildND_all_ok {xs : List String}
    (h : ∀ t ∈ xs, ∃ p, parseNodeLabel t = .ok p) (acc : List (String × List Int)) :
    ∃ acc2, buildND acc xs = .ok acc2 := by
  induction xs generalizing acc with
  | nil => exact ⟨acc, rfl⟩
  | cons s rest ih =>
    obtain ⟨p, hp⟩ := h s (List.mem_cons_self _ _)
    rw [buildND, hp]
    exact ih (fun t ht => h t (List.mem_cons_of_mem _ ht)) _

theorem buildND_error_cons {s : String} {e : DecErr}
    (acc : List (String × List Int)) (rest : List String)
    (h : parseNodeLabel s = .error e) : buildND acc (s :: rest) = .error e := by
  rw [buildND, h]

theorem ndInsert_keys_mem (nd : List (String × List Int)) (id : String) (n : Int)
    (x : String) :
    x ∈ (ndInsert nd id n).map Prod.fst ↔ x ∈ nd.map Prod.fst ∨ x = id := by
  induction nd with
  | nil => simp [ndInsert]
  | cons e rest ih =>
    rw [ndInsert]
    by_cases he : e.1 = id
    · rw [if_pos he]
      simp only [List.map_cons, List.mem_cons]
      constructor
      · rintro (h | h)
        · exact Or.inr h
        · exact Or.inl (Or.inr h)
      · rintro ((h | h) | h)
        · exact Or.inl (he ▸ h)
        · exact Or.inr h
        · exact Or.inl h
    · rw [if_neg he]
      simp only [List.map_cons, List.mem_cons, ih]
      tauto

theorem ndInsert_keys_nodup {nd : List (String × List Int)}
    (h : (nd.map Prod.fst).Nodup) (id : String) (n : Int) :
    ((ndInsert nd id n).map Prod.fst).Nodup := by
  induction nd with
  | nil => simp [ndInsert]
  | cons e rest ih =>
    rw [List.map_cons, List.nodup_cons] at h
    rw [ndInsert]
    by_cases he : e.1 = id
    · rw [if_pos he, List.map_cons, List.nodup_cons]
      exact ⟨he ▸ h.1, h.2⟩
    · rw [if_neg he, List.map_cons, List.nodup_cons]
      refine ⟨fun hc => ?_, ih h.2⟩
      rcases (ndInsert_keys_mem rest id n e.1).mp hc with h1 | h1
      · exact h.1 h1
      · exact he h1

theorem buildND_keys_mem {xs : List String} {acc nd : List (String × List Int)}
    (h : buildND acc xs = .ok nd) (x : String) :
    x ∈ nd.map Prod.fst ↔
      x ∈ acc.map Prod.fst ∨ ∃ s ∈ xs, ∃ k, parseNodeLabel s = .ok (x, k) := by
  induction xs generalizing acc with
  | nil =>
    rw [buildND] at h
    injection h with h
    subst h
    simp
  | cons s rest ih =>
    rw [buildND] at h
    revert h
    cases hp : parseNodeLabel s with
    | error e => intro h; exact absurd h (by simp)
    | ok p =>
      intro h
      rw [ih h, ndInsert_keys_mem]
      constructor
      · rintro ((h1 | h1) | h1)
        · exact Or.inl h1
        · exact Or.inr ⟨s, List.mem_cons_self _ _, p.2, by rw [hp, h1]⟩
        · obtain ⟨t, ht, k, hk⟩ := h1
          exact Or.inr ⟨t, List.mem_cons_of_mem _ ht, k, hk⟩
      · rintro (h1 | ⟨t, ht, k, hk⟩)
        · exact Or.inl (Or.inl h1)
        · rcases List.mem_cons.mp ht with h2 | h2
          · subst h2
            rw [hp] at hk
            injection hk with hk
            exact Or.inl (Or.inr (by rw [hk]))
          · exact Or.inr ⟨t, h2, k, hk⟩

theorem buildND_keys_nodup {xs : List String} {acc nd : List (String × List Int)}
    (h : buildND acc xs = .ok nd) (hacc : (acc.map Prod.fst).Nodup) :
    (nd.map Prod.fst).Nodup := by
  induction xs generalizing acc with
  | nil =>
    rw [buildND] at h
    injection h with h
    subst h
    exact hacc
  | cons s rest ih =>
    rw [buildND] at h
    revert h
    cases hp : parseNodeLabel s with
    | error e => intro h; exact absurd h (by simp)
    | ok p =>
      intro h
      exact ih h (ndInsert_keys_nodup hacc p.1 p.2)

/-! ### Lemmas: shape preservation through the decoder's writes -/

/-- All fields of a connectivity object except the store. -/
def connShape (c : Conn) :
    String × String × Nat × Nat × Nat × Bool × Nat × Nat × Nat × Nat :=
  (c.A_id, c.B_id, c.N_A, c.N_B, c.N_mult, c.typed,
    c.N_A_gpot, c.N_A_spike, c.N_B_gpot, c.N_B_spike)

theorem connShape_set (c : Conn) (src dest : String) (i j : Int) (slot : Nat)
    (name : String) (v : Val) : connShape (c.set src dest i j slot name v) = connShape c :=
  rfl

theorem setSlotAttrs_shape {a : String} {i : Int} {b : String} {j : Int} {slot : Nat}
    {attrs : List (String × Val)} {c c' : Conn}
    (h : setSlotAttrs a i b j slot attrs c = .ok c') : connShape c' = connShape c := by
  induction attrs generalizing c with
  | nil =>
    rw [setSlotAttrs] at h
    injection h with h
    rw [h]
  | cons nv rest ih =>
    rw [setSlotAttrs] at h
    revert h
    cases coerceParam nv.1 nv.2 with
    | error e => intro h; exact absurd h (by simp)
    | ok w =>
      intro h
      rw [ih h, connShape_set]

theorem setSlotParams_shape {a : String} {i : Int} {b : String} {j : Int} {slot : Nat}
    {attrs : List (String × Val)} {c c' : Conn}
    (h : setSlotParams a i b j slot attrs c = .ok c') : connShape c' = connShape c := by
  rw [setSlotParams] at h
  rw [setSlotAttrs_shape h, connShape_set]

theorem procKd_shape {a : String} {i : Int} {b : String} {j : Int}
    {l : List (Nat × Nat × List (String × Val))} {c c' : Conn}
    (h : procKd a i b j l c = .ok c') : connShape c' = connShape c := by
  induction l generalizing c with
  | nil =>
    rw [procKd] at h
    injection h with h
    rw [h]
  | cons t rest ih =>
    rw [procKd] at h
    revert h
    cases hs : setSlotParams a i b j t.1 t.2.2 c with
    | error e => intro h; exact absurd h (by simp)
    | ok c1 =>
      intro h
      rw [ih h, setSlotParams_shape hs]

theorem processEdge_shape {g : MultiDiGraph} {c c' : Conn} {u v : String}
    (h : processEdge g c u v = .ok c') : connShape c' = connShape c := by
  rw [processEdge] at h
  revert h
  cases splitLabel u with
  | error e => intro h; exact absurd h (by simp)
  | ok pa =>
    cases splitLabel v with
    | error e => intro h; exact absurd h (by simp)
    | ok pb => exact procKd_shape

theorem decodeEdges_shape {g : MultiDiGraph}
    {es : List (String × String × Nat × List (String × Val))} {c c' : Conn}
    (h : decodeEdges g es c = .ok c') : connShape c' = connShape c := by
  induction es generalizing c with
  | nil =>
    rw [decodeEdges] at h
    injection h with h
    rw [h]
  | cons e rest ih =>
    rw [decodeEdges] at h
    revert h
    cases hp : processEdge g c e.1 e.2.1 with
    | error err => intro h; exact absurd h (by simp)
    | ok c1 =>
      intro h
      rw [ih h, processEdge_shape hp]

/-- Success inversion of the decoder: a returned model implies that all
validation phases passed, the graph has at least one edge, and the model's
`N_mult` is the maximum parallel-edge multiplicity. -/
theorem decode_ok_inv {g : MultiDiGraph} {ty : Bool} {c : Conn}
    (h : graph_to_conn g ty = .ok c) :
    isBipartiteStruct g = true ∧ pairsOf g ≠ [] ∧ c.N_mult = maxMult g := by
  rw [graph_to_conn] at h
  cases hb : isBipartiteStruct g with
  | false => rw [hb] at h; simp at h
  | true =>
    rw [hb] at h
    simp only [Bool.not_true, Bool.false_eq_true, if_false] at h
    refine ⟨rfl, ?_⟩
    revert h
    cases hnd : buildNodeDict g.nodes with
    | error e => intro h; exact absurd h (by simp)
    | ok nd =>
      match nd with
      | [] => intro h; exact absurd h (by simp)
      | [x] => intro h; exact absurd h (by simp)
      | x :: y :: z :: rest => intro h; exact absurd h (by simp)
      | [(aid, sa), (bid, sb)] =>
        cases hcc : (consecutiveB sa && consecutiveB sb) with
        | false => intro h; simp [hcc] at h
        | true =>
          simp only [hcc, Bool.not_true, Bool.false_eq_true, if_false]
          cases htc : (if ty = true then typedCounts g aid sa bid sb
              else Except.ok ((0, 0), 0, 0)) with
          | error e => intro h; exact absurd h (by simp)
          | ok tc =>
            simp only []
            by_cases hne : pairsOf g = []
            · intro h; simp [hne] at h
            · simp only [hne, if_false]
              intro h
              refine ⟨hne, ?_⟩
              have hsh := decodeEdges_shape h
              cases ty with
              | false =>
                have : c.N_mult = maxMult g := congrArg (fun t => t.2.2.2.2.1) hsh
                exact this
              | true =>
                have : c.N_mult = maxMult g := congrArg (fun t => t.2.2.2.2.1) hsh
                exact this

/-! ### Concrete example inputs -/

/-- The error of a decode run, if any (projection usable in decidable
statements, since `Conn` carries a function-valued field). -/
def decodeErr (g : MultiDiGraph) (ty : Bool) : Option DecErr :=
  match graph_to_conn g ty with
  | .error e => some e
  | .ok _ => none

/-- A throwaway connectivity object used only as a `getD` default. -/
def dummyConn : Conn := ⟨"", "", 0, 0, 0, false, 0, 0, 0, 0, fun _ _ i => i, []⟩

/-- The model returned by a successful decode run (junk on failure). -/
def decodeOk (g : MultiDiGraph) (ty : Bool) : Conn :=
  (graph_to_conn g ty).toOption.getD dummyConn

/-- A graph with a malformed label carrying a self-loop and a gap in the
`A` population: it violates both the label rule and the
consecutive-numbering rule. -/
def exSelfLoop : MultiDiGraph := ⟨["X", "A:0", "A:2", "B:0"], [], [("X", "X", 0, [])]⟩

/-- Three label prefixes, no edges (the spec's bipartite-violation
example). -/
def exPrefix3 : MultiDiGraph := ⟨["A:0", "B:0", "C:0"], [], []⟩

/-- Three label prefixes forming an odd (directed) triangle. -/
def exTriangle : MultiDiGraph :=
  ⟨["A:0", "B:0", "C:0"], [],
    [("A:0", "B:0", 0, []), ("B:0", "C:0", 0, []), ("C:0", "A:0", 0, [])]⟩

/-- The spec's non-consecutive example, exactly as written: only `A:0`
and `A:2`. -/
def exGap2 : MultiDiGraph := ⟨["A:0", "A:2"], [], []⟩

/-- The non-consecutive example together with a second population. -/
def exGapB : MultiDiGraph := ⟨["A:0", "A:2", "B:0"], [], []⟩

/-- A label whose index part does not parse as an integer. -/
def exIntBad : MultiDiGraph := ⟨["A:xx"], [], []⟩

/-- A structurally valid graph with no edges. -/
def exNoEdge : MultiDiGraph := ⟨["A:0", "B:0"], [], []⟩

/-- A valid graph whose maximum parallel-edge count is `2`. -/
def exPar2 : MultiDiGraph :=
  ⟨["A:0", "B:0"], [], [("A:0", "B:0", 0, []), ("A:0", "B:0", 1, [])]⟩

/-! ### Claim C3 -/

/-- C3 (amended): before any of the four spec-listed validation rules,
`graph_to_conn` first runs a general structural bipartiteness search
(`nx.is_bipartite`) and raises `'graph must be bipartite'` on failure.
After that check, violations are reported in the fixed order label
parsing → two-prefix count → consecutive numbering → neuron-type check,
and a successfully returned model implies the structural check and all
validations passed (no partially constructed model is observable: the
decoder returns either an error or a complete model). -/
theorem C3_error_order_amended (g : MultiDiGraph) (ty : Bool) :
    (isBipartiteStruct g = false → graph_to_conn g ty = .error .notBipartite) ∧
    (∀ e, isBipartiteStruct g = true → buildNodeDict g.nodes = .error e →
      graph_to_conn g ty = .error e) ∧
    (∀ nd, isBipartiteStruct g = true → buildNodeDict g.nodes = .ok nd →
      nd.length ≠ 2 → graph_to_conn g ty = .error .badPrefixCount) ∧
    (∀ aid sa bid sb, isBipartiteStruct g = true →
      buildNodeDict g.nodes = .ok [(aid, sa), (bid, sb)] →
      (consecutiveB sa = false ∨ consecutiveB sb = false) →
      graph_to_conn g ty = .error .nonConsecutive) ∧
    (∀ aid sa bid sb e, isBipartiteStruct g = true →
      buildNodeDict g.nodes = .ok [(aid, sa), (bid, sb)] →
      consecutiveB sa = true → consecutiveB sb = true → ty = true →
      typedCounts g aid sa bid sb = .error e → graph_to_conn g ty = .error e) ∧
    (∀ c, graph_to_conn g ty = .ok c →
      isBipartiteStruct g = true ∧ pairsOf g ≠ []) := by
  refine ⟨decode_not_bipartite ty, ?_, ?_, ?_, ?_, ?_⟩
  · intro e hb h
    exact decode_label_error ty hb h
  · intro nd hb h hlen
    exact decode_bad_prefix_count ty hb h hlen
  · intro aid sa bid sb hb h hc
    exact decode_non_consecutive ty hb h hc
  · intro aid sa bid sb e hb h hca hcb hty htc
    subst hty
    exact decode_typed_count_error hb h hca hcb htc
  · intro c h
    obtain ⟨h1, h2, _⟩ := decode_ok_inv h
    exact ⟨h1, h2⟩

/-- C3 counterexample: `exSelfLoop` violates two of the four spec-listed
rules (its label `"X"` is malformed and population `A` skips index 1),
whose first in the claimed order is label parsing; yet the decoder
reports the structural bipartiteness error (caused by the self-loop),
which is not the malformed-label error. -/
theorem C3_error_order_counterexample :
    decodeErr exSelfLoop false = some .notBipartite ∧
    buildNodeDict exSelfLoop.nodes = .error (.malformedLabel "X") ∧
    consecutiveB [0, 2] = false := by decide

theorem C3_error_order_witness :
    (isBipartiteStruct exGapB = true ∧
      buildNodeDict exGapB.nodes = .ok [("A", [0, 2]), ("B", [0])] ∧
      consecutiveB [0, 2] = false) ∧
    graph_to_conn exGapB false = .error .nonConsecutive :=
  ⟨⟨by decide, by decide, by decide⟩,
    (C3_error_order_amended exGapB false).2.2.2.1 "A" [0, 2] "B" [0] (by decide) (by decide)
      (Or.inl (by decide))⟩

/-! ### Claim C4 -/

/-- C4 (amended): whenever `graph_to_conn` returns a model, the graph had
at least one edge and the model's `N_mult` is the maximum number of
parallel edges over the node pairs that have an edge (both bounded above
by and attained at some pair).  A valid graph with zero edges never
yields a model — in particular it does not yield `N_mult = 1`; the
decoder raises on `max([])` instead (see the counterexample). -/
theorem C4_nmult_amended (g : MultiDiGraph) (ty : Bool) (c : Conn)
    (h : graph_to_conn g ty = .ok c) :
    pairsOf g ≠ [] ∧ c.N_mult = maxMult g ∧
    (∀ p ∈ pairsOf g, (keydict g p.1 p.2).length ≤ c.N_mult) ∧
    (∃ p ∈ pairsOf g, (keydict g p.1 p.2).length = c.N_mult) := by
  obtain ⟨hb, hne, hmm⟩ := decode_ok_inv h
  refine ⟨hne, hmm, fun p hp => ?_, ?_⟩
  · rw [hmm]
    exact maxMult_ge hp
  · obtain ⟨p, hp, hlen⟩ := maxMult_attained hne
    exact ⟨p, hp, by rw [hmm, hlen]⟩

/-- C4 counterexample: the zero-edge graph `exNoEdge` passes every
structural validation (two prefixes, consecutive numbering) but decoding
raises the uncaught `ValueError` of `max([])` instead of defaulting
`N_mult` to 1. -/
theorem C4_nmult_counterexample :
    decodeErr exNoEdge false = some .emptyMax ∧
    buildNodeDict exNoEdge.nodes = .ok [("A", [0]), ("B", [0])] ∧
    consecutiveB [0] = true := by decide

theorem C4_nmult_witness :
    graph_to_conn exPar2 false = .ok (decodeOk exPar2 false) ∧
    (decodeOk exPar2 false).N_mult = 2 ∧
    (pairsOf exPar2 ≠ [] ∧ (decodeOk exPar2 false).N_mult = maxMult exPar2 ∧
      (∀ p ∈ pairsOf exPar2, (keydict exPar2 p.1 p.2).length ≤ (decodeOk exPar2 false).N_mult) ∧
      (∃ p ∈ pairsOf exPar2, (keydict exPar2 p.1 p.2).length = (decodeOk exPar2 false).N_mult)) :=
  ⟨rfl, by decide, C4_nmult_amended exPar2 false (decodeOk exPar2 false) rfl⟩

/-! ### Claim C7 -/

/-- C7 (amended): for a structurally two-colourable graph whose labels all
parse, the `'incorrectly formatted graph'` error is raised exactly when
the number of distinct population-id prefixes differs from two; `nd` here
is the decoder's grouping of parsed labels, whose keys are precisely the
distinct prefixes.  However, the claim's "not decided by a general
bipartiteness search" is wrong: `graph_to_conn` first runs
`nx.is_bipartite`, and a structurally odd-cyclic graph with three
prefixes raises `'graph must be bipartite'` instead (see the
counterexample). -/
theorem C7_prefix_count_amended (g : MultiDiGraph) (ty : Bool)
    (nd : List (String × List Int)) (hb : isBipartiteStruct g = true)
    (h : buildNodeDict g.nodes = .ok nd) :
    (graph_to_conn g ty = .error .badPrefixCount ↔ nd.length ≠ 2) ∧
    (nd.map Prod.fst).Nodup ∧
    (∀ x, x ∈ nd.map Prod.fst ↔ ∃ s ∈ g.nodes, ∃ k, parseNodeLabel s = .ok (x, k)) := by
  refine ⟨decode_bpc_iff ty hb h, buildND_keys_nodup h (by simp), fun x => ?_⟩
  rw [buildND_keys_mem h x]
  simp

/-- C7 counterexample: `exTriangle` has three distinct prefixes, but the
decoder reports the structural `'graph must be bipartite'` error produced
by the general bipartiteness search, not the prefix-count error, because
the search runs first. -/
theorem C7_prefix_count_counterexample :
    decodeErr exTriangle false = some .notBipartite ∧
    buildNodeDict exTriangle.nodes = .ok [("A", [0]), ("B", [0]), ("C", [0])] ∧
    decodeErr exTriangle false ≠ some .badPrefixCount := by decide

theorem C7_prefix_count_witness :
    (isBipartiteStruct exPrefix3 = true ∧
      buildNodeDict exPrefix3.nodes = .ok [("A", [0]), ("B", [0]), ("C", [0])]) ∧
    graph_to_conn exPrefix3 false = .error .badPrefixCount :=
  ⟨⟨by decide, by decide⟩,
    ((C7_prefix_count_amended exPrefix3 false [("A", [0]), ("B", [0]), ("C", [0])]
      (by decide) (by decide)).1).mpr (by decide)⟩

/-! ### Claim C8 -/

/-- C8 (amended): for a structurally two-colourable graph whose labels all
parse into exactly two populations, a population whose index set is not
exactly `{0, ..., max}` makes the decoder raise the non-consecutive-index
error.  As stated, the claim fails on its own example: the two-node graph
`A:0`, `A:2` (with no second population) raises the prefix-count error
instead, because the two-prefix check runs before the numbering check
(see the counterexample). -/
theorem C8_consecutive_amended (g : MultiDiGraph) (ty : Bool) (aid bid : String)
    (sa sb : List Int) (hb : isBipartiteStruct g = true)
    (h : buildNodeDict g.nodes = .ok [(aid, sa), (bid, sb)])
    (hgap : ¬ (∀ x : Int, x ∈ sa ↔ 0 ≤ x ∧ x ≤ maxIntList sa) ∨
            ¬ (∀ x : Int, x ∈ sb ↔ 0 ≤ x ∧ x ≤ maxIntList sb)) :
    graph_to_conn g ty = .error .nonConsecutive := by
  refine decode_non_consecutive ty hb h ?_
  rcases hgap with hgap | hgap
  · exact Or.inl (Bool.eq_false_iff.mpr (fun hc => hgap ((consecutiveB_iff sa).mp hc)))
  · exact Or.inr (Bool.eq_false_iff.mpr (fun hc => hgap ((consecutiveB_iff sb).mp hc)))

/-- C8 counterexample: the claim's own example graph, taken literally
(nodes `A:0` and `A:2` only), has a gap in its index set but raises the
prefix-count error, not the non-consecutive-index error. -/
theorem C8_consecutive_counterexample :
    decodeErr exGap2 false = some .badPrefixCount ∧
    decodeErr exGap2 false ≠ some .nonConsecutive ∧
    consecutiveB [0, 2] = false := by decide

theorem C8_consecutive_witness :
    (isBipartiteStruct exGapB = true ∧
      buildNodeDict exGapB.nodes = .ok [("A", [0, 2]), ("B", [0])]) ∧
    graph_to_conn exGapB false = .error .nonConsecutive :=
  ⟨⟨by decide, by decide⟩,
    C8_consecutive_amended exGapB false "A" "B" [0, 2] [0] (by decide) (by decide)
      (Or.inl (fun hall => by
        have h1 := (hall 1).mpr (by decide)
        revert h1
        decide))⟩

/-! ### Claim C9 -/

/-- C9 (amended): when the first offending node label (all labels before
it parse) fails the regular expression `(.+):(.+)`, the decoder raises the
malformed-label error; but when the regular expression matches and only
the integer conversion of the index part fails, the decoder raises the
uncaught `int()` conversion error instead of the malformed-label error —
the `int(n)` call sits outside the `try` block. -/
theorem C9_malformed_label_amended (g : MultiDiGraph) (ty : Bool) (pre : List String)
    (s : String) (rest : List String) (hb : isBipartiteStruct g = true)
    (hns : g.nodes = pre ++ s :: rest)
    (hpre : ∀ t ∈ pre, ∃ p, parseNodeLabel t = .ok p) :
    (regexLabel s.data = none → graph_to_conn g ty = .error (.malformedLabel s)) ∧
    (∀ idc nc, regexLabel s.data = some (idc, nc) → pyIntString ⟨nc⟩ = none →
      graph_to_conn g ty = .error (.intParse (⟨nc⟩ : String))) := by
  obtain ⟨acc2, hacc⟩ := buildND_all_ok hpre []
  have hbd : ∀ e, parseNodeLabel s = .error e → buildNodeDict g.nodes = .error e := by
    intro e hperr
    rw [buildNodeDict, hns, buildND_append]
    simp only [hacc]
    exact buildND_error_cons _ _ hperr
  constructor
  · intro hre
    refine decode_label_error ty hb (hbd _ ?_)
    simp only [parseNodeLabel, hre]
  · intro idc nc hre hint
    refine decode_label_error ty hb (hbd _ ?_)
    simp only [parseNodeLabel, hre, hint]

/-- C9 counterexample: the label `"A:xx"` matches the regular expression
but its index part is not an integer; decoding raises the `int()`
conversion error, not the malformed-label error the claim requires. -/
theorem C9_malformed_label_counterexample :
    decodeErr exIntBad false = some (.intParse "xx") ∧
    decodeErr exIntBad false ≠ some (.malformedLabel "A:xx") := by decide

theorem C9_malformed_label_witness :
    (isBipartiteStruct exIntBad = true ∧ exIntBad.nodes = [] ++ "A:xx" :: [] ∧
      regexLabel "A:xx".data = some ("A".data, "xx".data) ∧ pyIntString "xx" = none) ∧
    graph_to_conn exIntBad false = .error (.intParse "xx") :=
  ⟨⟨by decide, rfl, by decide, by decide⟩,
    (C9_malformed_label_amended exIntBad false [] "A:xx" [] (by decide) rfl
      (by intro t ht; exact absurd ht (List.not_mem_nil t))).2
      "A".data "xx".data (by decide) (by decide)⟩

/-! ### Lemmas: effect of the decoder's writes on the store -/

theorem setSlotAttrs_get {a : String} {i : Int} {b : String} {j : Int} {slot : Nat}
    {attrs : List (String × Val)} {c c' : Conn}
    (h : setSlotAttrs a i b j slot attrs c = .ok c') :
    (∀ name : String,
      (∀ v0, lastVal attrs name = some v0 →
        ∃ w, coerceParam name v0 = .ok w ∧ c'.get a b i j slot name = w) ∧
      (lastVal attrs name = none →
        c'.get a b i j slot name = c.get a b i j slot name)) ∧
    (∀ (src dest : String) (i' j' : Int) (slot' : Nat) (name : String),
      ¬ (src = a ∧ dest = b ∧ i' = i ∧ j' = j ∧ slot' = slot) →
      c'.get src dest i' j' slot' name = c.get src dest i' j' slot' name) := by
  induction attrs generalizing c with
  | nil =>
    rw [setSlotAttrs] at h
    injection h with h
    subst h
    exact ⟨fun name => ⟨fun v0 hv => by simp [lastVal] at hv, fun _ => rfl⟩,
      fun _ _ _ _ _ _ _ => rfl⟩
  | cons nv rest ih =>
    rw [setSlotAttrs] at h
    revert h
    cases hco : coerceParam nv.1 nv.2 with
    | error e => intro h; exact absurd h (by simp)
    | ok w =>
      intro h
      obtain ⟨ih1, ih2⟩ := ih h
      constructor
      · intro name
        constructor
        · intro v0 hv
          rw [lastVal] at hv
          cases hlr : lastVal rest name with
          | some v =>
            rw [hlr] at hv
            injection hv with hv
            subst hv
            exact (ih1 name).1 v hlr
          | none =>
            rw [hlr] at hv
            by_cases hn : nv.1 = name
            · rw [if_pos hn] at hv
              injection hv with hv
              refine ⟨w, by rw [← hv, ← hn]; exact hco, ?_⟩
              rw [(ih1 name).2 hlr, ← hn, Conn.get_set_same]
            · rw [if_neg hn] at hv
              exact absurd hv (by simp)
        · intro hv
          rw [lastVal] at hv
          cases hlr : lastVal rest name with
          | some v => rw [hlr] at hv; exact absurd hv (by simp)
          | none =>
            rw [hlr] at hv
            have hn : ¬ nv.1 = name := by
              intro hn
              rw [if_pos hn] at hv
              exact absurd hv (by simp)
            rw [(ih1 name).2 hlr]
            refine Conn.get_set_ne c w (Or.inl ?_)
            intro hk
            injection hk with h1 h2 h3 h4
            exact hn h4.symm
      · intro src dest i' j' slot' name hq
        rw [ih2 src dest i' j' slot' name hq]
        by_cases hp : (i', j') = (i, j)
        · refine Conn.get_set_ne c w (Or.inl ?_)
          intro hk
          injection hk with h1 h2 h3 h4
          have hij : i' = i ∧ j' = j := ⟨congrArg Prod.fst hp, congrArg Prod.snd hp⟩
          exact hq ⟨h1, h2, hij.1, hij.2, h3⟩
        · exact Conn.get_set_ne c w (Or.inr hp)

theorem setSlotParams_get {a : String} {i : Int} {b : String} {j : Int} {slot : Nat}
    {attrs : List (String × Val)} {c c' : Conn}
    (h : setSlotParams a i b j slot attrs c = .ok c') :
    (∀ name : String,
      (∀ v0, lastVal attrs name = some v0 →
        ∃ w, coerceParam name v0 = .ok w ∧ c'.get a b i j slot name = w) ∧
      (lastVal attrs name = none →
        c'.get a b i j slot name =
          if name = "conn" then .intV 1 else c.get a b i j slot name)) ∧
    (∀ (src dest : String) (i' j' : Int) (slot' : Nat) (name : String),
      ¬ (src = a ∧ dest = b ∧ i' = i ∧ j' = j ∧ slot' = slot) →
      c'.get src dest i' j' slot' name = c.get src dest i' j' slot' name) := by
  rw [setSlotParams] at h
  obtain ⟨h1, h2⟩ := setSlotAttrs_get h
  refine ⟨fun name => ⟨(h1 name).1, fun hv => ?_⟩, fun src dest i' j' slot' name hq => ?_⟩
  · rw [(h1 name).2 hv]
    by_cases hn : name = "conn"
    · rw [if_pos hn, hn, Conn.get_set_same]
    · rw [if_neg hn]
      refine Conn.get_set_ne c _ (Or.inl ?_)
      intro hk
      injection hk with _ _ _ h4
      exact hn h4
  · rw [h2 src dest i' j' slot' name hq]
    by_cases hp : (i', j') = (i, j)
    · refine Conn.get_set_ne c _ (Or.inl ?_)
      intro hk
      injection hk with hk1 hk2 hk3 _
      have hij : i' = i ∧ j' = j := ⟨congrArg Prod.fst hp, congrArg Prod.snd hp⟩
      exact hq ⟨hk1, hk2, hij.1, hij.2, hk3⟩
    · exact Conn.get_set_ne c _ (Or.inr hp)

theorem procKd_get {a : String} {i : Int} {b : String} {j : Int}
    {l : List (Nat × Nat × List (String × Val))} {c c' : Conn}
    (h : procKd a i b j l c = .ok c') (hnodup : (l.map Prod.fst).Nodup) :
    (∀ t ∈ l, ∀ name : String,
      (∀ v0, lastVal t.2.2 name = some v0 →
        ∃ w, coerceParam name v0 = .ok w ∧ c'.get a b i j t.1 name = w) ∧
      (lastVal t.2.2 name = none →
        c'.get a b i j t.1 name =
          if name = "conn" then .intV 1 else c.get a b i j t.1 name)) ∧
    (∀ (src dest : String) (i' j' : Int) (slot' : Nat) (name : String),
      (¬ (src = a ∧ dest = b ∧ i' = i ∧ j' = j) ∨ slot' ∉ l.map Prod.fst) →
      c'.get src dest i' j' slot' name = c.get src dest i' j' slot' name) := by
  induction l generalizing c with
  | nil =>
    rw [procKd] at h
    injection h with h
    subst h
    exact ⟨fun t ht => absurd ht (List.not_mem_nil t), fun _ _ _ _ _ _ _ => rfl⟩
  | cons t rest ih =>
    rw [procKd] at h
    revert h
    cases hs : setSlotParams a i b j t.1 t.2.2 c with
    | error e => intro h; exact absurd h (by simp)
    | ok c1 =>
      intro h
      rw [List.map_cons, List.nodup_cons] at hnodup
      obtain ⟨ihA, ihB⟩ := ih h hnodup.2
      obtain ⟨sA, sB⟩ := setSlotParams_get hs
      constructor
      · intro x hx name
        rcases List.mem_cons.mp hx with hx | hx
        · subst hx
          have hrest : c'.get a b i j x.1 name = c1.get a b i j x.1 name :=
            ihB a b i j x.1 name (Or.inr hnodup.1)
          exact ⟨fun v0 hv => by
              obtain ⟨w, hw1, hw2⟩ := (sA name).1 v0 hv
              exact ⟨w, hw1, by rw [hrest, hw2]⟩,
            fun hv => by rw [hrest, (sA name).2 hv]⟩
        · have hne : x.1 ≠ t.1 := by
            intro he
            exact hnodup.1 (he ▸ List.mem_map_of_mem Prod.fst hx)
          have hbase : c1.get a b i j x.1 name = c.get a b i j x.1 name :=
            sB a b i j x.1 name (fun hq => hne hq.2.2.2.2)
          exact ⟨(ihA x hx name).1, fun hv => by
            rw [(ihA x hx name).2 hv, hbase]⟩
      · intro src dest i' j' slot' name hq
        rcases hq with hq | hq
        · rw [ihB src dest i' j' slot' name (Or.inl hq),
            sB src dest i' j' slot' name (fun hc => hq ⟨hc.1, hc.2.1, hc.2.2.1, hc.2.2.2.1⟩)]
        · rw [List.map_cons] at hq
          rw [ihB src dest i' j' slot' name
              (Or.inr (fun hc => hq (List.mem_cons_of_mem _ hc))),
            sB src dest i' j' slot' name
              (fun hc => hq (hc.2.2.2.2 ▸ List.mem_cons_self _ _))]

/-! ### The decoded store, characterised -/

/-- The parse key of an ordered label pair, when both labels split. -/
def pairKeyO (u v : String) : Option ((String × Int) × String × Int) :=
  match splitLabelO u, splitLabelO v with
  | some x, some y => some (x, y)
  | _, _ => none

/-- No two distinct ordered node pairs of the graph's edges parse to the
same `(population, index, population, index)` key.  This is the
interchange contract's assumption that labels are canonical (it rules out
aliases such as `"A:0"` and `"A:00"` naming the same unit). -/
def InjPairs (g : MultiDiGraph) : Prop :=
  ∀ p ∈ pairsOf g, ∀ q ∈ pairsOf g, pairKeyO p.1 p.2 = pairKeyO q.1 q.2 → p = q

instance (g : MultiDiGraph) : Decidable (InjPairs g) := by
  unfold InjPairs
  infer_instance

/-- Total wrapper of `coerceParam` (junk on failure; unreachable whenever
the decoder returned a model). -/
def totalCoerce (name : String) (v0 : Val) : Val :=
  match coerceParam name v0 with
  | .ok w => w
  | .error _ => .intV 0

/-- The value the decoder leaves at slot `s`, name `name` of a processed
pair `(u, v)`: enumerated slots below the multiplicity hold the written
`conn = 1` flag and the coerced attributes of the correspondingly keyed
edge; other slots stay unset. -/
def charPair (g : MultiDiGraph) (u v : String) (s : Nat) (name : String) : Val :=
  let kd := keydict g u v
  if s < kd.length then
    match lastVal (kd.getD s (0, [])).2 name with
    | some v0 => totalCoerce name v0
    | none => if name = "conn" then .intV 1 else .intV 0
  else .intV 0

/-- The first processed edge whose labels parse to the queried key. -/
def findProc (es : List (String × String × Nat × List (String × Val)))
    (src : String) (i : Int) (dest : String) (j : Int) : Option (String × String) :=
  (es.find? (fun e => splitLabelO e.1 = some (src, i) ∧ splitLabelO e.2.1 = some (dest, j))).map
    (fun e => (e.1, e.2.1))

/-- The decoded store value for an arbitrary query after processing a
list of edges. -/
def charQuery (g : MultiDiGraph) (es : List (String × String × Nat × List (String × Val)))
    (src : String) (i : Int) (dest : String) (j : Int) (s : Nat) (name : String) : Val :=
  ((findProc es src i dest j).map (fun uv => charPair g uv.1 uv.2 s name)).getD (.intV 0)

theorem charQuery_some {g : MultiDiGraph}
    {es : List (String × String × Nat × List (String × Val))} {src : String} {i : Int}
    {dest : String} {j : Int} {u v : String} (s : Nat) (name : String)
    (h : findProc es src i dest j = some (u, v)) :
    charQuery g es src i dest j s name = charPair g u v s name := by
  rw [charQuery, h]
  rfl

theorem charQuery_none {g : MultiDiGraph}
    {es : List (String × String × Nat × List (String × Val))} {src : String} {i : Int}
    {dest : String} {j : Int} (s : Nat) (name : String)
    (h : findProc es src i dest j = none) :
    charQuery g es src i dest j s name = .intV 0 := by
  rw [charQuery, h]
  rfl

theorem splitLabel_ok_iff {s : String} {p : String × Int} :
    splitLabel s = .ok p ↔ splitLabelO s = some p := by
  rw [splitLabel, splitLabelO]
  cases splitSep ':' s.data with
  | nil => simp
  | cons a t =>
    cases t with
    | nil => simp
    | cons b t2 =>
      cases t2 with
      | nil => cases hpi : pyIntString ⟨b⟩ <;> simp [hpi]
      | cons x t3 => simp

theorem processEdge_ok_inv {g : MultiDiGraph} {c c' : Conn} {u v : String}
    (h : processEdge g c u v = .ok c') :
    ∃ a i b j, splitLabelO u = some (a, i) ∧ splitLabelO v = some (b, j) ∧
      procKd a i b j (keydict g u v).enum c = .ok c' := by
  rw [processEdge] at h
  revert h
  cases hu : splitLabel u with
  | error e => intro h; exact absurd h (by simp)
  | ok pa =>
    cases hv : splitLabel v with
    | error e => intro h; exact absurd h (by simp)
    | ok pb =>
      intro h
      exact ⟨pa.1, pa.2, pb.1, pb.2, splitLabel_ok_iff.mp (by rw [hu]),
        splitLabel_ok_iff.mp (by rw [hv]), h⟩

theorem enum_keys_nodup (kd : List (Nat × List (String × Val))) :
    (kd.enum.map Prod.fst).Nodup := by
  rw [List.enum_map_fst]
  exact List.nodup_range _

theorem mem_enum_of_lt {kd : List (Nat × List (String × Val))} {s : Nat}
    (hs : s < kd.length) : (s, kd.getD s (0, [])) ∈ kd.enum := by
  have hs2 : s < kd.enum.length := by rw [List.enum_length]; exact hs
  have := List.getElem_enum kd s hs2
  rw [List.getD_eq_getElem kd (0, []) hs]
  exact this ▸ List.getElem_mem hs2

theorem keydict_mem {g : MultiDiGraph} {u v : String} {t : Nat × List (String × Val)}
    (h : t ∈ keydict g u v) : (u, v, t.1, t.2) ∈ g.edges := by
  rw [keydict] at h
  obtain ⟨e, he, hmap⟩ := List.mem_filterMap.mp h
  revert hmap
  by_cases hc : e.1 = u ∧ e.2.1 = v
  · rw [if_pos hc]
    intro hmap
    injection hmap with hmap
    have : e = (u, v, t.1, t.2) := by
      obtain ⟨h1, h2⟩ := hc
      rw [← h1, ← h2, ← hmap]
    exact this ▸ he
  · rw [if_neg hc]
    intro hmap
    exact absurd hmap (by simp)

theorem decodeEdges_char {g : MultiDiGraph} (hinj : InjPairs g) :
    ∀ (es : List (String × String × Nat × List (String × Val))),
      (∀ e ∈ es, e ∈ g.edges) →
      ∀ (done : List (String × String × Nat × List (String × Val))),
      (∀ e ∈ done, e ∈ g.edges) →
      ∀ c : Conn,
      (∀ (src dest : String) (i j : Int) (s : Nat) (name : String),
        c.get src dest i j s name = charQuery g done src i dest j s name) →
      ∀ c', decodeEdges g es c = .ok c' →
      (∀ (src dest : String) (i j : Int) (s : Nat) (name : String),
        c'.get src dest i j s name = charQuery g (done ++ es) src i dest j s name) := by
  intro es
  induction es with
  | nil =>
    intro _ done _ c hc c' h
    rw [decodeEdges] at h
    injection h with h
    subst h
    simpa using hc
  | cons e rest ih =>
    intro hsub done hdsub c hc c' h
    rw [decodeEdges] at h
    revert h
    cases hpe : processEdge g c e.1 e.2.1 with
    | error err => intro h; exact absurd h (by simp)
    | ok c1 =>
      intro h
      obtain ⟨a, i0, b, j0, hpa, hpb, hkd⟩ := processEdge_ok_inv hpe
      obtain ⟨pA, pB⟩ := procKd_get hkd (enum_keys_nodup _)
      have hee : e ∈ g.edges := hsub e (List.mem_cons_self _ _)
      have hfind_pair : ∀ (l : List (String × String × Nat × List (String × Val))),
          (∀ x ∈ l, x ∈ g.edges) → ∀ u0 v0, findProc l a i0 b j0 = some (u0, v0) →
          u0 = e.1 ∧ v0 = e.2.1 := by
        intro l hl u0 v0 hfp
        rw [findProc] at hfp
        cases hfd : l.find? (fun e2 => decide (splitLabelO e2.1 = some (a, i0) ∧
            splitLabelO e2.2.1 = some (b, j0))) with
        | none => rw [hfd] at hfp; exact absurd hfp (by simp)
        | some e0 =>
          rw [hfd] at hfp
          simp only [Option.map_some'] at hfp
          have he0 : e0 ∈ l := List.mem_of_find?_eq_some hfd
          have he0p := List.find?_some hfd
          simp only [decide_eq_true_eq] at he0p
          have hpair : ((e0.1, e0.2.1) : String × String) = (e.1, e.2.1) := by
            refine hinj (e0.1, e0.2.1) ?_ (e.1, e.2.1) ?_ ?_
            · exact List.mem_map_of_mem _ (hl e0 he0)
            · exact List.mem_map_of_mem _ hee
            · rw [pairKeyO, pairKeyO]
              simp only [he0p.1, he0p.2, hpa, hpb]
          injection hfp with hp
          injection hp with h1 h2
          injection hpair with h3 h4
          exact ⟨h1 ▸ h3, h2 ▸ h4⟩
      have hde_sub : ∀ x ∈ done ++ [e], x ∈ g.edges := by
        intro x hx
        rcases List.mem_append.mp hx with h2 | h2
        · exact hdsub x h2
        · simp only [List.mem_singleton] at h2
          exact h2 ▸ hee
      have step : ∀ (src dest : String) (i j : Int) (s : Nat) (name : String),
          c1.get src dest i j s name = charQuery g (done ++ [e]) src i dest j s name := by
        intro src dest i j s name
        by_cases hm : src = a ∧ dest = b ∧ i = i0 ∧ j = j0
        · obtain ⟨hq1, hq2, hq3, hq4⟩ := hm
          rw [hq1, hq2, hq3, hq4]
          have hbase : c.get a b i0 j0 s name = .intV 0 ∨
              c.get a b i0 j0 s name = charPair g e.1 e.2.1 s name := by
            rw [hc a b i0 j0 s name]
            cases hfp : findProc done a i0 b j0 with
            | none => exact Or.inl (charQuery_none s name hfp)
            | some p0 =>
              right
              have hfp2 : findProc done a i0 b j0 = some (p0.1, p0.2) := by rw [hfp]
              obtain ⟨h1, h2⟩ := hfind_pair done hdsub p0.1 p0.2 hfp2
              rw [charQuery_some s name hfp2, h1, h2]
          have hrhs : charQuery g (done ++ [e]) a i0 b j0 s name =
              charPair g e.1 e.2.1 s name := by
            cases hfp : findProc (done ++ [e]) a i0 b j0 with
            | none =>
              exfalso
              rw [findProc] at hfp
              have hfn : List.find? (fun e2 => decide (splitLabelO e2.1 = some (a, i0) ∧
                  splitLabelO e2.2.1 = some (b, j0))) (done ++ [e]) = none := by
                cases hx : List.find? (fun e2 => decide (splitLabelO e2.1 = some (a, i0) ∧
                    splitLabelO e2.2.1 = some (b, j0))) (done ++ [e]) with
                | none => rfl
                | some y => rw [hx] at hfp; exact absurd hfp (by simp)
              have hne := List.find?_eq_none.mp hfn e (by simp)
              simp [hpa, hpb] at hne
            | some p0 =>
              have hfp2 : findProc (done ++ [e]) a i0 b j0 = some (p0.1, p0.2) := by rw [hfp]
              obtain ⟨h1, h2⟩ := hfind_pair (done ++ [e]) hde_sub p0.1 p0.2 hfp2
              rw [charQuery_some s name hfp2, h1, h2]
          rw [hrhs]
          by_cases hs : s < (keydict g e.1 e.2.1).length
          · have hmem := mem_enum_of_lt hs
            have pAs := pA (s, (keydict g e.1 e.2.1).getD s (0, [])) hmem name
            cases hlast : lastVal ((keydict g e.1 e.2.1).getD s (0, [])).2 name with
            | some v0 =>
              obtain ⟨w, hw1, hw2⟩ := pAs.1 v0 hlast
              rw [hw2, charPair]
              simp only [if_pos hs, hlast, totalCoerce, hw1]
            | none =>
              rw [pAs.2 hlast, charPair]
              simp only [if_pos hs, hlast]
              by_cases hn : name = "conn"
              · rw [if_pos hn, if_pos hn]
              · rw [if_neg hn, if_neg hn]
                rcases hbase with h0 | h0
                · exact h0
                · rw [h0, charPair]
                  simp only [if_pos hs, hlast, if_neg hn]
          · have hs2 : s ∉ (keydict g e.1 e.2.1).enum.map Prod.fst := by
              rw [List.enum_map_fst, List.mem_range]
              omega
            rw [pB a b i0 j0 s name (Or.inr hs2), charPair]
            simp only [if_neg hs]
            rcases hbase with h0 | h0
            · exact h0
            · rw [h0, charPair]
              simp only [if_neg hs]
        · rw [pB src dest i j s name (Or.inl hm), hc src dest i j s name]
          have hnone : List.find? (fun e2 => decide (splitLabelO e2.1 = some (src, i) ∧
              splitLabelO e2.2.1 = some (dest, j))) [e] = none := by
            refine List.find?_cons_of_neg _ ?_
            simp only [decide_eq_true_eq, hpa, hpb]
            rintro ⟨h1, h2⟩
            injection h1 with h1
            injection h2 with h2
            injection h1 with h1a h1b
            injection h2 with h2a h2b
            exact hm ⟨h1a.symm, h2a.symm, h1b.symm, h2b.symm⟩
          have heq : findProc (done ++ [e]) src i dest j = findProc done src i dest j := by
            rw [findProc, findProc, List.find?_append, hnone, Option.or_none]
          rw [charQuery, charQuery, heq]
      have hstep2 := ih (fun e2 he2 => hsub e2 (List.mem_cons_of_mem _ he2))
        (done ++ [e]) hde_sub c1 step c' h
      intro src dest i j s name
      rw [hstep2 src dest i j s name, List.append_assoc]
      rfl

theorem decode_ok_decodeEdges {g : MultiDiGraph} {ty : Bool} {c : Conn}
    (h : graph_to_conn g ty = .ok c) :
    ∃ c0 : Conn, c0.dat = [] ∧ decodeEdges g g.edges c0 = .ok c := by
  rw [graph_to_conn] at h
  cases hb : isBipartiteStruct g with
  | false => rw [hb] at h; simp at h
  | true =>
    rw [hb] at h
    simp only [Bool.not_true, Bool.false_eq_true, if_false] at h
    revert h
    cases hnd : buildNodeDict g.nodes with
    | error e => intro h; exact absurd h (by simp)
    | ok nd =>
      match nd with
      | [] => intro h; exact absurd h (by simp)
      | [x] => intro h; exact absurd h (by simp)
      | x :: y :: z :: rest => intro h; exact absurd h (by simp)
      | [(aid, sa), (bid, sb)] =>
        cases hcc : (consecutiveB sa && consecutiveB sb) with
        | false => intro h; simp [hcc] at h
        | true =>
          simp only [hcc, Bool.not_true, Bool.false_eq_true, if_false]
          cases htc : (if ty = true then typedCounts g aid sa bid sb
              else Except.ok ((0, 0), 0, 0)) with
          | error e => intro h; exact absurd h (by simp)
          | ok tc =>
            simp only []
            by_cases hne : pairsOf g = []
            · intro h; simp [hne] at h
            · simp only [hne, if_false]
              intro h
              cases ty with
              | false => exact ⟨_, rfl, h⟩
              | true => exact ⟨_, rfl, h⟩

/-- The full characterisation of the store of a decoded model: every read
equals the value determined by the first edge whose labels parse to the
queried key, its key dictionary and the enumerated-slot writes. -/
theorem decode_get_char {g : MultiDiGraph} {ty : Bool} {c : Conn}
    (h : graph_to_conn g ty = .ok c) (hinj : InjPairs g) :
    ∀ (src dest : String) (i j : Int) (s : Nat) (name : String),
      c.get src dest i j s name = charQuery g g.edges src i dest j s name := by
  obtain ⟨c0, hdat, hde⟩ := decode_ok_decodeEdges h
  have hbase : ∀ (src dest : String) (i j : Int) (s : Nat) (name : String),
      c0.get src dest i j s name = charQuery g [] src i dest j s name := by
    intro src dest i j s name
    rw [Conn.get, hdat]
    rfl
  have := decodeEdges_char hinj g.edges (fun _ he => he) [] (by simp) c0 hbase c hde
  simpa using this

/-! ### Every stored attribute coerces on success -/

theorem setSlotAttrs_coerce {a : String} {i : Int} {b : String} {j : Int} {slot : Nat}
    {attrs : List (String × Val)} {c c' : Conn}
    (h : setSlotAttrs a i b j slot attrs c = .ok c') :
    ∀ nv ∈ attrs, ∃ w, coerceParam nv.1 nv.2 = .ok w := by
  induction attrs generalizing c with
  | nil => intro nv hnv; exact absurd hnv (List.not_mem_nil nv)
  | cons nv0 rest ih =>
    rw [setSlotAttrs] at h
    revert h
    cases hco : coerceParam nv0.1 nv0.2 with
    | error e => intro h; exact absurd h (by simp)
    | ok w =>
      intro h nv hnv
      rcases List.mem_cons.mp hnv with h1 | h1
      · exact ⟨w, h1 ▸ hco⟩
      · exact ih h nv h1

theorem procKd_coerce {a : String} {i : Int} {b : String} {j : Int}
    {l : List (Nat × Nat × List (String × Val))} {c c' : Conn}
    (h : procKd a i b j l c = .ok c') :
    ∀ t ∈ l, ∀ nv ∈ t.2.2, ∃ w, coerceParam nv.1 nv.2 = .ok w := by
  induction l generalizing c with
  | nil => intro t ht; exact absurd ht (List.not_mem_nil t)
  | cons t0 rest ih =>
    rw [procKd] at h
    revert h
    cases hs : setSlotParams a i b j t0.1 t0.2.2 c with
    | error e => intro h; exact absurd h (by simp)
    | ok c1 =>
      intro h t ht
      rcases List.mem_cons.mp ht with h1 | h1
      · rw [setSlotParams] at hs
        exact h1 ▸ setSlotAttrs_coerce hs
      · exact ih h t h1

theorem decodeEdges_coerce {g : MultiDiGraph} :
    ∀ {es : List (String × String × Nat × List (String × Val))} {c c' : Conn},
      decodeEdges g es c = .ok c' →
      ∀ e ∈ es, ∀ t ∈ keydict g e.1 e.2.1, ∀ nv ∈ t.2,
        ∃ w, coerceParam nv.1 nv.2 = .ok w := by
  intro es
  induction es with
  | nil => intro c c' _ e he; exact absurd he (List.not_mem_nil e)
  | cons e0 rest ih =>
    intro c c' h e he
    rw [decodeEdges] at h
    revert h
    cases hpe : processEdge g c e0.1 e0.2.1 with
    | error err => intro h; exact absurd h (by simp)
    | ok c1 =>
      intro h
      rcases List.mem_cons.mp he with h1 | h1
      · subst h1
        obtain ⟨a, i0, b, j0, _, _, hkd⟩ := processEdge_ok_inv hpe
        intro t ht nv hnv
        obtain ⟨k, hk, he2⟩ := List.mem_iff_getElem.mp ht
        have hk2 : k < (keydict g e.1 e.2.1).enum.length := by
          rw [List.enum_length]; exact hk
        have hmem : (k, t) ∈ (keydict g e.1 e.2.1).enum := by
          have := List.getElem_enum (keydict g e.1 e.2.1) k hk2
          rw [he2] at this
          exact this ▸ List.getElem_mem hk2
        exact procKd_coerce hkd (k, t) hmem nv hnv
      · exact ih h e h1

/-- A successful decode coerces every attribute of every edge. -/
theorem decode_ok_coerce {g : MultiDiGraph} {ty : Bool} {c : Conn}
    (h : graph_to_conn g ty = .ok c) :
    ∀ e ∈ g.edges, ∀ t ∈ keydict g e.1 e.2.1, ∀ nv ∈ t.2,
      ∃ w, coerceParam nv.1 nv.2 = .ok w := by
  obtain ⟨c0, _, hde⟩ := decode_ok_decodeEdges h
  exact decodeEdges_coerce hde

theorem lastVal_of_mem_nodup {l : List (String × Val)} (hnd : (l.map Prod.fst).Nodup)
    {nm : String} {v0 : Val} (hmem : (nm, v0) ∈ l) : lastVal l nm = some v0 := by
  rw [lastVal_eq_assocFind hnd]
  induction l with
  | nil => exact absurd hmem (List.not_mem_nil _)
  | cons e rest ih =>
    rw [List.map_cons, List.nodup_cons] at hnd
    rcases List.mem_cons.mp hmem with h1 | h1
    · rw [← h1]
      exact assocFind_cons_of_eq rfl
    · have hne : e.1 ≠ nm := by
        intro he
        exact hnd.1 (he ▸ List.mem_map_of_mem Prod.fst h1)
      rw [assocFind_cons_of_ne hne]
      exact ih hnd.2 h1

theorem findProc_of_pair {g : MultiDiGraph} (hinj : InjPairs g) {p : String × String}
    (hp : p ∈ pairsOf g) {a b : String} {i j : Int}
    (hpa : splitLabelO p.1 = some (a, i)) (hpb : splitLabelO p.2 = some (b, j)) :
    findProc g.edges a i b j = some (p.1, p.2) := by
  obtain ⟨e, he, hpe⟩ := List.mem_map.mp hp
  rw [findProc]
  cases hfd : g.edges.find? (fun e2 => decide (splitLabelO e2.1 = some (a, i) ∧
      splitLabelO e2.2.1 = some (b, j))) with
  | none =>
    exfalso
    have := List.find?_eq_none.mp hfd e he
    have h1 : e.1 = p.1 := congrArg Prod.fst hpe
    have h2 : e.2.1 = p.2 := congrArg Prod.snd hpe
    rw [h1, h2] at this
    simp [hpa, hpb] at this
  | some e0 =>
    have he0 : e0 ∈ g.edges := List.mem_of_find?_eq_some hfd
    have he0p := List.find?_some hfd
    simp only [decide_eq_true_eq] at he0p
    have hpair : ((e0.1, e0.2.1) : String × String) = p := by
      refine hinj (e0.1, e0.2.1) (List.mem_map_of_mem _ he0) p hp ?_
      rw [pairKeyO, pairKeyO, he0p.1, he0p.2]
      have h1 : e.1 = p.1 := congrArg Prod.fst hpe
      have h2 : e.2.1 = p.2 := congrArg Prod.snd hpe
      rw [← hpe]
      simp only [h1, h2, hpa, hpb]
    simp only [Option.map_some']
    rw [show ((e0.1, e0.2.1) : String × String) = (p.1, p.2) from hpair]

/-! ### Claim C6 -/

/-- C6: for every valid (canonically labelled) input graph and every
attribute name/value pair stored on an edge, the decoder writes the value
coerced with Python `int` when the name is `"id"` and with Python `float`
for every other name.  The pair is addressed through the edge's ordered
node pair `p`, its enumerated slot `s`, and the attribute map of the
`s`-th parallel edge. -/
theorem C6_coercion (g : MultiDiGraph) (ty : Bool) (c : Conn)
    (h : graph_to_conn g ty = .ok c) (hinj : InjPairs g)
    (p : String × String) (hp : p ∈ pairsOf g)
    (a b : String) (i j : Int)
    (hpa : splitLabelO p.1 = some (a, i)) (hpb : splitLabelO p.2 = some (b, j))
    (s : Nat) (hs : s < (keydict g p.1 p.2).length)
    (hnd : (((keydict g p.1 p.2).getD s (0, [])).2.map Prod.fst).Nodup)
    (nm : String) (v0 : Val)
    (hmem : (nm, v0) ∈ ((keydict g p.1 p.2).getD s (0, [])).2) :
    (nm = "id" → ∃ n : Int, pyIntOfVal v0 = some n ∧ c.get a b i j s nm = .intV n) ∧
    (nm ≠ "id" → ∃ q : Rat, pyFloatOfVal v0 = some q ∧ c.get a b i j s nm = .floatV q) := by
  have hchar := decode_get_char h hinj a b i j s nm
  rw [charQuery_some s nm (findProc_of_pair hinj hp hpa hpb)] at hchar
  have hlast : lastVal ((keydict g p.1 p.2).getD s (0, [])).2 nm = some v0 :=
    lastVal_of_mem_nodup hnd hmem
  simp only [charPair, if_pos hs, hlast] at hchar
  have hkmem : (keydict g p.1 p.2).getD s (0, []) ∈ keydict g p.1 p.2 := by
    rw [List.getD_eq_getElem _ _ hs]
    exact List.getElem_mem hs
  have hedge := keydict_mem hkmem
  obtain ⟨w, hw⟩ := decode_ok_coerce h _ hedge _ hkmem (nm, v0) hmem
  constructor
  · intro hid
    rw [hid] at hw hchar ⊢
    rw [coerceParam, if_pos rfl] at hw
    revert hw
    cases hpi : pyIntOfVal v0 with
    | none => intro hw; exact absurd hw (by simp)
    | some n =>
      intro hw
      refine ⟨n, rfl, ?_⟩
      have hcp : coerceParam "id" v0 = .ok (.intV n) := by
        rw [coerceParam, if_pos rfl, hpi]
      rw [hchar]
      simp only [totalCoerce, hcp]
  · intro hid
    rw [coerceParam, if_neg hid] at hw
    revert hw
    cases hpf : pyFloatOfVal v0 with
    | none => intro hw; exact absurd hw (by simp)
    | some q =>
      intro hw
      refine ⟨q, rfl, ?_⟩
      have hcp : coerceParam nm v0 = .ok (.floatV q) := by
        rw [coerceParam, if_neg hid, hpf]
      rw [hchar]
      simp only [totalCoerce, hcp]

/-- A valid graph carrying a string-valued `"id"` and a string-valued
`"weight"` attribute (the spec's coercion example). -/
def exC6 : MultiDiGraph :=
  ⟨["A:0", "B:0"], [],
    [("A:0", "B:0", 0, [("id", .strV "5"), ("weight", .strV "0.3")])]⟩

theorem C6_coercion_witness :
    (graph_to_conn exC6 false = .ok (decodeOk exC6 false) ∧ InjPairs exC6 ∧
      ("A:0", "B:0") ∈ pairsOf exC6 ∧
      splitLabelO "A:0" = some ("A", 0) ∧ splitLabelO "B:0" = some ("B", 0)) ∧
    (∃ n : Int, pyIntOfVal (.strV "5") = some n ∧
      (decodeOk exC6 false).get "A" "B" 0 0 0 "id" = .intV n) ∧
    (∃ q : Rat, pyFloatOfVal (.strV "0.3") = some q ∧
      (decodeOk exC6 false).get "A" "B" 0 0 0 "weight" = .floatV q) :=
  ⟨⟨rfl, by decide, by decide, by decide, by decide⟩,
    (C6_coercion exC6 false (decodeOk exC6 false) rfl (by decide) ("A:0", "B:0")
      (by decide) "A" "B" 0 0 (by decide) (by decide) 0 (by decide) (by decide)
      "id" (.strV "5") (by decide)).1 rfl,
    (C6_coercion exC6 false (decodeOk exC6 false) rfl (by decide) ("A:0", "B:0")
      (by decide) "A" "B" 0 0 (by decide) (by decide) 0 (by decide) (by decide)
      "weight" (.strV "0.3") (by decide)).2 (by decide)⟩

/-! ### Claim C10 -/

/-- C10: for every valid (canonically labelled) input graph whose edges
carry no attribute named `"conn"`, and every ordered node pair with
`k ≥ 1` parallel edges, the decoded model has the `"conn"` flag equal to
`1` at exactly the parallel slots `0 .. k-1` of that pair — the decoder
renumbers slots consecutively from 0 with `enumerate`, regardless of the
slot keys carried by the graph's parallel edges. -/
theorem C10_slot_renumbering (g : MultiDiGraph) (ty : Bool) (c : Conn)
    (h : graph_to_conn g ty = .ok c) (hinj : InjPairs g)
    (hnoconn : ∀ e ∈ g.edges, ∀ nv ∈ e.2.2.2, nv.1 ≠ "conn")
    (p : String × String) (hp : p ∈ pairsOf g)
    (a b : String) (i j : Int)
    (hpa : splitLabelO p.1 = some (a, i)) (hpb : splitLabelO p.2 = some (b, j)) :
    ∀ s : Nat, pyEqOne (c.get a b i j s "conn") = true ↔
      s < (keydict g p.1 p.2).length := by
  intro s
  have hchar := decode_get_char h hinj a b i j s "conn"
  rw [charQuery_some s "conn" (findProc_of_pair hinj hp hpa hpb)] at hchar
  by_cases hs : s < (keydict g p.1 p.2).length
  · have hlast : lastVal ((keydict g p.1 p.2).getD s (0, [])).2 "conn" = none := by
      refine lastVal_eq_none_of_not_mem ?_
      intro hmem
      obtain ⟨nv, hnv, hnv1⟩ := List.mem_map.mp hmem
      have hkmem : (keydict g p.1 p.2).getD s (0, []) ∈ keydict g p.1 p.2 := by
        rw [List.getD_eq_getElem _ _ hs]
        exact List.getElem_mem hs
      exact hnoconn _ (keydict_mem hkmem) nv hnv hnv1
    simp only [charPair, if_pos hs, hlast, if_pos rfl] at hchar
    rw [hchar]
    simp [pyEqOne, hs]
  · simp only [charPair, if_neg hs] at hchar
    rw [hchar]
    simp [pyEqOne, hs]

theorem C10_slot_renumbering_witness :
    (graph_to_conn exPar2 false = .ok (decodeOk exPar2 false) ∧ InjPairs exPar2 ∧
      ("A:0", "B:0") ∈ pairsOf exPar2 ∧ (keydict exPar2 "A:0" "B:0").length = 2) ∧
    (∀ s : Nat, pyEqOne ((decodeOk exPar2 false).get "A" "B" 0 0 s "conn") = true ↔
      s < (keydict exPar2 "A:0" "B:0").length) :=
  ⟨⟨rfl, by decide, by decide, by decide⟩,
    C10_slot_renumbering exPar2 false (decodeOk exPar2 false) rfl (by decide)
      (by decide) ("A:0", "B:0") (by decide) "A" "B" 0 0 (by decide) (by decide)⟩

/-! ### Encode: node-tag characterisation -/

theorem addEdgeAuto_nodeType (g : MultiDiGraph) (u v : String) :
    (addEdgeAuto g u v).nodeType = g.nodeType := rfl

theorem applyEdgeOps_nodeType (ops : List (String × String)) (g : MultiDiGraph) :
    (applyEdgeOps ops g).nodeType = g.nodeType := by
  induction ops generalizing g with
  | nil => rfl
  | cons p rest ih =>
    have hstep : applyEdgeOps (p :: rest) g = applyEdgeOps rest (addEdgeAuto g p.1 p.2) := rfl
    rw [hstep, ih, addEdgeAuto_nodeType]

theorem setEdgeAttr_nodeType {g g' : MultiDiGraph} {u v : String} {k : Nat}
    {name : String} {v0 : Val} (h : setEdgeAttr g u v k name v0 = .ok g') :
    g'.nodeType = g.nodeType := by
  rw [setEdgeAttr] at h
  split at h
  · injection h with h
    rw [← h]
  · exact absurd h (by simp)

theorem applyAttrOps_nodeType {ops : List ((String × String) × Nat × String × Val)}
    {g g' : MultiDiGraph} (h : applyAttrOps ops g = .ok g') :
    g'.nodeType = g.nodeType := by
  induction ops generalizing g with
  | nil =>
    rw [applyAttrOps] at h
    injection h with h
    rw [h]
  | cons op rest ih =>
    rw [applyAttrOps] at h
    revert h
    cases hs : setEdgeAttr g op.1.1 op.1.2 op.2.1 op.2.2.1 op.2.2.2 with
    | error e => intro h; exact absurd h (by simp)
    | ok g1 =>
      intro h
      rw [ih h, setEdgeAttr_nodeType hs]

/-- The `neuron_type` node-attribute map of an encoded graph is exactly
the result of the tag loops (typed variant) or empty (untyped). -/
theorem conn_to_graph_nodeType {c : Conn} {g : MultiDiGraph}
    (h : conn_to_graph c = .ok g) :
    g.nodeType = (if c.typed then applyTags [] (tagOps c) else []) := by
  simp only [conn_to_graph] at h
  rw [applyAttrOps_nodeType h, applyEdgeOps_nodeType]

theorem lastVal_append {α : Type} (a b : List (String × α)) (k : String) :
    lastVal (a ++ b) k = match lastVal b k with
      | some v => some v
      | none => lastVal a k := by
  induction a with
  | nil =>
    rw [List.nil_append]
    cases lastVal b k <;> rfl
  | cons p rest ih =>
    rw [List.cons_append, lastVal, ih, lastVal]
    cases lastVal b k <;> cases lastVal rest k <;> rfl

theorem lastVal_const {α : Type} {l : List (String × α)} {ty : α}
    (h : ∀ e ∈ l, e.2 = ty) (k : String) :
    lastVal l k = if ∃ e ∈ l, e.1 = k then some ty else none := by
  induction l with
  | nil => simp [lastVal]
  | cons p rest ih =>
    rw [lastVal, ih (fun e he => h e (List.mem_cons_of_mem _ he))]
    by_cases hr : ∃ e ∈ rest, e.1 = k
    · obtain ⟨e, he, hek⟩ := hr
      have h1 : ∃ e ∈ rest, e.1 = k := ⟨e, he, hek⟩
      have h2 : ∃ e ∈ p :: rest, e.1 = k := ⟨e, List.mem_cons_of_mem _ he, hek⟩
      rw [if_pos h1, if_pos h2]
    · rw [if_neg hr]
      by_cases hp : p.1 = k
      · have hmem : ∃ e ∈ p :: rest, e.1 = k := ⟨p, List.mem_cons_self _ _, hp⟩
        rw [if_pos hmem]
        simp only [if_pos hp, h p (List.mem_cons_self p rest)]
      · have hmem : ¬ ∃ e ∈ p :: rest, e.1 = k := by
          rintro ⟨e, he, hek⟩
          rcases List.mem_cons.mp he with h1 | h1
          · exact hp (h1 ▸ hek)
          · exact hr ⟨e, h1, hek⟩
        rw [if_neg hmem]
        simp only [if_neg hp]

/-- The last write of one tag loop at a queried label: the loop writes the
constant tag `ty` at the labels `id:f i` for `i` below the loop bound. -/
theorem lastVal_tagList {id lid : String} (hid : goodId id) (hlid : goodId lid)
    (ty : String) (f : Nat → Nat) (cnt : Nat) (n : Nat) :
    lastVal ((List.range cnt).map (fun i => (mkLabel id (f i), ty))) (mkLabel lid n) =
      if id = lid ∧ ∃ i, i < cnt ∧ f i = n then some ty else none := by
  rw [lastVal_const (fun e he => by
    obtain ⟨i, _, hi⟩ := List.mem_map.mp he
    rw [← hi])]
  by_cases hc : id = lid ∧ ∃ i, i < cnt ∧ f i = n
  · obtain ⟨hq, i, hi, hfi⟩ := hc
    have h1 : ∃ e ∈ (List.range cnt).map (fun i => (mkLabel id (f i), ty)),
        e.1 = mkLabel lid n :=
      ⟨(mkLabel id (f i), ty), List.mem_map_of_mem _ (List.mem_range.mpr hi), by
        show mkLabel id (f i) = mkLabel lid n
        rw [hfi, hq]⟩
    have h2 : id = lid ∧ ∃ i, i < cnt ∧ f i = n := ⟨hq, i, hi, hfi⟩
    rw [if_pos h1, if_pos h2]
  · have h1 : ¬ ∃ e ∈ (List.range cnt).map (fun i => (mkLabel id (f i), ty)),
        e.1 = mkLabel lid n := by
      rintro ⟨e, he, hek⟩
      obtain ⟨i, hi, hie⟩ := List.mem_map.mp he
      rw [← hie] at hek
      have hinj := mkLabel_inj hid hlid hek
      exact hc ⟨hinj.1, i, List.mem_range.mp hi, hinj.2⟩
    rw [if_neg h1, if_neg hc]

/-- The tag value left at an `A`-population label by the four tag loops:
the later spike loop wins where both type images hit the index. -/
theorem lastVal_tagOps_A (c : Conn) (hA : goodId c.A_id) (hB : goodId c.B_id)
    (hAB : c.A_id ≠ c.B_id) (n : Nat) :
    lastVal (tagOps c) (mkLabel c.A_id n) =
      if ∃ k, k < c.N_A_spike ∧ c.idxTranslate c.A_id "spike" k = n then some "spike"
      else if ∃ k, k < c.N_A_gpot ∧ c.idxTranslate c.A_id "gpot" k = n then some "gpot"
      else none := by
  have hAg : lastVal ((List.range c.N_A_gpot).map fun i =>
      (mkLabel c.A_id (c.idxTranslate c.A_id "gpot" i), "gpot")) (mkLabel c.A_id n) =
      if c.A_id = c.A_id ∧ ∃ i, i < c.N_A_gpot ∧ c.idxTranslate c.A_id "gpot" i = n
      then some "gpot" else none := lastVal_tagList hA hA "gpot" _ _ n
  have hBg : lastVal ((List.range c.N_B_gpot).map fun i =>
      (mkLabel c.B_id (c.idxTranslate c.B_id "gpot" i), "gpot")) (mkLabel c.A_id n) =
      if c.B_id = c.A_id ∧ ∃ i, i < c.N_B_gpot ∧ c.idxTranslate c.B_id "gpot" i = n
      then some "gpot" else none := lastVal_tagList hB hA "gpot" _ _ n
  have hAs : lastVal ((List.range c.N_A_spike).map fun i =>
      (mkLabel c.A_id (c.idxTranslate c.A_id "spike" i), "spike")) (mkLabel c.A_id n) =
      if c.A_id = c.A_id ∧ ∃ i, i < c.N_A_spike ∧ c.idxTranslate c.A_id "spike" i = n
      then some "spike" else none := lastVal_tagList hA hA "spike" _ _ n
  have hBs : lastVal ((List.range c.N_B_spike).map fun i =>
      (mkLabel c.B_id (c.idxTranslate c.B_id "spike" i), "spike")) (mkLabel c.A_id n) =
      if c.B_id = c.A_id ∧ ∃ i, i < c.N_B_spike ∧ c.idxTranslate c.B_id "spike" i = n
      then some "spike" else none := lastVal_tagList hB hA "spike" _ _ n
  have hne1 : ¬(c.B_id = c.A_id ∧
      ∃ i, i < c.N_B_gpot ∧ c.idxTranslate c.B_id "gpot" i = n) :=
    fun hc => hAB hc.1.symm
  have hne2 : ¬(c.B_id = c.A_id ∧
      ∃ i, i < c.N_B_spike ∧ c.idxTranslate c.B_id "spike" i = n) :=
    fun hc => hAB hc.1.symm
  rw [tagOps, lastVal_append, lastVal_append, lastVal_append, hAg, hBg, hAs, hBs,
    if_neg hne1, if_neg hne2]
  by_cases hs : ∃ k, k < c.N_A_spike ∧ c.idxTranslate c.A_id "spike" k = n
  · have hp1 : c.A_id = c.A_id ∧
        ∃ i, i < c.N_A_spike ∧ c.idxTranslate c.A_id "spike" i = n := ⟨rfl, hs⟩
    rw [if_pos hp1, if_pos hs]
  · have hn1 : ¬(c.A_id = c.A_id ∧
        ∃ i, i < c.N_A_spike ∧ c.idxTranslate c.A_id "spike" i = n) :=
      fun hc => hs hc.2
    rw [if_neg hn1, if_neg hs]
    by_cases hg : ∃ k, k < c.N_A_gpot ∧ c.idxTranslate c.A_id "gpot" k = n
    · have hp2 : c.A_id = c.A_id ∧
          ∃ i, i < c.N_A_gpot ∧ c.idxTranslate c.A_id "gpot" i = n := ⟨rfl, hg⟩
      rw [if_pos hp2, if_pos hg]
    · have hn2 : ¬(c.A_id = c.A_id ∧
          ∃ i, i < c.N_A_gpot ∧ c.idxTranslate c.A_id "gpot" i = n) :=
        fun hc => hg hc.2
      rw [if_neg hn2, if_neg hg]

/-- The tag value left at a `B`-population label by the four tag loops. -/
theorem lastVal_tagOps_B (c : Conn) (hA : goodId c.A_id) (hB : goodId c.B_id)
    (hAB : c.A_id ≠ c.B_id) (n : Nat) :
    lastVal (tagOps c) (mkLabel c.B_id n) =
      if ∃ k, k < c.N_B_spike ∧ c.idxTranslate c.B_id "spike" k = n then some "spike"
      else if ∃ k, k < c.N_B_gpot ∧ c.idxTranslate c.B_id "gpot" k = n then some "gpot"
      else none := by
  have hAg : lastVal ((List.range c.N_A_gpot).map fun i =>
      (mkLabel c.A_id (c.idxTranslate c.A_id "gpot" i), "gpot")) (mkLabel c.B_id n) =
      if c.A_id = c.B_id ∧ ∃ i, i < c.N_A_gpot ∧ c.idxTranslate c.A_id "gpot" i = n
      then some "gpot" else none := lastVal_tagList hA hB "gpot" _ _ n
  have hBg : lastVal ((List.range c.N_B_gpot).map fun i =>
      (mkLabel c.B_id (c.idxTranslate c.B_id "gpot" i), "gpot")) (mkLabel c.B_id n) =
      if c.B_id = c.B_id ∧ ∃ i, i < c.N_B_gpot ∧ c.idxTranslate c.B_id "gpot" i = n
      then some "gpot" else none := lastVal_tagList hB hB "gpot" _ _ n
  have hAs : lastVal ((List.range c.N_A_spike).map fun i =>
      (mkLabel c.A_id (c.idxTranslate c.A_id "spike" i), "spike")) (mkLabel c.B_id n) =
      if c.A_id = c.B_id ∧ ∃ i, i < c.N_A_spike ∧ c.idxTranslate c.A_id "spike" i = n
      then some "spike" else none := lastVal_tagList hA hB "spike" _ _ n
  have hBs : lastVal ((List.range c.N_B_spike).map fun i =>
      (mkLabel c.B_id (c.idxTranslate c.B_id "spike" i), "spike")) (mkLabel c.B_id n) =
      if c.B_id = c.B_id ∧ ∃ i, i < c.N_B_spike ∧ c.idxTranslate c.B_id "spike" i = n
      then some "spike" else none := lastVal_tagList hB hB "spike" _ _ n
  have hne1 : ¬(c.A_id = c.B_id ∧
      ∃ i, i < c.N_A_gpot ∧ c.idxTranslate c.A_id "gpot" i = n) :=
    fun hc => hAB hc.1
  have hne2 : ¬(c.A_id = c.B_id ∧
      ∃ i, i < c.N_A_spike ∧ c.idxTranslate c.A_id "spike" i = n) :=
    fun hc => hAB hc.1
  rw [tagOps, lastVal_append, lastVal_append, lastVal_append, hAg, hBg, hAs, hBs,
    if_neg hne1, if_neg hne2]
  by_cases hs : ∃ k, k < c.N_B_spike ∧ c.idxTranslate c.B_id "spike" k = n
  · have hp1 : c.B_id = c.B_id ∧
        ∃ i, i < c.N_B_spike ∧ c.idxTranslate c.B_id "spike" i = n := ⟨rfl, hs⟩
    rw [if_pos hp1, if_pos hs]
  · have hn1 : ¬(c.B_id = c.B_id ∧
        ∃ i, i < c.N_B_spike ∧ c.idxTranslate c.B_id "spike" i = n) :=
      fun hc => hs hc.2
    rw [if_neg hn1, if_neg hs]
    by_cases hg : ∃ k, k < c.N_B_gpot ∧ c.idxTranslate c.B_id "gpot" k = n
    · have hp2 : c.B_id = c.B_id ∧
          ∃ i, i < c.N_B_gpot ∧ c.idxTranslate c.B_id "gpot" i = n := ⟨rfl, hg⟩
      rw [if_pos hp2, if_pos hg]
    · have hn2 : ¬(c.B_id = c.B_id ∧
          ∃ i, i < c.N_B_gpot ∧ c.idxTranslate c.B_id "gpot" i = n) :=
        fun hc => hg hc.2
      rw [if_neg hn2, if_neg hg]

/-! ### Claim C5 -/

/-- C5: for a typed connectivity object with well-formed ids whose
per-population type translations are disjoint and cover the population,
encoding tags with `neuron_type = "gpot"` exactly those labels whose index
is the translation image of some in-range gpot index, and with `"spike"`
all remaining labels of the population — the tag follows the translated
index, not the raw storage position. -/
theorem C5_neuron_type (c : Conn) (g : MultiDiGraph)
    (h : conn_to_graph c = .ok g) (hty : c.typed = true)
    (hA : goodId c.A_id) (hB : goodId c.B_id) (hAB : c.A_id ≠ c.B_id)
    (hcovA : ∀ n, n < c.N_A →
      (∃ k, k < c.N_A_gpot ∧ c.idxTranslate c.A_id "gpot" k = n) ∨
      (∃ k, k < c.N_A_spike ∧ c.idxTranslate c.A_id "spike" k = n))
    (hdisA : ∀ k, k < c.N_A_gpot → ∀ k', k' < c.N_A_spike →
      c.idxTranslate c.A_id "gpot" k ≠ c.idxTranslate c.A_id "spike" k')
    (hcovB : ∀ n, n < c.N_B →
      (∃ k, k < c.N_B_gpot ∧ c.idxTranslate c.B_id "gpot" k = n) ∨
      (∃ k, k < c.N_B_spike ∧ c.idxTranslate c.B_id "spike" k = n))
    (hdisB : ∀ k, k < c.N_B_gpot → ∀ k', k' < c.N_B_spike →
      c.idxTranslate c.B_id "gpot" k ≠ c.idxTranslate c.B_id "spike" k') :
    (∀ n, n < c.N_A → ntLookup g (mkLabel c.A_id n) =
      some (if ∃ k, k < c.N_A_gpot ∧ c.idxTranslate c.A_id "gpot" k = n
            then "gpot" else "spike")) ∧
    (∀ n, n < c.N_B → ntLookup g (mkLabel c.B_id n) =
      some (if ∃ k, k < c.N_B_gpot ∧ c.idxTranslate c.B_id "gpot" k = n
            then "gpot" else "spike")) := by
  have hnt : g.nodeType = applyTags [] (tagOps c) := by
    rw [conn_to_graph_nodeType h, if_pos hty]
  constructor
  · intro n hn
    have hlk : ntLookup g (mkLabel c.A_id n) =
        assocFind g.nodeType (mkLabel c.A_id n) := rfl
    rw [hlk, hnt, assocFind_applyTags, lastVal_tagOps_A c hA hB hAB n]
    by_cases hg : ∃ k, k < c.N_A_gpot ∧ c.idxTranslate c.A_id "gpot" k = n
    · have hns : ¬ ∃ k, k < c.N_A_spike ∧ c.idxTranslate c.A_id "spike" k = n := by
        rintro ⟨k', hk', he⟩
        obtain ⟨k, hk, he2⟩ := hg
        exact hdisA k hk k' hk' (he2.trans he.symm)
      rw [if_neg hns, if_pos hg, if_pos hg]
    · rcases hcovA n hn with h1 | h1
      · exact absurd h1 hg
      · rw [if_pos h1, if_neg hg]
  · intro n hn
    have hlk : ntLookup g (mkLabel c.B_id n) =
        assocFind g.nodeType (mkLabel c.B_id n) := rfl
    rw [hlk, hnt, assocFind_applyTags, lastVal_tagOps_B c hA hB hAB n]
    by_cases hg : ∃ k, k < c.N_B_gpot ∧ c.idxTranslate c.B_id "gpot" k = n
    · have hns : ¬ ∃ k, k < c.N_B_spike ∧ c.idxTranslate c.B_id "spike" k = n := by
        rintro ⟨k', hk', he⟩
        obtain ⟨k, hk, he2⟩ := hg
        exact hdisB k hk k' hk' (he2.trans he.symm)
      rw [if_neg hns, if_pos hg, if_pos hg]
    · rcases hcovB n hn with h1 | h1
      · exact absurd h1 hg
      · rw [if_pos h1, if_neg hg]

/-- The graph produced by a successful encode run (junk on failure). -/
def encOk (c : Conn) : MultiDiGraph :=
  (conn_to_graph c).toOption.getD ⟨[], [], []⟩

/-- The spec's tag example: population `A` has 2 gpot + 1 spike unit with
gpot 0 → global 0, gpot 1 → global 2, spike 0 → global 1; `B` has one gpot
unit.  One connection is flagged so the encoding succeeds. -/
def exC5 : Conn :=
  ⟨"A", "B", 3, 1, 1, true, 2, 1, 1, 0,
    fun id ty i =>
      if id = "A" then (if ty = "gpot" then (if i = 0 then 0 else 2) else 1) else i,
    [(⟨"A", "B", 0, "conn"⟩, [((0, 0), .intV 1)])]⟩

theorem C5_neuron_type_witness :
    (conn_to_graph exC5 = .ok (encOk exC5) ∧ exC5.typed = true) ∧
    ntLookup (encOk exC5) (mkLabel exC5.A_id 0) = some "gpot" ∧
    ntLookup (encOk exC5) (mkLabel exC5.A_id 2) = some "gpot" ∧
    ntLookup (encOk exC5) (mkLabel exC5.A_id 1) = some "spike" := by
  have h := C5_neuron_type exC5 (encOk exC5) rfl rfl (by decide) (by decide) (by decide)
    (by decide) (by decide) (by decide) (by decide)
  refine ⟨⟨rfl, rfl⟩, ?_, ?_, ?_⟩
  · exact (h.1 0 (by decide)).trans (by decide)
  · exact (h.1 2 (by decide)).trans (by decide)
  · exact (h.1 1 (by decide)).trans (by decide)


/-! ### Encode: graph characterisation -/

/-- Whether the graph has an edge `(u, v)` carrying the parallel-edge key
`k` (the guard of the attribute write `g[u][v][k][...] = ...`). -/
def hasEdgeKey (g : MultiDiGraph) (u v : String) (k : Nat) : Bool :=
  g.edges.any (fun e => e.1 = u ∧ e.2.1 = v ∧ e.2.2.1 = k)

/-- The number of parallel-connection slots whose `"conn"` flag compares
equal to `1` at the index pair `(i, j)`. -/
def flagCnt (c : Conn) (i j : Nat) : Nat :=
  ((List.range c.N_mult).filter
    (fun s => pyEqOne (c.get c.A_id c.B_id (i : Int) (j : Int) s "conn"))).length

/-- How many `add_edge` calls of the edge loop target the ordered label
pair `(u, v)`. -/
def pairOpsCnt (c : Conn) (u v : String) : Nat :=
  ((edgeOps c).filter (fun q => q = (u, v))).length

/-- The attribute map accumulated at slot `s` of the label pair `(u, v)`
by a prefix `done` of the attribute writes. -/
def opsAttrs (done : List ((String × String) × Nat × String × Val)) (u v : String)
    (s : Nat) : List (String × Val) :=
  (done.filterMap (fun op => if op.1 = (u, v) ∧ op.2.1 = s then some op.2.2 else none)).foldl
    (fun m p => attrSet m p.1 p.2) []

/-- The graph before the edge loop runs: both populations' nodes and the
`neuron_type` tags (typed variant only). -/
def encBase (c : Conn) : MultiDiGraph :=
  ⟨(List.range c.N_A).map (mkLabel c.A_id) ++ (List.range c.N_B).map (mkLabel c.B_id),
    if c.typed then applyTags [] (tagOps c) else [], []⟩

/-- The graph after the edge loop and before the attribute loop. -/
def encEdgesG (c : Conn) : MultiDiGraph := applyEdgeOps (edgeOps c) (encBase c)

theorem conn_to_graph_phases (c : Conn) :
    conn_to_graph c = applyAttrOps (attrOps c) (encEdgesG c) := rfl

theorem hasEdgeKey_iff_keydict (g : MultiDiGraph) (u v : String) (s : Nat) :
    hasEdgeKey g u v s = true ↔ ∃ m, (s, m) ∈ keydict g u v := by
  rw [hasEdgeKey, List.any_eq_true]
  constructor
  · rintro ⟨e, he, hp⟩
    simp only [decide_eq_true_eq] at hp
    obtain ⟨h1, h2, h3⟩ := hp
    refine ⟨e.2.2.2, ?_⟩
    rw [keydict]
    refine List.mem_filterMap.mpr ⟨e, he, ?_⟩
    rw [if_pos ⟨h1, h2⟩, h3]
  · rintro ⟨m, hm⟩
    rw [keydict] at hm
    obtain ⟨e, he, hsel⟩ := List.mem_filterMap.mp hm
    by_cases hc : e.1 = u ∧ e.2.1 = v
    · rw [if_pos hc] at hsel
      injection hsel with hsel
      refine ⟨e, he, ?_⟩
      simp only [decide_eq_true_eq]
      exact ⟨hc.1, hc.2, congrArg Prod.fst hsel⟩
    · rw [if_neg hc] at hsel
      exact absurd hsel (by simp)

theorem keydict_addEdgeAuto (g : MultiDiGraph) (u v u' v' : String) :
    keydict (addEdgeAuto g u v) u' v' = keydict g u' v' ++
      (if u = u' ∧ v = v' then [((keydict g u v).length, ([] : List (String × Val)))]
       else []) := by
  have hk : keydict (addEdgeAuto g u v) u' v' =
      keydict g u' v' ++
        [((u, v, (keydict g u v).length, ([] : List (String × Val))) :
          String × String × Nat × List (String × Val))].filterMap
          (fun e => if e.1 = u' ∧ e.2.1 = v' then some (e.2.2.1, e.2.2.2) else none) := by
    rw [keydict]
    show (g.edges ++ [(u, v, (keydict g u v).length, [])]).filterMap _ = _
    rw [List.filterMap_append]
    rfl
  rw [hk]
  by_cases hc : u = u' ∧ v = v'
  · rw [if_pos hc]
    congr 1
    rw [List.filterMap_cons, if_pos hc]
    rfl
  · rw [if_neg hc]
    congr 1
    rw [List.filterMap_cons, if_neg hc]
    rfl

theorem clean_append_one {kd : List (Nat × List (String × Val))}
    (h : kd = (List.range kd.length).map (fun s => (s, ([] : List (String × Val))))) :
    kd ++ [(kd.length, ([] : List (String × Val)))] =
      (List.range (kd ++ [(kd.length, ([] : List (String × Val)))]).length).map
        (fun s => (s, ([] : List (String × Val)))) := by
  rw [List.length_append, List.length_singleton, List.range_succ, List.map_append]
  congr 1

theorem addEdgeAuto_clean {g : MultiDiGraph}
    (hg : ∀ u v, keydict g u v = (List.range (keydict g u v).length).map
      (fun s => (s, ([] : List (String × Val))))) (p1 p2 : String) :
    ∀ u v, keydict (addEdgeAuto g p1 p2) u v =
      (List.range (keydict (addEdgeAuto g p1 p2) u v).length).map
        (fun s => (s, ([] : List (String × Val)))) := by
  intro u v
  rw [keydict_addEdgeAuto g p1 p2 u v]
  by_cases hc : p1 = u ∧ p2 = v
  · obtain ⟨h1, h2⟩ := hc
    rw [if_pos ⟨h1, h2⟩, h1, h2]
    exact clean_append_one (hg u v)
  · rw [if_neg hc, List.append_nil]
    exact hg u v

theorem applyEdgeOps_clean (ops : List (String × String)) (g : MultiDiGraph)
    (hg : ∀ u v, keydict g u v = (List.range (keydict g u v).length).map
      (fun s => (s, ([] : List (String × Val))))) :
    ∀ u v, keydict (applyEdgeOps ops g) u v =
      (List.range (keydict (applyEdgeOps ops g) u v).length).map
        (fun s => (s, ([] : List (String × Val)))) := by
  induction ops generalizing g with
  | nil => exact hg
  | cons p rest ih =>
    have hstep : applyEdgeOps (p :: rest) g = applyEdgeOps rest (addEdgeAuto g p.1 p.2) := rfl
    rw [hstep]
    exact ih (addEdgeAuto g p.1 p.2) (addEdgeAuto_clean hg p.1 p.2)

theorem applyEdgeOps_keydict_length (ops : List (String × String)) (g : MultiDiGraph)
    (u v : String) :
    (keydict (applyEdgeOps ops g) u v).length =
      (keydict g u v).length + (ops.filter (fun q => q = (u, v))).length := by
  induction ops generalizing g with
  | nil => rfl
  | cons p rest ih =>
    obtain ⟨pu, pv⟩ := p
    have hstep : applyEdgeOps ((pu, pv) :: rest) g =
        applyEdgeOps rest (addEdgeAuto g pu pv) := rfl
    rw [hstep, ih, keydict_addEdgeAuto g pu pv u v, List.length_append, List.filter_cons]
    by_cases hc : pu = u ∧ pv = v
    · obtain ⟨h1, h2⟩ := hc
      subst h1
      subst h2
      rw [if_pos ⟨rfl, rfl⟩,
        if_pos (show decide (((pu, pv) : String × String) = (pu, pv)) = true by simp)]
      rw [List.length_singleton, List.length_cons]
      omega
    · have hne : ¬(((pu, pv) : String × String) = (u, v)) :=
        fun he => hc ⟨congrArg Prod.fst he, congrArg Prod.snd he⟩
      rw [if_neg hc,
        if_neg (show ¬(decide (((pu, pv) : String × String) = (u, v)) = true) by
          simp only [decide_eq_true_eq]
          exact hne)]
      rw [List.length_nil]
      omega

theorem prodRange_eq (a b : Nat) : prodRange a b = (List.range a).product (List.range b) := rfl

theorem prodRange_nodup (a b : Nat) : (prodRange a b).Nodup := by
  rw [prodRange_eq]
  exact List.Nodup.product (List.nodup_range a) (List.nodup_range b)

theorem prodRange_mem {a b i j : Nat} : (i, j) ∈ prodRange a b ↔ i < a ∧ j < b := by
  rw [prodRange_eq, List.pair_mem_product, List.mem_range, List.mem_range]

theorem filter_eq_length_one {α : Type} [DecidableEq α] {l : List α} (hnd : l.Nodup)
    {t : α} (ht : t ∈ l) : (l.filter (fun x => x = t)).length = 1 := by
  induction l with
  | nil => exact absurd ht (List.not_mem_nil t)
  | cons x rest ih =>
    rw [List.nodup_cons] at hnd
    rw [List.filter_cons]
    rcases List.mem_cons.mp ht with h1 | h1
    · subst h1
      rw [if_pos (by simp), List.length_cons]
      have hz : (rest.filter (fun y => y = t)).length = 0 := by
        rw [List.length_eq_zero, List.filter_eq_nil_iff]
        intro a ha
        simp only [decide_eq_true_eq]
        intro he
        exact hnd.1 (he ▸ ha)
      omega
    · have hx : x ≠ t := fun he => hnd.1 (he ▸ h1)
      rw [if_neg (by simp [hx])]
      exact ih hnd.2 h1

theorem prodRange_filter_one {a b i j : Nat} (hi : i < a) (hj : j < b) :
    ((prodRange a b).filter (fun p => p = (i, j))).length = 1 :=
  filter_eq_length_one (prodRange_nodup a b) (prodRange_mem.mpr ⟨hi, hj⟩)

theorem filterMap_filter_count {l : List (Nat × Nat)} (flag : Nat × Nat → Bool)
    (lab : Nat × Nat → String × String) (t : Nat × Nat)
    (hinj : ∀ p ∈ l, lab p = lab t → p = t) :
    ((l.filterMap (fun p => if flag p then some (lab p) else none)).filter
      (fun q => q = lab t)).length =
    if flag t then (l.filter (fun p => p = t)).length else 0 := by
  induction l with
  | nil => cases flag t <;> rfl
  | cons p rest ih =>
    have ihr := ih (fun q hq he => hinj q (List.mem_cons_of_mem _ hq) he)
    by_cases hf : flag p = true
    · have hsome : (fun q => if flag q then some (lab q) else none) p = some (lab p) := by
        show (if flag p then some (lab p) else none) = some (lab p)
        rw [if_pos hf]
      rw [@List.filterMap_cons_some (Nat × Nat) (String × String)
        (fun q => if flag q then some (lab q) else none) p rest (lab p) hsome]
      by_cases hpt : p = t
      · subst hpt
        rw [List.filter_cons_of_pos (by simp), List.length_cons, ihr, if_pos hf, if_pos hf,
          List.filter_cons_of_pos (by simp), List.length_cons]
      · have hlab : ¬(lab p = lab t) := fun he => hpt (hinj p (List.mem_cons_self _ _) he)
        rw [List.filter_cons_of_neg (by simp [hlab]), ihr]
        by_cases hft : flag t = true
        · rw [if_pos hft, if_pos hft, List.filter_cons_of_neg (by simp [hpt])]
        · rw [if_neg hft, if_neg hft]
    · have hnone : (fun q => if flag q then some (lab q) else none) p = none := by
        show (if flag p then some (lab p) else none) = none
        rw [if_neg hf]
      rw [@List.filterMap_cons_none (Nat × Nat) (String × String)
        (fun q => if flag q then some (lab q) else none) p rest hnone, ihr]
      by_cases hpt : p = t
      · subst hpt
        rw [if_neg hf, if_neg hf]
      · by_cases hft : flag t = true
        · rw [if_pos hft, if_pos hft, List.filter_cons_of_neg (by simp [hpt])]
        · rw [if_neg hft, if_neg hft]

theorem N_at_A (c : Conn) : c.N c.A_id = c.N_A := if_pos rfl

theorem N_at_B (c : Conn) (hAB : c.A_id ≠ c.B_id) : c.N c.B_id = c.N_B :=
  if_neg (fun h => hAB h.symm)

theorem activePairs_count (c : Conn) (hA : goodId c.A_id) (hB : goodId c.B_id)
    (hAB : c.A_id ≠ c.B_id) (s : Nat) {i j : Nat} (hi : i < c.N_A) (hj : j < c.N_B) :
    ((activePairs c ⟨c.A_id, c.B_id, s, "conn"⟩).filter
      (fun q => q = (mkLabel c.A_id i, mkLabel c.B_id j))).length =
    if pyEqOne (c.get c.A_id c.B_id (i : Int) (j : Int) s "conn") then 1 else 0 := by
  have hinj : ∀ p ∈ prodRange (c.N c.A_id) (c.N c.B_id),
      (mkLabel c.A_id p.1, mkLabel c.B_id p.2) =
        (mkLabel c.A_id i, mkLabel c.B_id j) → p = (i, j) := by
    rintro ⟨pi, pj⟩ hp he
    have h1 : mkLabel c.A_id pi = mkLabel c.A_id i := congrArg Prod.fst he
    have h2 : mkLabel c.B_id pj = mkLabel c.B_id j := congrArg Prod.snd he
    have e1 := (mkLabel_inj hA hA h1).2
    have e2 := (mkLabel_inj hB hB h2).2
    rw [e1, e2]
  have h1 := @filterMap_filter_count (prodRange (c.N c.A_id) (c.N c.B_id))
    (fun p => pyEqOne (c.get c.A_id c.B_id (p.1 : Int) (p.2 : Int) s "conn"))
    (fun p => (mkLabel c.A_id p.1, mkLabel c.B_id p.2)) (i, j) hinj
  have h2 : ((prodRange (c.N c.A_id) (c.N c.B_id)).filter
      (fun p => p = ((i, j) : Nat × Nat))).length = 1 := by
    refine filter_eq_length_one (prodRange_nodup _ _) ?_
    rw [N_at_A, N_at_B c hAB]
    exact prodRange_mem.mpr ⟨hi, hj⟩
  rw [h2] at h1
  exact h1

theorem edgeOps_count_aux (c : Conn) (hA : goodId c.A_id) (hB : goodId c.B_id)
    (hAB : c.A_id ≠ c.B_id) {i j : Nat} (hi : i < c.N_A) (hj : j < c.N_B) :
    ∀ sl : List Nat,
      (((sl.map (fun s => (⟨c.A_id, c.B_id, s, "conn"⟩ : DKey))).flatMap
        (activePairs c)).filter
        (fun q => q = (mkLabel c.A_id i, mkLabel c.B_id j))).length =
      (sl.filter
        (fun s => pyEqOne (c.get c.A_id c.B_id (i : Int) (j : Int) s "conn"))).length := by
  intro sl
  induction sl with
  | nil => rfl
  | cons s rest ih =>
    rw [List.map_cons, List.flatMap_cons, List.filter_append, List.length_append, ih,
      activePairs_count c hA hB hAB s hi hj, List.filter_cons]
    by_cases hc : pyEqOne (c.get c.A_id c.B_id (i : Int) (j : Int) s "conn") = true
    · rw [if_pos hc, if_pos hc, List.length_cons]
      omega
    · rw [if_neg hc, if_neg hc]
      omega

theorem pairOpsCnt_eq (c : Conn) (hA : goodId c.A_id) (hB : goodId c.B_id)
    (hAB : c.A_id ≠ c.B_id)
    (hck : connKeys c = (List.range c.N_mult).map
      (fun s => (⟨c.A_id, c.B_id, s, "conn"⟩ : DKey)))
    {i j : Nat} (hi : i < c.N_A) (hj : j < c.N_B) :
    pairOpsCnt c (mkLabel c.A_id i) (mkLabel c.B_id j) = flagCnt c i j := by
  rw [pairOpsCnt, edgeOps, hck]
  exact edgeOps_count_aux c hA hB hAB hi hj (List.range c.N_mult)

theorem edgeOps_mem (c : Conn)
    (hck : connKeys c = (List.range c.N_mult).map
      (fun s => (⟨c.A_id, c.B_id, s, "conn"⟩ : DKey)))
    (hAB : c.A_id ≠ c.B_id) :
    ∀ p ∈ edgeOps c, ∃ i j : Nat, i < c.N_A ∧ j < c.N_B ∧
      p = (mkLabel c.A_id i, mkLabel c.B_id j) := by
  intro p hp
  rw [edgeOps, hck] at hp
  obtain ⟨k, hk, hpk⟩ := List.mem_flatMap.mp hp
  obtain ⟨s, hs, hks⟩ := List.mem_map.mp hk
  rw [← hks] at hpk
  simp only [activePairs] at hpk
  obtain ⟨pr, hpr, hsel⟩ := List.mem_filterMap.mp hpk
  revert hsel
  by_cases hflag : pyEqOne (c.get c.A_id c.B_id (pr.1 : Int) (pr.2 : Int) s "conn") = true
  · rw [if_pos hflag]
    intro hsel
    injection hsel with hsel
    obtain ⟨pi, pj⟩ := pr
    rw [N_at_A, N_at_B c hAB] at hpr
    have hb := prodRange_mem.mp hpr
    exact ⟨pi, pj, hb.1, hb.2, hsel.symm⟩
  · rw [if_neg hflag]
    intro hsel
    exact absurd hsel (by simp)

theorem encEdgesG_keydict_pair (c : Conn) (hA : goodId c.A_id) (hB : goodId c.B_id)
    (hAB : c.A_id ≠ c.B_id)
    (hck : connKeys c = (List.range c.N_mult).map
      (fun s => (⟨c.A_id, c.B_id, s, "conn"⟩ : DKey)))
    {i j : Nat} (hi : i < c.N_A) (hj : j < c.N_B) :
    keydict (encEdgesG c) (mkLabel c.A_id i) (mkLabel c.B_id j) =
      (List.range (flagCnt c i j)).map (fun s => (s, ([] : List (String × Val)))) := by
  have hclean := applyEdgeOps_clean (edgeOps c) (encBase c) (fun u v => rfl)
    (mkLabel c.A_id i) (mkLabel c.B_id j)
  have hlen := applyEdgeOps_keydict_length (edgeOps c) (encBase c)
    (mkLabel c.A_id i) (mkLabel c.B_id j)
  have h0 : (keydict (encBase c) (mkLabel c.A_id i) (mkLabel c.B_id j)).length = 0 := rfl
  rw [h0, Nat.zero_add] at hlen
  have hcnt : ((edgeOps c).filter
      (fun q => q = (mkLabel c.A_id i, mkLabel c.B_id j))).length = flagCnt c i j :=
    pairOpsCnt_eq c hA hB hAB hck hi hj
  rw [encEdgesG, hclean, hlen, hcnt]

theorem encEdgesG_keydict_other (c : Conn)
    (hck : connKeys c = (List.range c.N_mult).map
      (fun s => (⟨c.A_id, c.B_id, s, "conn"⟩ : DKey)))
    (hAB : c.A_id ≠ c.B_id) {u v : String}
    (hother : ∀ i j : Nat, i < c.N_A → j < c.N_B →
      (u, v) ≠ (mkLabel c.A_id i, mkLabel c.B_id j)) :
    keydict (encEdgesG c) u v = [] := by
  have hclean := applyEdgeOps_clean (edgeOps c) (encBase c) (fun u v => rfl) u v
  have hlen := applyEdgeOps_keydict_length (edgeOps c) (encBase c) u v
  have h0 : (keydict (encBase c) u v).length = 0 := rfl
  rw [h0, Nat.zero_add] at hlen
  have hfz : ((edgeOps c).filter (fun q => q = (u, v))).length = 0 := by
    rw [List.length_eq_zero, List.filter_eq_nil_iff]
    intro a ha
    simp only [decide_eq_true_eq]
    intro he
    obtain ⟨i, j, hi, hj, hform⟩ := edgeOps_mem c hck hAB a ha
    exact hother i j hi hj (he ▸ hform)
  rw [encEdgesG, hclean, hlen, hfz]
  rfl

theorem setEdgeAttr_def (g : MultiDiGraph) (u v : String) (k : Nat) (name : String)
    (v0 : Val) :
    setEdgeAttr g u v k name v0 =
      if hasEdgeKey g u v k = true then
        .ok { g with edges := g.edges.map fun e =>
          if e.1 = u ∧ e.2.1 = v ∧ e.2.2.1 = k
          then (e.1, e.2.1, e.2.2.1, attrSet e.2.2.2 name v0) else e }
      else .error .keyError := rfl

theorem setEdgeAttr_isOk_iff (g : MultiDiGraph) (u v : String) (k : Nat) (name : String)
    (v0 : Val) :
    (∃ g', setEdgeAttr g u v k name v0 = .ok g') ↔ hasEdgeKey g u v k = true := by
  rw [setEdgeAttr_def]
  by_cases hk : hasEdgeKey g u v k = true
  · rw [if_pos hk]
    exact ⟨fun _ => hk, fun _ => ⟨_, rfl⟩⟩
  · rw [if_neg hk]
    constructor
    · rintro ⟨g', hg'⟩
      exact absurd hg' (by simp)
    · intro hh
      exact absurd hh hk

theorem setEdgeAttr_err_iff (g : MultiDiGraph) (u v : String) (k : Nat) (name : String)
    (v0 : Val) :
    setEdgeAttr g u v k name v0 = .error .keyError ↔ hasEdgeKey g u v k = false := by
  rw [setEdgeAttr_def]
  by_cases hk : hasEdgeKey g u v k = true
  · rw [if_pos hk]
    constructor
    · intro hh
      exact absurd hh (by simp)
    · intro hh
      rw [hk] at hh
      exact absurd hh (by simp)
  · rw [if_neg hk]
    exact ⟨fun _ => (Bool.not_eq_true _).mp hk, fun _ => rfl⟩

theorem setEdgeAttr_keydict {g g' : MultiDiGraph} {u v : String} {k : Nat} {name : String}
    {v0 : Val} (h : setEdgeAttr g u v k name v0 = .ok g') (u' v' : String) :
    keydict g' u' v' = (keydict g u' v').map
      (fun e => if u = u' ∧ v = v' ∧ e.1 = k then (e.1, attrSet e.2 name v0) else e) := by
  rw [setEdgeAttr_def] at h
  by_cases hk : hasEdgeKey g u v k = true
  · rw [if_pos hk] at h
    injection h with h
    subst h
    have hge : keydict { g with edges := g.edges.map fun e =>
        if e.1 = u ∧ e.2.1 = v ∧ e.2.2.1 = k
        then (e.1, e.2.1, e.2.2.1, attrSet e.2.2.2 name v0) else e } u' v' =
        (g.edges.map fun e =>
          if e.1 = u ∧ e.2.1 = v ∧ e.2.2.1 = k
          then (e.1, e.2.1, e.2.2.1, attrSet e.2.2.2 name v0) else e).filterMap
          (fun e => if e.1 = u' ∧ e.2.1 = v' then some (e.2.2.1, e.2.2.2) else none) := rfl
    rw [hge, keydict, List.filterMap_map, List.map_filterMap]
    refine List.filterMap_congr ?_
    intro e he
    simp only [Function.comp_apply]
    by_cases hm : e.1 = u ∧ e.2.1 = v ∧ e.2.2.1 = k
    · rw [if_pos hm]
      by_cases hsel : e.1 = u' ∧ e.2.1 = v'
      · rw [if_pos hsel, if_pos hsel, Option.map_some']
        have htf : u = u' ∧ v = v' ∧ e.2.2.1 = k :=
          ⟨hm.1.symm.trans hsel.1, hm.2.1.symm.trans hsel.2, hm.2.2⟩
        rw [if_pos htf]
      · rw [if_neg hsel, if_neg hsel]
        rfl
    · rw [if_neg hm]
      by_cases hsel : e.1 = u' ∧ e.2.1 = v'
      · rw [if_pos hsel, Option.map_some']
        have htfn : ¬(u = u' ∧ v = v' ∧ e.2.2.1 = k) := by
          rintro ⟨h1, h2, h3⟩
          exact hm ⟨hsel.1.trans h1.symm, hsel.2.trans h2.symm, h3⟩
        rw [if_neg htfn]
      · rw [if_neg hsel]
        rfl
  · rw [if_neg hk] at h
    exact absurd h (by simp)

theorem setEdgeAttr_hasEdgeKey {g g' : MultiDiGraph} {u v : String} {k : Nat}
    {name : String} {v0 : Val} (h : setEdgeAttr g u v k name v0 = .ok g')
    (u' v' : String) (s : Nat) : hasEdgeKey g' u' v' s = hasEdgeKey g u' v' s := by
  have hkd := setEdgeAttr_keydict h u' v'
  have h1 := hasEdgeKey_iff_keydict g' u' v' s
  have h2 := hasEdgeKey_iff_keydict g u' v' s
  have hiff : (∃ m, (s, m) ∈ keydict g' u' v') ↔ (∃ m, (s, m) ∈ keydict g u' v') := by
    rw [hkd]
    constructor
    · rintro ⟨m, hm⟩
      obtain ⟨e, he, hte⟩ := List.mem_map.mp hm
      by_cases hc : u = u' ∧ v = v' ∧ e.1 = k
      · rw [if_pos hc] at hte
        have h1e : e.1 = s := congrArg Prod.fst hte
        refine ⟨e.2, ?_⟩
        rw [← h1e]
        exact he
      · rw [if_neg hc] at hte
        exact ⟨m, hte ▸ he⟩
    · rintro ⟨m, hm⟩
      by_cases hc : u = u' ∧ v = v' ∧ ((s, m) : Nat × List (String × Val)).1 = k
      · refine ⟨attrSet m name v0, ?_⟩
        refine List.mem_map.mpr ⟨(s, m), hm, ?_⟩
        rw [if_pos hc]
      · refine ⟨m, ?_⟩
        refine List.mem_map.mpr ⟨(s, m), hm, ?_⟩
        rw [if_neg hc]
  cases hbg : hasEdgeKey g u' v' s with
  | true => exact h1.mpr (hiff.mpr (h2.mp hbg))
  | false =>
    cases hbg' : hasEdgeKey g' u' v' s with
    | false => rfl
    | true => exact absurd (h2.mpr (hiff.mp (h1.mp hbg'))) (by rw [hbg]; simp)

theorem applyAttrOps_ok_iff (ops : List ((String × String) × Nat × String × Val))
    (g : MultiDiGraph) :
    (∃ g', applyAttrOps ops g = .ok g') ↔
      ∀ op ∈ ops, hasEdgeKey g op.1.1 op.1.2 op.2.1 = true := by
  induction ops generalizing g with
  | nil =>
    constructor
    · intro _ op hop
      exact absurd hop (List.not_mem_nil op)
    · intro _
      exact ⟨g, rfl⟩
  | cons op rest ih =>
    rw [applyAttrOps]
    cases hs : setEdgeAttr g op.1.1 op.1.2 op.2.1 op.2.2.1 op.2.2.2 with
    | error e =>
      cases e
      have hk := (setEdgeAttr_err_iff g op.1.1 op.1.2 op.2.1 op.2.2.1 op.2.2.2).mp hs
      constructor
      · rintro ⟨g', hg'⟩
        exact absurd hg' (by simp)
      · intro hall
        exact absurd (hall op (List.mem_cons_self _ _)) (by rw [hk]; simp)
    | ok g1 =>
      have hpres := setEdgeAttr_hasEdgeKey hs
      have hkey : hasEdgeKey g op.1.1 op.1.2 op.2.1 = true :=
        (setEdgeAttr_isOk_iff g op.1.1 op.1.2 op.2.1 op.2.2.1 op.2.2.2).mp ⟨g1, hs⟩
      rw [ih g1]
      constructor
      · intro hall op' hop'
        rcases List.mem_cons.mp hop' with h1 | h1
        · rw [h1]
          exact hkey
        · rw [← hpres op'.1.1 op'.1.2 op'.2.1]
          exact hall op' h1
      · intro hall op' hop'
        rw [hpres]
        exact hall op' (List.mem_cons_of_mem _ hop')

theorem opsAttrs_append_one (done : List ((String × String) × Nat × String × Val))
    (op : (String × String) × Nat × String × Val) (u v : String) (s : Nat) :
    opsAttrs (done ++ [op]) u v s =
      if op.1 = (u, v) ∧ op.2.1 = s then
        attrSet (opsAttrs done u v s) op.2.2.1 op.2.2.2
      else opsAttrs done u v s := by
  rw [opsAttrs, List.filterMap_append, opsAttrs]
  by_cases hc : op.1 = (u, v) ∧ op.2.1 = s
  · rw [if_pos hc]
    have hone : [op].filterMap (fun op => if op.1 = (u, v) ∧ op.2.1 = s
        then some op.2.2 else none) = [op.2.2] := by
      rw [List.filterMap_cons, if_pos hc]
      rfl
    rw [hone, List.foldl_append]
    rfl
  · rw [if_neg hc]
    have hnone : [op].filterMap (fun op => if op.1 = (u, v) ∧ op.2.1 = s
        then some op.2.2 else none) = [] := by
      rw [List.filterMap_cons, if_neg hc]
      rfl
    rw [hnone, List.append_nil]

/-- The invariant of the attribute loop: after the writes of `done`, each
ordered label pair carries one edge per targeting `add_edge` call, keyed
`0, 1, ...` in insertion order, with the attribute map accumulated by the
writes of `done` aimed at that pair and key. -/
def attrInv (c : Conn) (done : List ((String × String) × Nat × String × Val))
    (g : MultiDiGraph) : Prop :=
  ∀ u v, keydict g u v =
    (List.range (pairOpsCnt c u v)).map (fun s => (s, opsAttrs done u v s))

theorem encEdgesG_keydict_cnt (c : Conn) (u v : String) :
    keydict (encEdgesG c) u v =
      (List.range (pairOpsCnt c u v)).map (fun s => (s, ([] : List (String × Val)))) := by
  have h1 := applyEdgeOps_clean (edgeOps c) (encBase c) (fun u v => rfl) u v
  have h2 := applyEdgeOps_keydict_length (edgeOps c) (encBase c) u v
  have h0 : (keydict (encBase c) u v).length = 0 := rfl
  rw [h0, Nat.zero_add] at h2
  rw [encEdgesG, h1, h2]
  rfl

theorem applyAttrOps_inv (c : Conn)
    (hgood : ∀ op ∈ attrOps c, op.2.1 < pairOpsCnt c op.1.1 op.1.2) :
    ∀ (todo done : List ((String × String) × Nat × String × Val)) (g : MultiDiGraph),
      attrOps c = done ++ todo → attrInv c done g →
      ∃ g', applyAttrOps todo g = .ok g' ∧ attrInv c (attrOps c) g' := by
  intro todo
  induction todo with
  | nil =>
    intro done g hsplit hinv
    rw [List.append_nil] at hsplit
    refine ⟨g, rfl, ?_⟩
    rw [hsplit]
    exact hinv
  | cons op rest ih =>
    intro done g hsplit hinv
    have hopin : op ∈ attrOps c := by
      rw [hsplit]
      exact List.mem_append.mpr (Or.inr (List.mem_cons_self _ _))
    have hkey : hasEdgeKey g op.1.1 op.1.2 op.2.1 = true := by
      rw [hasEdgeKey_iff_keydict, hinv op.1.1 op.1.2]
      exact ⟨opsAttrs done op.1.1 op.1.2 op.2.1,
        List.mem_map.mpr ⟨op.2.1, List.mem_range.mpr (hgood op hopin), rfl⟩⟩
    obtain ⟨g1, hg1⟩ :=
      (setEdgeAttr_isOk_iff g op.1.1 op.1.2 op.2.1 op.2.2.1 op.2.2.2).mpr hkey
    rw [applyAttrOps, hg1]
    refine ih (done ++ [op]) g1 ?_ ?_
    · rw [hsplit, List.append_assoc]
      rfl
    · intro u v
      rw [setEdgeAttr_keydict hg1 u v, hinv u v, List.map_map]
      refine List.map_congr_left ?_
      intro s hs
      simp only [Function.comp_apply]
      rw [opsAttrs_append_one]
      by_cases hc : op.1.1 = u ∧ op.1.2 = v ∧ s = op.2.1
      · obtain ⟨h1, h2, h3⟩ := hc
        have hc1 : op.1 = (u, v) ∧ op.2.1 = s := ⟨by rw [← h1, ← h2], h3.symm⟩
        have hc0 : op.1.1 = u ∧ op.1.2 = v ∧
            ((s, opsAttrs done u v s) : Nat × List (String × Val)).1 = op.2.1 :=
          ⟨h1, h2, h3⟩
        rw [if_pos hc0, if_pos hc1]
      · have hc1 : ¬(op.1 = (u, v) ∧ op.2.1 = s) := by
          rintro ⟨ha, hb⟩
          exact hc ⟨congrArg Prod.fst ha, congrArg Prod.snd ha, hb.symm⟩
        have hc0 : ¬(op.1.1 = u ∧ op.1.2 = v ∧
            ((s, opsAttrs done u v s) : Nat × List (String × Val)).1 = op.2.1) := hc
        rw [if_neg hc0, if_neg hc1]

theorem conn_to_graph_ok_char (c : Conn)
    (hgood : ∀ op ∈ attrOps c, op.2.1 < pairOpsCnt c op.1.1 op.1.2) :
    ∃ g, conn_to_graph c = .ok g ∧ attrInv c (attrOps c) g := by
  have hbase : attrInv c [] (encEdgesG c) := by
    intro u v
    rw [encEdgesG_keydict_cnt]
    rfl
  obtain ⟨g, hg, hinv⟩ := applyAttrOps_inv c hgood (attrOps c) [] (encEdgesG c) rfl hbase
  exact ⟨g, by rw [conn_to_graph_phases]; exact hg, hinv⟩

theorem hasEdgeKey_encEdgesG (c : Conn) (u v : String) (s : Nat) :
    hasEdgeKey (encEdgesG c) u v s = true ↔ s < pairOpsCnt c u v := by
  rw [hasEdgeKey_iff_keydict, encEdgesG_keydict_cnt]
  constructor
  · rintro ⟨m, hm⟩
    obtain ⟨x, hx, hxm⟩ := List.mem_map.mp hm
    have hxs : x = s := congrArg Prod.fst hxm
    exact hxs ▸ List.mem_range.mp hx
  · intro hs
    exact ⟨[], List.mem_map.mpr ⟨s, List.mem_range.mpr hs, rfl⟩⟩

theorem conn_to_graph_keyError_iff (c : Conn) :
    conn_to_graph c = .error .keyError ↔
      ∃ op ∈ attrOps c, pairOpsCnt c op.1.1 op.1.2 ≤ op.2.1 := by
  rw [conn_to_graph_phases]
  constructor
  · intro herr
    by_contra hno
    push_neg at hno
    obtain ⟨g', hg'⟩ := (applyAttrOps_ok_iff (attrOps c) (encEdgesG c)).mpr
      (fun op hop => (hasEdgeKey_encEdgesG c op.1.1 op.1.2 op.2.1).mpr (hno op hop))
    rw [hg'] at herr
    exact absurd herr (by simp)
  · rintro ⟨op, hop, hle⟩
    have hnok : ¬ ∃ g', applyAttrOps (attrOps c) (encEdgesG c) = .ok g' := by
      rw [applyAttrOps_ok_iff]
      intro hall
      have := (hasEdgeKey_encEdgesG c op.1.1 op.1.2 op.2.1).mp (hall op hop)
      omega
    cases hres : applyAttrOps (attrOps c) (encEdgesG c) with
    | ok g' => exact absurd ⟨g', hres⟩ hnok
    | error e =>
      cases e
      rfl

theorem attrOps_mem_iff (c : Conn)
    (hdir : ∀ k ∈ nonConnKeys c, k.src = c.A_id ∧ k.dest = c.B_id)
    (hAB : c.A_id ≠ c.B_id) (op : (String × String) × Nat × String × Val) :
    op ∈ attrOps c ↔ ∃ k ∈ nonConnKeys c, ∃ i j : Nat, i < c.N_A ∧ j < c.N_B ∧
      pyTruthy (c.get c.A_id c.B_id (i : Int) (j : Int) k.slot k.name) = true ∧
      op = ((mkLabel c.A_id i, mkLabel c.B_id j), k.slot, k.name,
        c.get c.A_id c.B_id (i : Int) (j : Int) k.slot k.name) := by
  rw [attrOps, List.mem_flatMap]
  constructor
  · rintro ⟨k, hk, hop⟩
    obtain ⟨hsrc, hdst⟩ := hdir k hk
    rw [hsrc, hdst] at hop
    obtain ⟨pr, hpr, hsel⟩ := List.mem_filterMap.mp hop
    rw [N_at_A, N_at_B c hAB] at hpr
    obtain ⟨pi, pj⟩ := pr
    have hb := prodRange_mem.mp hpr
    revert hsel
    show (if pyTruthy (c.get c.A_id c.B_id (pi : Int) (pj : Int) k.slot k.name) = true
      then some ((mkLabel c.A_id pi, mkLabel c.B_id pj), k.slot, k.name,
        c.get c.A_id c.B_id (pi : Int) (pj : Int) k.slot k.name) else none) = some op →
      _
    by_cases htr : pyTruthy (c.get c.A_id c.B_id (pi : Int) (pj : Int) k.slot k.name) = true
    · rw [if_pos htr]
      intro hsel
      injection hsel with hsel
      exact ⟨k, hk, pi, pj, hb.1, hb.2, htr, hsel.symm⟩
    · rw [if_neg htr]
      intro hsel
      exact absurd hsel (by simp)
  · rintro ⟨k, hk, i, j, hi, hj, htr, hop⟩
    obtain ⟨hsrc, hdst⟩ := hdir k hk
    refine ⟨k, hk, ?_⟩
    rw [hsrc, hdst]
    refine List.mem_filterMap.mpr ⟨(i, j), ?_, ?_⟩
    · rw [N_at_A, N_at_B c hAB]
      exact prodRange_mem.mpr ⟨hi, hj⟩
    · show (if pyTruthy (c.get c.A_id c.B_id (i : Int) (j : Int) k.slot k.name) = true
        then some ((mkLabel c.A_id i, mkLabel c.B_id j), k.slot, k.name,
          c.get c.A_id c.B_id (i : Int) (j : Int) k.slot k.name) else none) = some op
      rw [if_pos htr, hop]

theorem attrSet_names_mem (l : List (String × Val)) (n : String) (v : Val) (x : String) :
    x ∈ (attrSet l n v).map Prod.fst ↔ x = n ∨ x ∈ l.map Prod.fst := by
  induction l with
  | nil => simp [attrSet]
  | cons e rest ih =>
    rw [attrSet]
    by_cases hc : e.1 = n
    · rw [if_pos hc]
      simp only [List.map_cons, List.mem_cons]
      rw [hc]
      tauto
    · rw [if_neg hc]
      simp only [List.map_cons, List.mem_cons]
      rw [ih]
      tauto

theorem foldl_attrSet_names (ops : List (String × Val)) (m0 : List (String × Val))
    (x : String) :
    x ∈ ((ops.foldl (fun m p => attrSet m p.1 p.2) m0).map Prod.fst) ↔
      x ∈ m0.map Prod.fst ∨ ∃ p ∈ ops, p.1 = x := by
  induction ops generalizing m0 with
  | nil => simp
  | cons p rest ih =>
    rw [List.foldl_cons, ih, attrSet_names_mem]
    constructor
    · rintro (h1 | h1)
      · rcases h1 with h2 | h2
        · exact Or.inr ⟨p, List.mem_cons_self _ _, h2.symm⟩
        · exact Or.inl h2
      · obtain ⟨q, hq, hqx⟩ := h1
        exact Or.inr ⟨q, List.mem_cons_of_mem _ hq, hqx⟩
    · rintro (h1 | h1)
      · exact Or.inl (Or.inr h1)
      · obtain ⟨q, hq, hqx⟩ := h1
        rcases List.mem_cons.mp hq with h2 | h2
        · subst h2
          exact Or.inl (Or.inl hqx.symm)
        · exact Or.inr ⟨q, h2, hqx⟩

theorem opsAttrs_names (done : List ((String × String) × Nat × String × Val))
    (u v : String) (s : Nat) (x : String) :
    x ∈ (opsAttrs done u v s).map Prod.fst ↔
      ∃ op ∈ done, op.1 = (u, v) ∧ op.2.1 = s ∧ op.2.2.1 = x := by
  rw [opsAttrs, foldl_attrSet_names]
  constructor
  · rintro (h | ⟨p, hp, hpx⟩)
    · exact absurd h (by simp)
    · obtain ⟨op, hop, hsel⟩ := List.mem_filterMap.mp hp
      revert hsel
      by_cases hc : op.1 = (u, v) ∧ op.2.1 = s
      · rw [if_pos hc]
        intro hsel
        injection hsel with hsel
        exact ⟨op, hop, hc.1, hc.2, by rw [hsel, hpx]⟩
      · rw [if_neg hc]
        intro hsel
        exact absurd hsel (by simp)
  · rintro ⟨op, hop, h1, h2, h3⟩
    refine Or.inr ⟨op.2.2, List.mem_filterMap.mpr ⟨op, hop, ?_⟩, h3⟩
    rw [if_pos ⟨h1, h2⟩]

/-! ### Claim C2 -/

/-- C2 (amended): for a connectivity object whose store lays out its
`"conn"` keys canonically (one per slot, in slot order, direction `A` to
`B`) and whose other keys point the same direction: (1) on a successful
encode, an edge with parallel key `s` exists at `(A:i, B:j)` iff `i`, `j`
are in range and fewer than `s + 1` slots are flagged there — edge keys
count flagged slots, they do not preserve slot identity; (2) on a
successful encode, an attribute name appears on the `s`-th parallel edge
of `(A:i, B:j)` iff some same-direction non-`"conn"` store key with that
slot and name holds a truthy value at `(i, j)`; (3) the encode raises the
uncaught `KeyError` — rather than omitting anything — precisely when some
non-`"conn"` key holds a truthy value at a pair whose flagged-slot count
does not cover the key's slot (an orphan attribute). -/
theorem C2_encode_amended (c : Conn) (hA : goodId c.A_id) (hB : goodId c.B_id)
    (hAB : c.A_id ≠ c.B_id)
    (hck : connKeys c = (List.range c.N_mult).map
      (fun s => (⟨c.A_id, c.B_id, s, "conn"⟩ : DKey)))
    (hdir : ∀ k ∈ nonConnKeys c, k.src = c.A_id ∧ k.dest = c.B_id) :
    (∀ g, conn_to_graph c = .ok g →
      (∀ i j s : Nat, hasEdgeKey g (mkLabel c.A_id i) (mkLabel c.B_id j) s = true ↔
        i < c.N_A ∧ j < c.N_B ∧ s < flagCnt c i j) ∧
      (∀ i j s : Nat, i < c.N_A → j < c.N_B → s < flagCnt c i j → ∀ nm : String,
        nm ∈ (((keydict g (mkLabel c.A_id i) (mkLabel c.B_id j)).getD s
            (0, [])).2.map Prod.fst) ↔
          ∃ k ∈ nonConnKeys c, k.slot = s ∧ k.name = nm ∧
            pyTruthy (c.get c.A_id c.B_id (i : Int) (j : Int) s nm) = true)) ∧
    (conn_to_graph c = .error .keyError ↔
      ∃ k ∈ nonConnKeys c, ∃ i, i < c.N_A ∧ ∃ j, j < c.N_B ∧
        pyTruthy (c.get c.A_id c.B_id (i : Int) (j : Int) k.slot k.name) = true ∧
        flagCnt c i j ≤ k.slot) := by
  constructor
  · intro g hg
    have hgood : ∀ op ∈ attrOps c, op.2.1 < pairOpsCnt c op.1.1 op.1.2 := by
      by_contra hno
      push_neg at hno
      obtain ⟨op, hop, hle⟩ := hno
      have herr := (conn_to_graph_keyError_iff c).mpr ⟨op, hop, hle⟩
      rw [hg] at herr
      exact absurd herr (by simp)
    obtain ⟨g0, hg0, hinv⟩ := conn_to_graph_ok_char c hgood
    rw [hg0] at hg
    injection hg with hg
    subst hg
    constructor
    · intro i j s
      constructor
      · intro hek
        obtain ⟨m, hm⟩ := (hasEdgeKey_iff_keydict _ _ _ _).mp hek
        rw [hinv] at hm
        obtain ⟨x, hx, hxm⟩ := List.mem_map.mp hm
        have hxs : x = s := congrArg Prod.fst hxm
        have hlt : s < pairOpsCnt c (mkLabel c.A_id i) (mkLabel c.B_id j) :=
          hxs ▸ List.mem_range.mp hx
        have hpos : 0 < pairOpsCnt c (mkLabel c.A_id i) (mkLabel c.B_id j) :=
          Nat.lt_of_le_of_lt (Nat.zero_le s) hlt
        obtain ⟨p, hp⟩ := List.exists_mem_of_length_pos hpos
        have hpe := List.mem_of_mem_filter hp
        have hpq : p = (mkLabel c.A_id i, mkLabel c.B_id j) := by
          have := List.of_mem_filter hp
          simpa using this
        obtain ⟨i', j', hi', hj', hform⟩ := edgeOps_mem c hck hAB p hpe
        rw [hpq] at hform
        have e1 := (mkLabel_inj hA hA (congrArg Prod.fst hform)).2
        have e2 := (mkLabel_inj hB hB (congrArg Prod.snd hform)).2
        have hi : i < c.N_A := by rw [e1]; exact hi'
        have hj : j < c.N_B := by rw [e2]; exact hj'
        refine ⟨hi, hj, ?_⟩
        rw [← pairOpsCnt_eq c hA hB hAB hck hi hj]
        exact hlt
      · rintro ⟨hi, hj, hs⟩
        rw [hasEdgeKey_iff_keydict, hinv]
        refine ⟨opsAttrs (attrOps c) (mkLabel c.A_id i) (mkLabel c.B_id j) s,
          List.mem_map.mpr ⟨s, ?_, rfl⟩⟩
        rw [List.mem_range, pairOpsCnt_eq c hA hB hAB hck hi hj]
        exact hs
    · intro i j s hi hj hs nm
      have hkd := hinv (mkLabel c.A_id i) (mkLabel c.B_id j)
      have hcnt := pairOpsCnt_eq c hA hB hAB hck hi hj
      rw [hkd, hcnt]
      have hlen : s < ((List.range (flagCnt c i j)).map
          (fun s => (s, opsAttrs (attrOps c) (mkLabel c.A_id i)
            (mkLabel c.B_id j) s))).length := by
        rw [List.length_map, List.length_range]
        exact hs
      rw [List.getD_eq_getElem _ _ hlen, List.getElem_map, List.getElem_range]
      rw [show ((s, opsAttrs (attrOps c) (mkLabel c.A_id i) (mkLabel c.B_id j) s) :
        Nat × List (String × Val)).2 =
        opsAttrs (attrOps c) (mkLabel c.A_id i) (mkLabel c.B_id j) s from rfl]
      rw [opsAttrs_names]
      constructor
      · rintro ⟨op, hop, h1, h2, h3⟩
        obtain ⟨k, hk, i', j', hi', hj', htr, hform⟩ :=
          (attrOps_mem_iff c hdir hAB op).mp hop
        subst hform
        have e1 := (mkLabel_inj hA hA (congrArg Prod.fst h1)).2
        have e2 := (mkLabel_inj hB hB (congrArg Prod.snd h1)).2
        refine ⟨k, hk, h2, h3, ?_⟩
        rw [← h2, ← h3, ← e1, ← e2]
        exact htr
      · rintro ⟨k, hk, h1, h2, htr⟩
        refine ⟨((mkLabel c.A_id i, mkLabel c.B_id j), k.slot, k.name,
          c.get c.A_id c.B_id (i : Int) (j : Int) k.slot k.name), ?_, rfl, h1, h2⟩
        refine (attrOps_mem_iff c hdir hAB _).mpr ⟨k, hk, i, j, hi, hj, ?_, rfl⟩
        rw [h1, h2]
        exact htr
  · rw [conn_to_graph_keyError_iff c]
    constructor
    · rintro ⟨op, hop, hle⟩
      obtain ⟨k, hk, i, j, hi, hj, htr, hform⟩ := (attrOps_mem_iff c hdir hAB op).mp hop
      subst hform
      refine ⟨k, hk, i, hi, j, hj, htr, ?_⟩
      rw [← pairOpsCnt_eq c hA hB hAB hck hi hj]
      exact hle
    · rintro ⟨k, hk, i, hi, j, hj, htr, hle⟩
      refine ⟨((mkLabel c.A_id i, mkLabel c.B_id j), k.slot, k.name,
        c.get c.A_id c.B_id (i : Int) (j : Int) k.slot k.name),
        (attrOps_mem_iff c hdir hAB _).mpr ⟨k, hk, i, j, hi, hj, htr, rfl⟩, ?_⟩
      show pairOpsCnt c (mkLabel c.A_id i) (mkLabel c.B_id j) ≤ k.slot
      rw [pairOpsCnt_eq c hA hB hAB hck hi hj]
      exact hle

/-- A model with one unflagged slot whose float parameter is nonetheless
set: the spec's no-orphan-attribute example. -/
def mOrf : Conn :=
  ⟨"A", "B", 1, 1, 1, false, 0, 0, 0, 0, fun _ _ i => i,
    [(⟨"A", "B", 0, "conn"⟩, [((0, 0), .intV 0)]),
     (⟨"A", "B", 0, "w"⟩, [((0, 0), .floatV 1)])]⟩

/-- C2 counterexample: on the orphan model the claim demands a graph with
the attribute and edge omitted, but the encode instead raises the uncaught
`KeyError` of `g[u][v][conn][name] = value` (graph.py line 127) and
returns no graph at all. -/
theorem C2_encode_counterexample :
    pyTruthy (mOrf.get mOrf.A_id mOrf.B_id 0 0 0 "w") = true ∧
    pyEqOne (mOrf.get mOrf.A_id mOrf.B_id 0 0 0 "conn") = false ∧
    conn_to_graph mOrf = .error .keyError := by
  refine ⟨by decide, by decide, ?_⟩
  decide

/-- A well-formed one-pair model: slot 0 flagged, one float attribute. -/
def mC2 : Conn :=
  ⟨"A", "B", 1, 1, 1, false, 0, 0, 0, 0, fun _ _ i => i,
    [(⟨"A", "B", 0, "conn"⟩, [((0, 0), .intV 1)]),
     (⟨"A", "B", 0, "w"⟩, [((0, 0), .floatV 1)])]⟩

theorem C2_encode_witness :
    (conn_to_graph mC2 = .ok (encOk mC2) ∧
      hasEdgeKey (encOk mC2) (mkLabel mC2.A_id 0) (mkLabel mC2.B_id 0) 0 = true ∧
      hasEdgeKey (encOk mC2) (mkLabel mC2.A_id 0) (mkLabel mC2.B_id 0) 1 = false ∧
      "w" ∈ (((keydict (encOk mC2) (mkLabel mC2.A_id 0) (mkLabel mC2.B_id 0)).getD 0
        (0, [])).2.map Prod.fst)) ∧
    conn_to_graph mOrf = .error .keyError := by
  have h := C2_encode_amended mC2 (by decide) (by decide) (by decide) (by decide)
    (by decide)
  have h2 := C2_encode_amended mOrf (by decide) (by decide) (by decide) (by decide)
    (by decide)
  refine ⟨⟨rfl, ?_, by decide, ?_⟩, ?_⟩
  · exact ((h.1 (encOk mC2) rfl).1 0 0 0).mpr ⟨by decide, by decide, by decide⟩
  · refine ((h.1 (encOk mC2) rfl).2 0 0 0 (by decide) (by decide) (by decide) "w").mpr ?_
    exact ⟨⟨"A", "B", 0, "w"⟩, by decide, by decide, by decide, by decide⟩
  · exact h2.2.mpr ⟨⟨"A", "B", 0, "w"⟩, by decide, 0, by decide, 0, by decide,
      by decide, by decide⟩

/-! ### Encode: nodes, pair form, bipartiteness -/

theorem applyEdgeOps_nodes (ops : List (String × String)) (g : MultiDiGraph) :
    (applyEdgeOps ops g).nodes = g.nodes := by
  induction ops generalizing g with
  | nil => rfl
  | cons p rest ih =>
    have hstep : applyEdgeOps (p :: rest) g = applyEdgeOps rest (addEdgeAuto g p.1 p.2) := rfl
    rw [hstep, ih]
    rfl

theorem setEdgeAttr_nodes {g g' : MultiDiGraph} {u v : String} {k : Nat}
    {name : String} {v0 : Val} (h : setEdgeAttr g u v k name v0 = .ok g') :
    g'.nodes = g.nodes := by
  rw [setEdgeAttr_def] at h
  by_cases hk : hasEdgeKey g u v k = true
  · rw [if_pos hk] at h
    injection h with h
    rw [← h]
  · rw [if_neg hk] at h
    exact absurd h (by simp)

theorem applyAttrOps_nodes {ops : List ((String × String) × Nat × String × Val)}
    {g g' : MultiDiGraph} (h : applyAttrOps ops g = .ok g') : g'.nodes = g.nodes := by
  induction ops generalizing g with
  | nil =>
    rw [applyAttrOps] at h
    injection h with h
    rw [h]
  | cons op rest ih =>
    rw [applyAttrOps] at h
    revert h
    cases hs : setEdgeAttr g op.1.1 op.1.2 op.2.1 op.2.2.1 op.2.2.2 with
    | error e => intro h; exact absurd h (by simp)
    | ok g1 =>
      intro h
      rw [ih h, setEdgeAttr_nodes hs]

theorem conn_to_graph_nodes {c : Conn} {g : MultiDiGraph} (h : conn_to_graph c = .ok g) :
    g.nodes = (List.range c.N_A).map (mkLabel c.A_id) ++
      (List.range c.N_B).map (mkLabel c.B_id) := by
  simp only [conn_to_graph] at h
  rw [applyAttrOps_nodes h, applyEdgeOps_nodes]

theorem mem_pairs_of_keydict {g : MultiDiGraph} {u v : String}
    (h : keydict g u v ≠ []) : (u, v) ∈ pairsOf g := by
  obtain ⟨t, ht⟩ := List.exists_mem_of_ne_nil _ h
  have := keydict_mem ht
  rw [pairsOf]
  exact List.mem_map.mpr ⟨(u, v, t.1, t.2), this, rfl⟩

theorem pairsOf_mem_form (c : Conn) (hA : goodId c.A_id) (hB : goodId c.B_id)
    (hAB : c.A_id ≠ c.B_id)
    (hck : connKeys c = (List.range c.N_mult).map
      (fun s => (⟨c.A_id, c.B_id, s, "conn"⟩ : DKey)))
    {g : MultiDiGraph} (hinv : attrInv c (attrOps c) g) :
    ∀ p ∈ pairsOf g, ∃ a b : Nat, a < c.N_A ∧ b < c.N_B ∧
      p = (mkLabel c.A_id a, mkLabel c.B_id b) ∧ 0 < flagCnt c a b := by
  intro p hp
  have hkd := keydict_ne_nil_of_mem_pairs hp
  rw [hinv p.1 p.2] at hkd
  have hcnt : 0 < pairOpsCnt c p.1 p.2 := by
    by_contra h0
    push_neg at h0
    have hz : pairOpsCnt c p.1 p.2 = 0 := Nat.le_zero.mp h0
    rw [hz] at hkd
    exact hkd rfl
  obtain ⟨q, hq⟩ := List.exists_mem_of_length_pos hcnt
  have hqe := List.mem_of_mem_filter hq
  have hqp : q = (p.1, p.2) := by
    have := List.of_mem_filter hq
    simpa using this
  obtain ⟨a, b, ha, hb, hform⟩ := edgeOps_mem c hck hAB q hqe
  rw [hqp] at hform
  refine ⟨a, b, ha, hb, ?_, ?_⟩
  · rw [← hform]
  · rw [← pairOpsCnt_eq c hA hB hAB hck ha hb]
    have hp1 : p.1 = mkLabel c.A_id a := congrArg Prod.fst hform
    have hp2 : p.2 = mkLabel c.B_id b := congrArg Prod.snd hform
    rw [← hp1, ← hp2]
    exact hcnt

theorem edges_mem_form (c : Conn) (hA : goodId c.A_id) (hB : goodId c.B_id)
    (hAB : c.A_id ≠ c.B_id)
    (hck : connKeys c = (List.range c.N_mult).map
      (fun s => (⟨c.A_id, c.B_id, s, "conn"⟩ : DKey)))
    {g : MultiDiGraph} (hinv : attrInv c (attrOps c) g) :
    ∀ e ∈ g.edges, ∃ a b : Nat, a < c.N_A ∧ b < c.N_B ∧
      e.1 = mkLabel c.A_id a ∧ e.2.1 = mkLabel c.B_id b ∧ 0 < flagCnt c a b := by
  intro e he
  have hp : (e.1, e.2.1) ∈ pairsOf g := List.mem_map.mpr ⟨e, he, rfl⟩
  obtain ⟨a, b, ha, hb, hform, hcnt⟩ := pairsOf_mem_form c hA hB hAB hck hinv _ hp
  exact ⟨a, b, ha, hb, congrArg Prod.fst hform, congrArg Prod.snd hform, hcnt⟩

theorem mem_boolLists : ∀ l : List Bool, l ∈ boolLists l.length := by
  intro l
  induction l with
  | nil => simp [boolLists]
  | cons b t ih =>
    show (b :: t) ∈ boolLists (t.length + 1)
    rw [boolLists]
    refine List.mem_flatMap.mpr ⟨t, ih, ?_⟩
    cases b <;> simp

theorem getD_nodes (c : Conn) (i : Nat) :
    ((List.range c.N_A).map (mkLabel c.A_id) ++
      (List.range c.N_B).map (mkLabel c.B_id)).getD i "" =
      if i < c.N_A then mkLabel c.A_id i
      else if i < c.N_A + c.N_B then mkLabel c.B_id (i - c.N_A) else "" := by
  by_cases hiA : i < c.N_A
  · rw [if_pos hiA, List.getD_append _ _ _ _ (by rw [List.length_map, List.length_range]; exact hiA)]
    rw [List.getD_eq_getElem _ _ (by rw [List.length_map, List.length_range]; exact hiA)]
    rw [List.getElem_map, List.getElem_range]
  · rw [if_neg hiA]
    push_neg at hiA
    rw [List.getD_append_right _ _ _ _ (by rw [List.length_map, List.length_range]; exact hiA)]
    rw [List.length_map, List.length_range]
    by_cases hiB : i < c.N_A + c.N_B
    · rw [if_pos hiB]
      have hlt : i - c.N_A < c.N_B := by omega
      rw [List.getD_eq_getElem _ _ (by rw [List.length_map, List.length_range]; exact hlt)]
      rw [List.getElem_map, List.getElem_range]
    · rw [if_neg hiB]
      have hge : c.N_B ≤ i - c.N_A := by omega
      rw [List.getD_eq_default _ _ (by rw [List.length_map, List.length_range]; exact hge)]

theorem getD_twoColor (c : Conn) (i : Nat) :
    ((List.replicate c.N_A true ++ List.replicate c.N_B false).getD i false) =
      decide (i < c.N_A) := by
  by_cases hiA : i < c.N_A
  · rw [List.getD_append _ _ _ _ (by rw [List.length_replicate]; exact hiA)]
    rw [List.getD_eq_getElem _ _ (by rw [List.length_replicate]; exact hiA)]
    rw [List.getElem_replicate]
    simp [hiA]
  · push_neg at hiA
    rw [List.getD_append_right _ _ _ _ (by rw [List.length_replicate]; exact hiA)]
    simp only [List.length_replicate]
    by_cases hiB : i - c.N_A < c.N_B
    · rw [List.getD_eq_getElem _ _ (by rw [List.length_replicate]; exact hiB)]
      rw [List.getElem_replicate]
      have hni : ¬(i < c.N_A) := by omega
      simp [hni]
    · push_neg at hiB
      rw [List.getD_eq_default _ _ (by rw [List.length_replicate]; exact hiB)]
      have hni : ¬(i < c.N_A) := by omega
      simp [hni]

theorem mkLabel_ne_empty {id : String} (h : goodId id) (a : Nat) : mkLabel id a ≠ "" := by
  intro he
  have hd := congrArg String.data he
  rw [mkLabel_data] at hd
  simp at hd

theorem node_index_A (c : Conn) (hA : goodId c.A_id) (hB : goodId c.B_id)
    (hAB : c.A_id ≠ c.B_id) {i a : Nat}
    (he : ((List.range c.N_A).map (mkLabel c.A_id) ++
      (List.range c.N_B).map (mkLabel c.B_id)).getD i "" = mkLabel c.A_id a) :
    i < c.N_A := by
  rw [getD_nodes] at he
  by_cases hiA : i < c.N_A
  · exact hiA
  · rw [if_neg hiA] at he
    by_cases hiB : i < c.N_A + c.N_B
    · rw [if_pos hiB] at he
      exact absurd (mkLabel_inj hB hA he).1 (fun hh => hAB hh.symm)
    · rw [if_neg hiB] at he
      exact absurd he.symm (mkLabel_ne_empty hA a)

theorem node_index_B (c : Conn) (hA : goodId c.A_id) (hB : goodId c.B_id)
    (hAB : c.A_id ≠ c.B_id) {i b : Nat}
    (he : ((List.range c.N_A).map (mkLabel c.A_id) ++
      (List.range c.N_B).map (mkLabel c.B_id)).getD i "" = mkLabel c.B_id b) :
    ¬(i < c.N_A) := by
  rw [getD_nodes] at he
  by_cases hiA : i < c.N_A
  · rw [if_pos hiA] at he
    exact absurd (mkLabel_inj hA hB he).1 hAB
  · exact hiA

theorem encode_bipartite (c : Conn) (hA : goodId c.A_id) (hB : goodId c.B_id)
    (hAB : c.A_id ≠ c.B_id)
    (hck : connKeys c = (List.range c.N_mult).map
      (fun s => (⟨c.A_id, c.B_id, s, "conn"⟩ : DKey)))
    {g : MultiDiGraph} (h : conn_to_graph c = .ok g)
    (hinv : attrInv c (attrOps c) g) : isBipartiteStruct g = true := by
  have hnodes := conn_to_graph_nodes h
  rw [isBipartiteStruct, List.any_eq_true]
  refine ⟨List.replicate c.N_A true ++ List.replicate c.N_B false, ?_, ?_⟩
  · have hlen : (List.replicate c.N_A true ++ List.replicate c.N_B false).length =
        g.nodes.length := by
      rw [hnodes, List.length_append, List.length_append, List.length_replicate,
        List.length_replicate, List.length_map, List.length_map, List.length_range,
        List.length_range]
    rw [← hlen]
    exact mem_boolLists _
  · rw [colorOK, List.all_eq_true]
    intro i hi
    rw [List.all_eq_true]
    intro j hj
    by_cases hadj : undirAdj g (g.nodes.getD i "") (g.nodes.getD j "") = true
    · rw [undirAdj, List.any_eq_true] at hadj
      obtain ⟨e, he, hcond⟩ := hadj
      simp only [decide_eq_true_eq] at hcond
      obtain ⟨a, b, ha, hb, he1, he2, _⟩ := edges_mem_form c hA hB hAB hck hinv e he
      have hci := getD_twoColor c i
      have hcj := getD_twoColor c j
      rcases hcond with ⟨h1, h2⟩ | ⟨h1, h2⟩
      · have hiA : i < c.N_A := node_index_A c hA hB hAB (by rw [← hnodes, ← h1]; exact he1)
        have hjB : ¬(j < c.N_A) := node_index_B c hA hB hAB (by rw [← hnodes, ← h2]; exact he2)
        rw [hci, hcj]
        simp [hiA, hjB]
      · have hjA : j < c.N_A := node_index_A c hA hB hAB (by rw [← hnodes, ← h1]; exact he1)
        have hiB : ¬(i < c.N_A) := node_index_B c hA hB hAB (by rw [← hnodes, ← h2]; exact he2)
        rw [hci, hcj]
        simp [hjA, hiB]
    · have hadj2 : undirAdj g (g.nodes.getD i "") (g.nodes.getD j "") = false :=
        Bool.not_eq_true _ ▸ hadj
      rw [hadj2]
      rfl

/-! ### Decode of an encoded graph: node phase -/

theorem buildND_cons_label {id : String} (hid : goodId id) (n : Nat)
    (acc : List (String × List Int)) (rest : List String) :
    buildND acc (mkLabel id n :: rest) = buildND (ndInsert acc id (n : Int)) rest := by
  rw [buildND, parseNodeLabel_mkLabel hid]

theorem ndInsert_fresh {acc : List (String × List Int)} {id : String}
    (h : ∀ e ∈ acc, e.1 ≠ id) (n : Int) :
    ndInsert acc id n = acc ++ [(id, [n])] := by
  induction acc with
  | nil => rfl
  | cons e rest ih =>
    rw [ndInsert, if_neg (h e (List.mem_cons_self _ _)), List.cons_append,
      ih (fun x hx => h x (List.mem_cons_of_mem _ hx))]

theorem ndInsert_append_last (pre : List (String × List Int)) (id : String)
    (cur : List Int) (n : Int) (h : ∀ e ∈ pre, e.1 ≠ id) :
    ndInsert (pre ++ [(id, cur)]) id n =
      pre ++ [(id, if n ∈ cur then cur else cur ++ [n])] := by
  induction pre with
  | nil =>
    show ndInsert [(id, cur)] id n = [(id, if n ∈ cur then cur else cur ++ [n])]
    rw [ndInsert, if_pos rfl]
  | cons e rest ih =>
    rw [List.cons_append, ndInsert, if_neg (h e (List.mem_cons_self _ _)),
      ih (fun x hx => h x (List.mem_cons_of_mem _ hx)), List.cons_append]

theorem buildND_range_block {id : String} (hid : goodId id)
    (pre : List (String × List Int)) (h : ∀ e ∈ pre, e.1 ≠ id) :
    ∀ N : Nat, 1 ≤ N → ∀ rest : List String,
      buildND pre ((List.range N).map (mkLabel id) ++ rest) =
        buildND (pre ++ [(id, (List.range N).map (fun t : Nat => (t : Int)))]) rest := by
  intro N
  induction N with
  | zero =>
    intro h0
    exact absurd h0 (by omega)
  | succ n ih =>
    intro _ rest
    rcases Nat.eq_zero_or_pos n with h0 | hpos
    · subst h0
      rw [show List.range 1 = [0] from rfl, List.map_cons, List.map_nil,
        List.singleton_append, buildND_cons_label hid, ndInsert_fresh h]
      rfl
    · rw [List.range_succ, List.map_append, List.map_cons, List.map_nil,
        List.append_assoc, ih hpos, List.singleton_append, buildND_cons_label hid,
        ndInsert_append_last pre id _ _ h]
      have hnotin : ((n : Int)) ∉ (List.range n).map (fun t : Nat => (t : Int)) := by
        intro hmem
        obtain ⟨t, ht, hte⟩ := List.mem_map.mp hmem
        have htn : t = n := by exact_mod_cast hte
        rw [htn] at ht
        exact absurd (List.mem_range.mp ht) (lt_irrefl n)
      rw [if_neg hnotin, List.map_append, List.map_cons, List.map_nil]

theorem buildNodeDict_encode (c : Conn) (hA : goodId c.A_id) (hB : goodId c.B_id)
    (hAB : c.A_id ≠ c.B_id) (hNA : 1 ≤ c.N_A) (hNB : 1 ≤ c.N_B) :
    buildNodeDict ((List.range c.N_A).map (mkLabel c.A_id) ++
      (List.range c.N_B).map (mkLabel c.B_id)) =
      .ok [(c.A_id, (List.range c.N_A).map (fun t : Nat => (t : Int))),
           (c.B_id, (List.range c.N_B).map (fun t : Nat => (t : Int)))] := by
  rw [buildNodeDict]
  rw [buildND_range_block hA [] (by intro e he; exact absurd he (List.not_mem_nil e))
    c.N_A hNA _]
  rw [List.nil_append]
  rw [show (List.range c.N_B).map (mkLabel c.B_id) =
    (List.range c.N_B).map (mkLabel c.B_id) ++ [] from (List.append_nil _).symm]
  have hpre : ∀ e ∈ [(c.A_id, (List.range c.N_A).map (fun t : Nat => (t : Int)))], e.1 ≠ c.B_id := by
    intro e he
    rcases List.mem_cons.mp he with h1 | h1
    · rw [h1]
      exact hAB
    · exact absurd h1 (List.not_mem_nil e)
  rw [buildND_range_block hB [(c.A_id, (List.range c.N_A).map (fun t : Nat => (t : Int)))] hpre
    c.N_B hNB []]
  rfl

/-! ### Decode of an encoded graph: consecutive check, slot layout -/

theorem maxIntList_append_one (l : List Int) (x : Int) :
    maxIntList (l ++ [x]) = if l = [] then x else max (maxIntList l) x := by
  cases l with
  | nil =>
    rw [if_pos rfl, List.nil_append]
    rfl
  | cons a t =>
    rw [if_neg (by simp), List.cons_append]
    show (t ++ [x]).foldl max a = max (maxIntList (a :: t)) x
    rw [List.foldl_append]
    rfl

theorem maxIntList_range (n : Nat) :
    maxIntList ((List.range (n + 1)).map (fun t : Nat => (t : Int))) = (n : Int) := by
  induction n with
  | zero => rfl
  | succ m ih =>
    rw [List.range_succ, List.map_append, List.map_cons, List.map_nil,
      maxIntList_append_one, if_neg (by simp), ih]
    exact max_eq_right (by exact_mod_cast Nat.le_succ m)

theorem consecutiveB_range (n : Nat) (hn : 1 ≤ n) :
    consecutiveB ((List.range n).map (fun t : Nat => (t : Int))) = true := by
  obtain ⟨m, rfl⟩ : ∃ m, n = m + 1 := ⟨n - 1, by omega⟩
  refine (consecutiveB_iff _).mpr ?_
  intro x
  rw [maxIntList_range]
  constructor
  · intro hx
    obtain ⟨t, ht, hte⟩ := List.mem_map.mp hx
    have htm := List.mem_range.mp ht
    rw [← hte]
    constructor
    · exact Int.natCast_nonneg t
    · exact_mod_cast Nat.lt_succ_iff.mp htm
  · rintro ⟨h0, hm⟩
    refine List.mem_map.mpr ⟨x.toNat, List.mem_range.mpr (by omega), ?_⟩
    exact Int.toNat_of_nonneg h0

theorem datGet_absent {dat : List (DKey × List ((Int × Int) × Val))} {k : DKey}
    (i j : Int) (h : ∀ e ∈ dat, e.1 ≠ k) : datGet dat k i j = .intV 0 := by
  rw [datGet]
  have hf : dat.find? (fun e => e.1 = k) = none :=
    List.find?_eq_none.mpr (fun x hx => by
      simp only [decide_eq_true_eq]
      exact h x hx)
  rw [hf]

theorem pairsLookup_absent {ps : List ((Int × Int) × Val)} {i j : Int}
    (h : ∀ pv ∈ ps, pv.1 ≠ (i, j)) : pairsLookup ps i j = .intV 0 := by
  rw [pairsLookup]
  have hf : ps.find? (fun e => e.1 = (i, j)) = none :=
    List.find?_eq_none.mpr (fun x hx => by
      simp only [decide_eq_true_eq]
      exact h x hx)
  rw [hf]

theorem get_conn_ge_nmult (c : Conn)
    (hck : connKeys c = (List.range c.N_mult).map
      (fun s => (⟨c.A_id, c.B_id, s, "conn"⟩ : DKey)))
    {i j : Int} {s : Nat} (hs : c.N_mult ≤ s) :
    c.get c.A_id c.B_id i j s "conn" = .intV 0 := by
  rw [Conn.get]
  apply datGet_absent
  intro e he hk
  have hmem : e.1 ∈ connKeys c := by
    rw [connKeys]
    refine List.mem_filter.mpr ⟨List.mem_map_of_mem Prod.fst he, ?_⟩
    rw [hk]
    simp
  rw [hck] at hmem
  obtain ⟨t, ht, hte⟩ := List.mem_map.mp hmem
  rw [hk] at hte
  injection hte with e1 e2 e3 e4
  rw [e3] at ht
  exact absurd (List.mem_range.mp ht) (by omega)

theorem get_truthy_key_mem {c : Conn} {src dest : String} {i j : Int} {s : Nat}
    {nm : String} (h : pyTruthy (c.get src dest i j s nm) = true) :
    (⟨src, dest, s, nm⟩ : DKey) ∈ c.dat.map Prod.fst := by
  by_contra hno
  have hz : c.get src dest i j s nm = .intV 0 := by
    rw [Conn.get]
    exact datGet_absent i j (fun e he hk => hno (hk ▸ List.mem_map_of_mem Prod.fst he))
  rw [hz] at h
  exact absurd h (by decide)

theorem get_eqone_key_mem {c : Conn} {src dest : String} {i j : Int} {s : Nat}
    {nm : String} (h : pyEqOne (c.get src dest i j s nm) = true) :
    (⟨src, dest, s, nm⟩ : DKey) ∈ c.dat.map Prod.fst := by
  by_contra hno
  have hz : c.get src dest i j s nm = .intV 0 := by
    rw [Conn.get]
    exact datGet_absent i j (fun e he hk => hno (hk ▸ List.mem_map_of_mem Prod.fst he))
  rw [hz] at h
  exact absurd h (by decide)

theorem dat_keys_form (c : Conn)
    (hck : connKeys c = (List.range c.N_mult).map
      (fun s => (⟨c.A_id, c.B_id, s, "conn"⟩ : DKey)))
    (hdir : ∀ k ∈ nonConnKeys c, k.src = c.A_id ∧ k.dest = c.B_id) :
    ∀ k ∈ c.dat.map Prod.fst, k.src = c.A_id ∧ k.dest = c.B_id := by
  intro k hk
  by_cases hn : k.name = "conn"
  · have hmem : k ∈ connKeys c := by
      rw [connKeys]
      exact List.mem_filter.mpr ⟨hk, by simp [hn]⟩
    rw [hck] at hmem
    obtain ⟨t, ht, hte⟩ := List.mem_map.mp hmem
    rw [← hte]
    exact ⟨rfl, rfl⟩
  · have hmem : k ∈ nonConnKeys c := by
      rw [nonConnKeys]
      exact List.mem_filter.mpr ⟨hk, by simp [hn]⟩
    exact hdir k hmem

theorem filter_range_down_iff {P : Nat → Bool} {n : Nat}
    (hdown : ∀ s, s < n → ∀ t, t < s → P s = true → P t = true) :
    ∀ s, s < n → (P s = true ↔ s < ((List.range n).filter P).length) := by
  induction n with
  | zero =>
    intro s hs
    exact absurd hs (by omega)
  | succ m ih =>
    intro s hs
    have hdm : ∀ s, s < m → ∀ t, t < s → P s = true → P t = true :=
      fun s hs t ht hp => hdown s (by omega) t ht hp
    rw [List.range_succ, List.filter_append]
    cases hPm : P m with
    | true =>
      have hall : ∀ t, t < m → P t = true := fun t ht => hdown m (by omega) t ht hPm
      have hflt : (List.range m).filter P = List.range m :=
        List.filter_eq_self.mpr (fun a ha => hall a (List.mem_range.mp ha))
      have hfm : [m].filter P = [m] := by
        rw [List.filter_cons, if_pos hPm]
        rfl
      rw [hflt, hfm, List.length_append, List.length_range, List.length_singleton]
      constructor
      · intro _
        exact hs
      · intro _
        have hsm : s < m ∨ s = m := by omega
        rcases hsm with h1 | h1
        · exact hall s h1
        · rw [h1]
          exact hPm
    | false =>
      have hfm : [m].filter P = [] := by
        rw [List.filter_cons, if_neg (by simp [hPm])]
        rfl
      rw [hfm, List.append_nil]
      have hsm : s < m ∨ s = m := by omega
      rcases hsm with h1 | h1
      · exact ih hdm s h1
      · subst h1
        constructor
        · intro hh
          rw [hPm] at hh
          exact absurd hh (by simp)
        · intro hh
          exfalso
          have hle := List.length_filter_le P (List.range s)
          rw [List.length_range] at hle
          omega

theorem flagCnt_le_nmult (c : Conn) (i j : Nat) : flagCnt c i j ≤ c.N_mult := by
  rw [flagCnt]
  have hle := List.length_filter_le
    (fun s => pyEqOne (c.get c.A_id c.B_id (i : Int) (j : Int) s "conn"))
    (List.range c.N_mult)
  rw [List.length_range] at hle
  exact hle

theorem flag_iff_lt_flagCnt (c : Conn)
    (hck : connKeys c = (List.range c.N_mult).map
      (fun s => (⟨c.A_id, c.B_id, s, "conn"⟩ : DKey)))
    {i j : Nat}
    (hdown : ∀ s, s < c.N_mult → ∀ t, t < s →
      pyEqOne (c.get c.A_id c.B_id (i : Int) (j : Int) s "conn") = true →
      pyEqOne (c.get c.A_id c.B_id (i : Int) (j : Int) t "conn") = true) :
    ∀ s : Nat, pyEqOne (c.get c.A_id c.B_id (i : Int) (j : Int) s "conn") = true ↔
      s < flagCnt c i j := by
  intro s
  by_cases hs : s < c.N_mult
  · exact filter_range_down_iff hdown s hs
  · constructor
    · intro hflag
      exfalso
      have hz := get_conn_ge_nmult c hck (i := (i : Int)) (j := (j : Int))
        (Nat.le_of_not_lt hs)
      rw [hz] at hflag
      exact absurd hflag (by decide)
    · intro hlt
      exfalso
      have := flagCnt_le_nmult c i j
      omega

theorem encode_maxMult (c : Conn) (hA : goodId c.A_id) (hB : goodId c.B_id)
    (hAB : c.A_id ≠ c.B_id)
    (hck : connKeys c = (List.range c.N_mult).map
      (fun s => (⟨c.A_id, c.B_id, s, "conn"⟩ : DKey)))
    {g : MultiDiGraph} (hinv : attrInv c (attrOps c) g) (hNm : 1 ≤ c.N_mult)
    (hdown : ∀ i, i < c.N_A → ∀ j, j < c.N_B → ∀ s, s < c.N_mult → ∀ t, t < s →
      pyEqOne (c.get c.A_id c.B_id (i : Int) (j : Int) s "conn") = true →
      pyEqOne (c.get c.A_id c.B_id (i : Int) (j : Int) t "conn") = true)
    (hfull : ∃ i, i < c.N_A ∧ ∃ j, j < c.N_B ∧
      pyEqOne (c.get c.A_id c.B_id (i : Int) (j : Int) (c.N_mult - 1) "conn") = true) :
    maxMult g = c.N_mult := by
  obtain ⟨i0, hi0, j0, hj0, hflag⟩ := hfull
  have hiff := flag_iff_lt_flagCnt c hck (hdown i0 hi0 j0 hj0)
  have hge : c.N_mult ≤ flagCnt c i0 j0 := by
    have := (hiff (c.N_mult - 1)).mp hflag
    omega
  have hcnt : flagCnt c i0 j0 = c.N_mult :=
    Nat.le_antisymm (flagCnt_le_nmult c i0 j0) hge
  have hkd := hinv (mkLabel c.A_id i0) (mkLabel c.B_id j0)
  have hpcnt := pairOpsCnt_eq c hA hB hAB hck hi0 hj0
  have hne : keydict g (mkLabel c.A_id i0) (mkLabel c.B_id j0) ≠ [] := by
    rw [hkd, hpcnt, hcnt]
    intro hnil
    have hlen := congrArg List.length hnil
    rw [List.length_map, List.length_range] at hlen
    simp at hlen
    omega
  have hp : (mkLabel c.A_id i0, mkLabel c.B_id j0) ∈ pairsOf g := mem_pairs_of_keydict hne
  have h1 : c.N_mult ≤ maxMult g := by
    have hgem := maxMult_ge hp
    rw [hkd, hpcnt, hcnt, List.length_map, List.length_range] at hgem
    exact hgem
  have h2 : maxMult g ≤ c.N_mult := by
    have hne2 : pairsOf g ≠ [] := by
      intro hnil
      rw [hnil] at hp
      exact absurd hp (List.not_mem_nil _)
    obtain ⟨p, hpmem, hplen⟩ := maxMult_attained hne2
    obtain ⟨a, b, ha, hb, hform, _⟩ := pairsOf_mem_form c hA hB hAB hck hinv p hpmem
    rw [← hplen, hinv p.1 p.2, List.length_map, List.length_range]
    have hp1 : p.1 = mkLabel c.A_id a := congrArg Prod.fst hform
    have hp2 : p.2 = mkLabel c.B_id b := congrArg Prod.snd hform
    rw [hp1, hp2, pairOpsCnt_eq c hA hB hAB hck ha hb]
    exact flagCnt_le_nmult c a b
  omega

/-! ### Decode of an encoded graph: typed counting -/

/-- Helper form of the tag characterisation (shared by the typed-count
analysis): identical content to the per-population tag lookup of the
encoder. -/
theorem encode_tag_char (c : Conn) (g : MultiDiGraph)
    (h : conn_to_graph c = .ok g) (hty : c.typed = true)
    (hA : goodId c.A_id) (hB : goodId c.B_id) (hAB : c.A_id ≠ c.B_id)
    (hcovA : ∀ n, n < c.N_A →
      (∃ k, k < c.N_A_gpot ∧ c.idxTranslate c.A_id "gpot" k = n) ∨
      (∃ k, k < c.N_A_spike ∧ c.idxTranslate c.A_id "spike" k = n))
    (hdisA : ∀ k, k < c.N_A_gpot → ∀ k', k' < c.N_A_spike →
      c.idxTranslate c.A_id "gpot" k ≠ c.idxTranslate c.A_id "spike" k')
    (hcovB : ∀ n, n < c.N_B →
      (∃ k, k < c.N_B_gpot ∧ c.idxTranslate c.B_id "gpot" k = n) ∨
      (∃ k, k < c.N_B_spike ∧ c.idxTranslate c.B_id "spike" k = n))
    (hdisB : ∀ k, k < c.N_B_gpot → ∀ k', k' < c.N_B_spike →
      c.idxTranslate c.B_id "gpot" k ≠ c.idxTranslate c.B_id "spike" k') :
    (∀ n, n < c.N_A → ntLookup g (mkLabel c.A_id n) =
      some (if ∃ k, k < c.N_A_gpot ∧ c.idxTranslate c.A_id "gpot" k = n
            then "gpot" else "spike")) ∧
    (∀ n, n < c.N_B → ntLookup g (mkLabel c.B_id n) =
      some (if ∃ k, k < c.N_B_gpot ∧ c.idxTranslate c.B_id "gpot" k = n
            then "gpot" else "spike")) := by
  have hnt : g.nodeType = applyTags [] (tagOps c) := by
    rw [conn_to_graph_nodeType h, if_pos hty]
  constructor
  · intro n hn
    have hlk : ntLookup g (mkLabel c.A_id n) =
        assocFind g.nodeType (mkLabel c.A_id n) := rfl
    rw [hlk, hnt, assocFind_applyTags, lastVal_tagOps_A c hA hB hAB n]
    by_cases hg : ∃ k, k < c.N_A_gpot ∧ c.idxTranslate c.A_id "gpot" k = n
    · have hns : ¬ ∃ k, k < c.N_A_spike ∧ c.idxTranslate c.A_id "spike" k = n := by
        rintro ⟨k', hk', he⟩
        obtain ⟨k, hk, he2⟩ := hg
        exact hdisA k hk k' hk' (he2.trans he.symm)
      rw [if_neg hns, if_pos hg, if_pos hg]
    · rcases hcovA n hn with h1 | h1
      · exact absurd h1 hg
      · rw [if_pos h1, if_neg hg]
  · intro n hn
    have hlk : ntLookup g (mkLabel c.B_id n) =
        assocFind g.nodeType (mkLabel c.B_id n) := rfl
    rw [hlk, hnt, assocFind_applyTags, lastVal_tagOps_B c hA hB hAB n]
    by_cases hg : ∃ k, k < c.N_B_gpot ∧ c.idxTranslate c.B_id "gpot" k = n
    · have hns : ¬ ∃ k, k < c.N_B_spike ∧ c.idxTranslate c.B_id "spike" k = n := by
        rintro ⟨k', hk', he⟩
        obtain ⟨k, hk, he2⟩ := hg
        exact hdisB k hk k' hk' (he2.trans he.symm)
      rw [if_neg hns, if_pos hg, if_pos hg]
    · rcases hcovB n hn with h1 | h1
      · exact absurd h1 hg
      · rw [if_pos h1, if_neg hg]

theorem countT_char (g : MultiDiGraph) (id : String) (tag : Int → String) :
    ∀ (ns : List Int) (acc : Nat × Nat),
      (∀ n ∈ ns, ntLookup g (id ++ ":" ++ intStr n) = some (tag n) ∧
        (tag n = "gpot" ∨ tag n = "spike")) →
      countT g id ns acc = .ok
        (acc.1 + (ns.filter (fun n => tag n = "gpot")).length,
         acc.2 + (ns.filter (fun n => tag n ≠ "gpot")).length) := by
  intro ns
  induction ns with
  | nil =>
    intro acc _
    rfl
  | cons n rest ih =>
    intro acc hall
    obtain ⟨hlk, htag⟩ := hall n (List.mem_cons_self _ _)
    simp only [countT, hlk]
    have ihr := ih (acc.1 + 1, acc.2) (fun m hm => hall m (List.mem_cons_of_mem _ hm))
    have ihr2 := ih (acc.1, acc.2 + 1) (fun m hm => hall m (List.mem_cons_of_mem _ hm))
    rcases htag with hg | hsp
    · rw [if_pos hg, ihr,
        List.filter_cons_of_pos (by simp [hg]),
        List.filter_cons_of_neg (by simp [hg]), List.length_cons]
      have harith : acc.1 + 1 + (rest.filter (fun n => tag n = "gpot")).length =
          acc.1 + ((rest.filter (fun n => tag n = "gpot")).length + 1) := by omega
      rw [harith]
    · have hng : ¬(tag n = "gpot") := by
        rw [hsp]
        decide
      rw [if_neg hng, if_pos hsp, ihr2,
        List.filter_cons_of_neg (by simp [hng]),
        List.filter_cons_of_pos (by simp [hng]), List.length_cons]
      have harith : acc.2 + 1 + (rest.filter (fun n => tag n ≠ "gpot")).length =
          acc.2 + ((rest.filter (fun n => tag n ≠ "gpot")).length + 1) := by omega
      rw [harith]

theorem count_image_filter {N m : Nat} {f : Nat → Nat}
    (hinj : ∀ a, a < m → ∀ b, b < m → f a = f b → a = b)
    (himg : ∀ k, k < m → f k < N) :
    ((List.range N).filter (fun n => ∃ k, k < m ∧ f k = n)).length = m := by
  have h1 : ((List.range N).filter (fun n => ∃ k, k < m ∧ f k = n)).Nodup :=
    (List.nodup_range N).filter _
  have h2 : ((List.range m).map f).Nodup :=
    List.Nodup.map_on
      (fun x hx y hy => hinj x (List.mem_range.mp hx) y (List.mem_range.mp hy))
      (List.nodup_range m)
  have hperm : List.Perm ((List.range N).filter (fun n => ∃ k, k < m ∧ f k = n))
      ((List.range m).map f) := by
    rw [List.perm_ext_iff_of_nodup h1 h2]
    intro a
    constructor
    · intro ha
      have hp := List.of_mem_filter ha
      simp only [decide_eq_true_eq] at hp
      obtain ⟨k, hk, hfk⟩ := hp
      exact List.mem_map.mpr ⟨k, List.mem_range.mpr hk, hfk⟩
    · intro ha
      obtain ⟨k, hk, hfk⟩ := List.mem_map.mp ha
      refine List.mem_filter.mpr ⟨List.mem_range.mpr ?_, ?_⟩
      · rw [← hfk]
        exact himg k (List.mem_range.mp hk)
      · simp only [decide_eq_true_eq]
        exact ⟨k, List.mem_range.mp hk, hfk⟩
  rw [hperm.length_eq, List.length_map, List.length_range]

theorem length_filter_split {α : Type} (p : α → Bool) (l : List α) :
    (l.filter p).length + (l.filter (fun x => !(p x))).length = l.length := by
  induction l with
  | nil => rfl
  | cons x t ih =>
    rw [List.filter_cons, List.filter_cons]
    by_cases hp : p x = true
    · rw [if_pos hp, if_neg (by simp [hp]), List.length_cons, List.length_cons]
      omega
    · have hfx : p x = false := (Bool.not_eq_true _).mp hp
      rw [if_neg hp, if_pos (by rw [hfx]; rfl), List.length_cons, List.length_cons]
      omega

theorem cover_sum {N m1 m2 : Nat} {f1 f2 : Nat → Nat}
    (hinj1 : ∀ a, a < m1 → ∀ b, b < m1 → f1 a = f1 b → a = b)
    (himg1 : ∀ k, k < m1 → f1 k < N)
    (hinj2 : ∀ a, a < m2 → ∀ b, b < m2 → f2 a = f2 b → a = b)
    (himg2 : ∀ k, k < m2 → f2 k < N)
    (hcov : ∀ n, n < N → (∃ k, k < m1 ∧ f1 k = n) ∨ (∃ k, k < m2 ∧ f2 k = n))
    (hdis : ∀ k, k < m1 → ∀ k', k' < m2 → f1 k ≠ f2 k') :
    m1 + m2 = N := by
  have h1 := count_image_filter hinj1 himg1
  have h2 := count_image_filter hinj2 himg2
  have h3 := length_filter_split (fun n => ∃ k, k < m1 ∧ f1 k = n) (List.range N)
  rw [List.length_range] at h3
  have h4 : (List.range N).filter
      (fun n => !((fun n => decide (∃ k, k < m1 ∧ f1 k = n)) n)) =
      (List.range N).filter (fun n => ∃ k, k < m2 ∧ f2 k = n) := by
    refine List.filter_congr ?_
    intro t ht
    have htN := List.mem_range.mp ht
    by_cases hc : ∃ k, k < m1 ∧ f1 k = t
    · have hnot : ¬∃ k, k < m2 ∧ f2 k = t := by
        rintro ⟨k2, hk2, hf2⟩
        obtain ⟨k1, hk1, hf1⟩ := hc
        exact hdis k1 hk1 k2 hk2 (hf1.trans hf2.symm)
      simp [hc, hnot]
    · have hsp : ∃ k, k < m2 ∧ f2 k = t := by
        rcases hcov t htN with hh | hh
        · exact absurd hh hc
        · exact hh
      simp [hc, hsp]
  rw [h4, h1, h2] at h3
  exact h3

theorem countTypesPop_encode (g : MultiDiGraph) (id : String) (N m1 m2 : Nat)
    (f1 f2 : Nat → Nat)
    (hlk : ∀ t, t < N → ntLookup g (mkLabel id t) =
      some (if ∃ k, k < m1 ∧ f1 k = t then "gpot" else "spike"))
    (hinj1 : ∀ a, a < m1 → ∀ b, b < m1 → f1 a = f1 b → a = b)
    (himg1 : ∀ k, k < m1 → f1 k < N)
    (hinj2 : ∀ a, a < m2 → ∀ b, b < m2 → f2 a = f2 b → a = b)
    (himg2 : ∀ k, k < m2 → f2 k < N)
    (hcov : ∀ n, n < N → (∃ k, k < m1 ∧ f1 k = n) ∨ (∃ k, k < m2 ∧ f2 k = n))
    (hdis : ∀ k, k < m1 → ∀ k', k' < m2 → f1 k ≠ f2 k') :
    countTypesPop g id ((List.range N).map (fun t : Nat => (t : Int))) = .ok (m1, m2) := by
  rw [countTypesPop]
  have hall : ∀ n ∈ (List.range N).map (fun t : Nat => (t : Int)),
      ntLookup g (id ++ ":" ++ intStr n) =
        some ((fun n : Int =>
          if ∃ k, k < m1 ∧ f1 k = n.toNat then "gpot" else "spike") n) ∧
      ((fun n : Int =>
          if ∃ k, k < m1 ∧ f1 k = n.toNat then "gpot" else "spike") n = "gpot" ∨
        (fun n : Int =>
          if ∃ k, k < m1 ∧ f1 k = n.toNat then "gpot" else "spike") n = "spike") := by
    intro n hn
    obtain ⟨t, ht, hte⟩ := List.mem_map.mp hn
    have htN := List.mem_range.mp ht
    constructor
    · show ntLookup g (id ++ ":" ++ intStr n) =
        some (if ∃ k, k < m1 ∧ f1 k = n.toNat then "gpot" else "spike")
      rw [← hte]
      have hlab : (id ++ ":" ++ intStr (t : Int)) = mkLabel id t := by
        rw [intStr_ofNat]
        rfl
      rw [hlab, Int.toNat_natCast, hlk t htN]
    · show (if ∃ k, k < m1 ∧ f1 k = n.toNat then "gpot" else "spike") = "gpot" ∨
        (if ∃ k, k < m1 ∧ f1 k = n.toNat then "gpot" else "spike") = "spike"
      by_cases hc : ∃ k, k < m1 ∧ f1 k = n.toNat
      · left
        rw [if_pos hc]
      · right
        rw [if_neg hc]
  rw [countT_char g id _ _ (0, 0) hall]
  have hg : (((List.range N).map (fun t : Nat => (t : Int))).filter
      (fun n => (fun n : Int =>
        if ∃ k, k < m1 ∧ f1 k = n.toNat then "gpot" else "spike") n = "gpot")).length
      = m1 := by
    rw [List.filter_map, List.length_map]
    have hcongr : (List.range N).filter
        ((fun n => decide ((fun n : Int =>
          if ∃ k, k < m1 ∧ f1 k = n.toNat then "gpot" else "spike") n = "gpot")) ∘
          (fun t : Nat => (t : Int))) =
        (List.range N).filter (fun n => ∃ k, k < m1 ∧ f1 k = n) := by
      refine List.filter_congr ?_
      intro t ht
      simp only [Function.comp_apply, Int.toNat_natCast]
      by_cases hc : ∃ k, k < m1 ∧ f1 k = t
      · simp [hc]
      · simp [hc]
    rw [hcongr, count_image_filter hinj1 himg1]
  have hs : (((List.range N).map (fun t : Nat => (t : Int))).filter
      (fun n => (fun n : Int =>
        if ∃ k, k < m1 ∧ f1 k = n.toNat then "gpot" else "spike") n ≠ "gpot")).length
      = m2 := by
    rw [List.filter_map, List.length_map]
    have hcongr : (List.range N).filter
        ((fun n => decide ((fun n : Int =>
          if ∃ k, k < m1 ∧ f1 k = n.toNat then "gpot" else "spike") n ≠ "gpot")) ∘
          (fun t : Nat => (t : Int))) =
        (List.range N).filter (fun n => ∃ k, k < m2 ∧ f2 k = n) := by
      refine List.filter_congr ?_
      intro t ht
      have htN := List.mem_range.mp ht
      simp only [Function.comp_apply, Int.toNat_natCast]
      by_cases hc : ∃ k, k < m1 ∧ f1 k = t
      · have hnot : ¬∃ k, k < m2 ∧ f2 k = t := by
          rintro ⟨k2, hk2, hf2⟩
          obtain ⟨k1, hk1, hf1⟩ := hc
          exact hdis k1 hk1 k2 hk2 (hf1.trans hf2.symm)
        simp [hc, hnot]
      · have hsp : ∃ k, k < m2 ∧ f2 k = t := by
          rcases hcov t htN with hh | hh
          · exact absurd hh hc
          · exact hh
        simp [hc, hsp]
    rw [hcongr, count_image_filter hinj2 himg2]
  rw [hg, hs]
  rw [Nat.zero_add, Nat.zero_add]

theorem typedCounts_encode (c : Conn) (g : MultiDiGraph)
    (h : conn_to_graph c = .ok g) (hty : c.typed = true)
    (hA : goodId c.A_id) (hB : goodId c.B_id) (hAB : c.A_id ≠ c.B_id)
    (hinjGA : ∀ a, a < c.N_A_gpot → ∀ b, b < c.N_A_gpot →
      c.idxTranslate c.A_id "gpot" a = c.idxTranslate c.A_id "gpot" b → a = b)
    (himgGA : ∀ k, k < c.N_A_gpot → c.idxTranslate c.A_id "gpot" k < c.N_A)
    (hinjSA : ∀ a, a < c.N_A_spike → ∀ b, b < c.N_A_spike →
      c.idxTranslate c.A_id "spike" a = c.idxTranslate c.A_id "spike" b → a = b)
    (himgSA : ∀ k, k < c.N_A_spike → c.idxTranslate c.A_id "spike" k < c.N_A)
    (hcovA : ∀ n, n < c.N_A →
      (∃ k, k < c.N_A_gpot ∧ c.idxTranslate c.A_id "gpot" k = n) ∨
      (∃ k, k < c.N_A_spike ∧ c.idxTranslate c.A_id "spike" k = n))
    (hdisA : ∀ k, k < c.N_A_gpot → ∀ k', k' < c.N_A_spike →
      c.idxTranslate c.A_id "gpot" k ≠ c.idxTranslate c.A_id "spike" k')
    (hinjGB : ∀ a, a < c.N_B_gpot → ∀ b, b < c.N_B_gpot →
      c.idxTranslate c.B_id "gpot" a = c.idxTranslate c.B_id "gpot" b → a = b)
    (himgGB : ∀ k, k < c.N_B_gpot → c.idxTranslate c.B_id "gpot" k < c.N_B)
    (hinjSB : ∀ a, a < c.N_B_spike → ∀ b, b < c.N_B_spike →
      c.idxTranslate c.B_id "spike" a = c.idxTranslate c.B_id "spike" b → a = b)
    (himgSB : ∀ k, k < c.N_B_spike → c.idxTranslate c.B_id "spike" k < c.N_B)
    (hcovB : ∀ n, n < c.N_B →
      (∃ k, k < c.N_B_gpot ∧ c.idxTranslate c.B_id "gpot" k = n) ∨
      (∃ k, k < c.N_B_spike ∧ c.idxTranslate c.B_id "spike" k = n))
    (hdisB : ∀ k, k < c.N_B_gpot → ∀ k', k' < c.N_B_spike →
      c.idxTranslate c.B_id "gpot" k ≠ c.idxTranslate c.B_id "spike" k') :
    typedCounts g c.A_id ((List.range c.N_A).map (fun t : Nat => (t : Int)))
      c.B_id ((List.range c.N_B).map (fun t : Nat => (t : Int))) =
      .ok ((c.N_A_gpot, c.N_A_spike), (c.N_B_gpot, c.N_B_spike)) := by
  have htag := encode_tag_char c g h hty hA hB hAB hcovA hdisA hcovB hdisB
  rw [typedCounts,
    countTypesPop_encode g c.A_id c.N_A c.N_A_gpot c.N_A_spike
      (fun k => c.idxTranslate c.A_id "gpot" k) (fun k => c.idxTranslate c.A_id "spike" k)
      (fun t ht => htag.1 t ht) hinjGA himgGA hinjSA himgSA hcovA hdisA,
    countTypesPop_encode g c.B_id c.N_B c.N_B_gpot c.N_B_spike
      (fun k => c.idxTranslate c.B_id "gpot" k) (fun k => c.idxTranslate c.B_id "spike" k)
      (fun t ht => htag.2 t ht) hinjGB himgGB hinjSB himgSB hcovB hdisB]

/-! ### Decode of an encoded graph: edge-loop success and store lookup -/

theorem setSlotAttrs_ok_of {a : String} {i : Int} {b : String} {j : Int} {slot : Nat}
    {attrs : List (String × Val)}
    (h : ∀ nv ∈ attrs, ∃ w, coerceParam nv.1 nv.2 = .ok w) (c : Conn) :
    ∃ c', setSlotAttrs a i b j slot attrs c = .ok c' := by
  induction attrs generalizing c with
  | nil => exact ⟨c, rfl⟩
  | cons nv rest ih =>
    obtain ⟨w, hw⟩ := h nv (List.mem_cons_self _ _)
    rw [setSlotAttrs, hw]
    exact ih (fun x hx => h x (List.mem_cons_of_mem _ hx)) _

theorem procKd_ok_of {a : String} {i : Int} {b : String} {j : Int}
    {l : List (Nat × Nat × List (String × Val))}
    (h : ∀ t ∈ l, ∀ nv ∈ t.2.2, ∃ w, coerceParam nv.1 nv.2 = .ok w) (c : Conn) :
    ∃ c', procKd a i b j l c = .ok c' := by
  induction l generalizing c with
  | nil => exact ⟨c, rfl⟩
  | cons t rest ih =>
    have hp : ∃ c1, setSlotParams a i b j t.1 t.2.2 c = .ok c1 := by
      rw [setSlotParams]
      exact setSlotAttrs_ok_of (h t (List.mem_cons_self _ _)) _
    obtain ⟨c1, hc1⟩ := hp
    rw [procKd, hc1]
    exact ih (fun x hx nv hnv => h x (List.mem_cons_of_mem _ hx) nv hnv) c1

theorem decodeEdges_ok_of {g : MultiDiGraph}
    (h : ∀ e ∈ g.edges, (∃ pa, splitLabel e.1 = .ok pa) ∧
      (∃ pb, splitLabel e.2.1 = .ok pb) ∧
      ∀ t ∈ (keydict g e.1 e.2.1).enum, ∀ nv ∈ t.2.2,
        ∃ w, coerceParam nv.1 nv.2 = .ok w) :
    ∀ es, (∀ e ∈ es, e ∈ g.edges) → ∀ c, ∃ c', decodeEdges g es c = .ok c' := by
  intro es
  induction es with
  | nil =>
    intro _ c
    exact ⟨c, rfl⟩
  | cons e rest ih =>
    intro hsub c
    obtain ⟨⟨pa, hpa⟩, ⟨pb, hpb⟩, hco⟩ := h e (hsub e (List.mem_cons_self _ _))
    have hpe : ∃ c1, processEdge g c e.1 e.2.1 = .ok c1 := by
      rw [processEdge, hpa, hpb]
      exact procKd_ok_of hco c
    obtain ⟨c1, hc1⟩ := hpe
    rw [decodeEdges, hc1]
    exact ih (fun x hx => hsub x (List.mem_cons_of_mem _ hx)) c1

theorem mem_attrSet {l : List (String × Val)} {n : String} {v : Val} {e : String × Val}
    (h : e ∈ attrSet l n v) : e = (n, v) ∨ e ∈ l := by
  induction l with
  | nil =>
    rw [attrSet] at h
    rcases List.mem_cons.mp h with h1 | h1
    · exact Or.inl h1
    · exact absurd h1 (List.not_mem_nil e)
  | cons p rest ih =>
    rw [attrSet] at h
    by_cases hp : p.1 = n
    · rw [if_pos hp] at h
      rcases List.mem_cons.mp h with h1 | h1
      · exact Or.inl h1
      · exact Or.inr (List.mem_cons_of_mem _ h1)
    · rw [if_neg hp] at h
      rcases List.mem_cons.mp h with h1 | h1
      · exact Or.inr (h1 ▸ List.mem_cons_self _ _)
      · rcases ih h1 with h2 | h2
        · exact Or.inl h2
        · exact Or.inr (List.mem_cons_of_mem _ h2)

theorem mem_foldl_attrSet {ops m0 : List (String × Val)} {e : String × Val}
    (h : e ∈ ops.foldl (fun m p => attrSet m p.1 p.2) m0) : e ∈ m0 ∨ e ∈ ops := by
  induction ops generalizing m0 with
  | nil => exact Or.inl h
  | cons p rest ih =>
    rw [List.foldl_cons] at h
    rcases ih h with h1 | h1
    · rcases mem_attrSet h1 with h2 | h2
      · exact Or.inr (h2 ▸ List.mem_cons_self _ _)
      · exact Or.inl h2
    · exact Or.inr (List.mem_cons_of_mem _ h1)

theorem mem_opsAttrs {done : List ((String × String) × Nat × String × Val)}
    {u v : String} {s : Nat} {e : String × Val} (h : e ∈ opsAttrs done u v s) :
    ∃ op ∈ done, op.1 = (u, v) ∧ op.2.1 = s ∧ op.2.2 = e := by
  rw [opsAttrs] at h
  rcases mem_foldl_attrSet h with h1 | h1
  · exact absurd h1 (List.not_mem_nil e)
  · obtain ⟨op, hop, hsel⟩ := List.mem_filterMap.mp h1
    revert hsel
    by_cases hc : op.1 = (u, v) ∧ op.2.1 = s
    · rw [if_pos hc]
      intro hsel
      injection hsel with hsel
      exact ⟨op, hop, hc.1, hc.2, hsel⟩
    · rw [if_neg hc]
      intro hsel
      exact absurd hsel (by simp)

theorem lastVal_unique_value {α : Type} {l : List (String × α)} {nm : String} {v : α}
    (h : ∀ e ∈ l, e.1 = nm → e.2 = v) :
    lastVal l nm = if ∃ e ∈ l, e.1 = nm then some v else none := by
  induction l with
  | nil => simp [lastVal]
  | cons p rest ih =>
    rw [lastVal, ih (fun e he hk => h e (List.mem_cons_of_mem _ he) hk)]
    by_cases hr : ∃ e ∈ rest, e.1 = nm
    · obtain ⟨e, he, hek⟩ := hr
      have h1 : ∃ e ∈ rest, e.1 = nm := ⟨e, he, hek⟩
      have h2 : ∃ e ∈ p :: rest, e.1 = nm := ⟨e, List.mem_cons_of_mem _ he, hek⟩
      rw [if_pos h1, if_pos h2]
    · rw [if_neg hr]
      by_cases hp : p.1 = nm
      · have h2 : ∃ e ∈ p :: rest, e.1 = nm := ⟨p, List.mem_cons_self _ _, hp⟩
        rw [if_pos h2]
        simp only [if_pos hp, h p (List.mem_cons_self _ _) hp]
      · have h2 : ¬∃ e ∈ p :: rest, e.1 = nm := by
          rintro ⟨e, he, hek⟩
          rcases List.mem_cons.mp he with h1 | h1
          · exact hp (h1 ▸ hek)
          · exact hr ⟨e, h1, hek⟩
        rw [if_neg h2]
        simp only [if_neg hp]

theorem opsAttrs_lastVal (c : Conn) (hA : goodId c.A_id) (hB : goodId c.B_id)
    (hAB : c.A_id ≠ c.B_id)
    (hdir : ∀ k ∈ nonConnKeys c, k.src = c.A_id ∧ k.dest = c.B_id)
    {a b : Nat} (ha : a < c.N_A) (hb : b < c.N_B) (s : Nat) (nm : String) :
    lastVal (opsAttrs (attrOps c) (mkLabel c.A_id a) (mkLabel c.B_id b) s) nm =
      if (∃ k ∈ nonConnKeys c, k.slot = s ∧ k.name = nm) ∧
          pyTruthy (c.get c.A_id c.B_id (a : Int) (b : Int) s nm) = true
      then some (c.get c.A_id c.B_id (a : Int) (b : Int) s nm) else none := by
  have hval : ∀ e ∈ opsAttrs (attrOps c) (mkLabel c.A_id a) (mkLabel c.B_id b) s,
      e.1 = nm → e.2 = c.get c.A_id c.B_id (a : Int) (b : Int) s nm := by
    intro e he hk
    obtain ⟨op, hop, h1, h2, h3⟩ := mem_opsAttrs he
    obtain ⟨k, hkk, a', b', ha', hb', htr, hform⟩ := (attrOps_mem_iff c hdir hAB op).mp hop
    subst hform
    have e1 := (mkLabel_inj hA hA (congrArg Prod.fst h1)).2
    have e2 := (mkLabel_inj hB hB (congrArg Prod.snd h1)).2
    rw [← h3]
    show c.get c.A_id c.B_id (a' : Int) (b' : Int) k.slot k.name =
      c.get c.A_id c.B_id (a : Int) (b : Int) s nm
    have hnm : k.name = nm := by
      rw [← h3] at hk
      exact hk
    have h2' : k.slot = s := h2
    rw [e1, e2, h2', hnm]
  rw [lastVal_unique_value hval]
  by_cases hc : (∃ k ∈ nonConnKeys c, k.slot = s ∧ k.name = nm) ∧
      pyTruthy (c.get c.A_id c.B_id (a : Int) (b : Int) s nm) = true
  · obtain ⟨⟨k, hkk, hks, hkn⟩, htr⟩ := hc
    have hopmem : ((mkLabel c.A_id a, mkLabel c.B_id b), k.slot, k.name,
        c.get c.A_id c.B_id (a : Int) (b : Int) k.slot k.name) ∈ attrOps c := by
      refine (attrOps_mem_iff c hdir hAB _).mpr ⟨k, hkk, a, b, ha, hb, ?_, rfl⟩
      rw [hks, hkn]
      exact htr
    have hname : nm ∈ (opsAttrs (attrOps c) (mkLabel c.A_id a)
        (mkLabel c.B_id b) s).map Prod.fst := by
      refine (opsAttrs_names _ _ _ _ _).mpr ⟨_, hopmem, rfl, hks, hkn⟩
    obtain ⟨e, he, hee⟩ := List.mem_map.mp hname
    have hcond1 : (∃ k ∈ nonConnKeys c, k.slot = s ∧ k.name = nm) ∧
        pyTruthy (c.get c.A_id c.B_id (a : Int) (b : Int) s nm) = true :=
      ⟨⟨k, hkk, hks, hkn⟩, htr⟩
    rw [if_pos hcond1, if_pos ⟨e, he, hee⟩]
  · rw [if_neg hc]
    have hnex : ¬∃ e ∈ opsAttrs (attrOps c) (mkLabel c.A_id a) (mkLabel c.B_id b) s,
        e.1 = nm := by
      rintro ⟨e, he, hek⟩
      have hname : nm ∈ (opsAttrs (attrOps c) (mkLabel c.A_id a)
          (mkLabel c.B_id b) s).map Prod.fst := hek ▸ List.mem_map_of_mem Prod.fst he
      obtain ⟨op, hop, h1, h2, h3⟩ := (opsAttrs_names _ _ _ _ _).mp hname
      obtain ⟨k, hkk, a', b', ha', hb', htr, hform⟩ := (attrOps_mem_iff c hdir hAB op).mp hop
      subst hform
      have e1 := (mkLabel_inj hA hA (congrArg Prod.fst h1)).2
      have e2 := (mkLabel_inj hB hB (congrArg Prod.snd h1)).2
      refine hc ⟨⟨k, hkk, h2, h3⟩, ?_⟩
      rw [← h3, ← h2, ← e1, ← e2]
      exact htr
    rw [if_neg hnex]

theorem pairKeyO_mkLabel {A B : String} (hA : goodId A) (hB : goodId B) (a b : Nat) :
    pairKeyO (mkLabel A a) (mkLabel B b) = some ((A, (a : Int)), (B, (b : Int))) := by
  rw [pairKeyO, splitLabelO_mkLabel hA, splitLabelO_mkLabel hB]

theorem InjPairs_encode (c : Conn) (hA : goodId c.A_id) (hB : goodId c.B_id)
    (hAB : c.A_id ≠ c.B_id)
    (hck : connKeys c = (List.range c.N_mult).map
      (fun s => (⟨c.A_id, c.B_id, s, "conn"⟩ : DKey)))
    {g : MultiDiGraph} (hinv : attrInv c (attrOps c) g) : InjPairs g := by
  intro p hp q hq he
  obtain ⟨a, b, ha, hb, hpf, _⟩ := pairsOf_mem_form c hA hB hAB hck hinv p hp
  obtain ⟨a', b', ha', hb', hqf, _⟩ := pairsOf_mem_form c hA hB hAB hck hinv q hq
  have hp1 : p.1 = mkLabel c.A_id a := congrArg Prod.fst hpf
  have hp2 : p.2 = mkLabel c.B_id b := congrArg Prod.snd hpf
  have hq1 : q.1 = mkLabel c.A_id a' := congrArg Prod.fst hqf
  have hq2 : q.2 = mkLabel c.B_id b' := congrArg Prod.snd hqf
  rw [hp1, hp2, hq1, hq2, pairKeyO_mkLabel hA hB, pairKeyO_mkLabel hA hB] at he
  injection he with he
  have e1 : (a : Int) = (a' : Int) := congrArg (fun t => t.1.2) he
  have e2 : (b : Int) = (b' : Int) := congrArg (fun t => t.2.2) he
  have ea : a = a' := by exact_mod_cast e1
  have eb : b = b' := by exact_mod_cast e2
  rw [hpf, hqf, ea, eb]

theorem findProc_encode_none (c : Conn) (hA : goodId c.A_id) (hB : goodId c.B_id)
    (hAB : c.A_id ≠ c.B_id)
    (hck : connKeys c = (List.range c.N_mult).map
      (fun s => (⟨c.A_id, c.B_id, s, "conn"⟩ : DKey)))
    {g : MultiDiGraph} (hinv : attrInv c (attrOps c) g)
    {src dest : String} {i j : Int}
    (hno : ∀ a b : Nat, a < c.N_A → b < c.N_B → 0 < flagCnt c a b →
      ¬(src = c.A_id ∧ i = (a : Int) ∧ dest = c.B_id ∧ j = (b : Int))) :
    findProc g.edges src i dest j = none := by
  rw [findProc]
  have hfind : g.edges.find? (fun e => decide (splitLabelO e.1 = some (src, i) ∧
      splitLabelO e.2.1 = some (dest, j))) = none := by
    rw [List.find?_eq_none]
    intro e he
    simp only [decide_eq_true_eq]
    rintro ⟨hp1, hp2⟩
    obtain ⟨a, b, ha, hb, he1, he2, hcnt⟩ := edges_mem_form c hA hB hAB hck hinv e he
    rw [he1, splitLabelO_mkLabel hA] at hp1
    rw [he2, splitLabelO_mkLabel hB] at hp2
    injection hp1 with hp1
    injection hp2 with hp2
    have h1 := congrArg Prod.fst hp1
    have h2 := congrArg Prod.snd hp1
    have h3 := congrArg Prod.fst hp2
    have h4 := congrArg Prod.snd hp2
    exact hno a b ha hb hcnt ⟨h1.symm, h2.symm, h3.symm, h4.symm⟩
  rw [hfind]
  rfl

theorem get_intV0_of_src_ne (c : Conn)
    (hck : connKeys c = (List.range c.N_mult).map
      (fun s => (⟨c.A_id, c.B_id, s, "conn"⟩ : DKey)))
    (hdir : ∀ k ∈ nonConnKeys c, k.src = c.A_id ∧ k.dest = c.B_id)
    {src dest : String} (h : ¬(src = c.A_id ∧ dest = c.B_id))
    (i j : Int) (s : Nat) (name : String) :
    c.get src dest i j s name = .intV 0 := by
  rw [Conn.get]
  apply datGet_absent
  intro e he hk
  have hform := dat_keys_form c hck hdir e.1 (List.mem_map_of_mem _ he)
  rw [hk] at hform
  exact h ⟨hform.1, hform.2⟩

theorem get_intV0_of_coord (c : Conn)
    (hinrange : ∀ e ∈ c.dat, ∀ pv ∈ e.2, ∃ a, a < c.N_A ∧ pv.1.1 = (a : Int) ∧
      ∃ b, b < c.N_B ∧ pv.1.2 = (b : Int))
    {i j : Int}
    (h : ¬((∃ a : Nat, a < c.N_A ∧ i = (a : Int)) ∧
      (∃ b : Nat, b < c.N_B ∧ j = (b : Int))))
    (src dest : String) (s : Nat) (name : String) :
    c.get src dest i j s name = .intV 0 := by
  rw [Conn.get, datGet]
  cases hf : c.dat.find? (fun e => e.1 = (⟨src, dest, s, name⟩ : DKey)) with
  | none => rfl
  | some e =>
    have he := List.mem_of_find?_eq_some hf
    apply pairsLookup_absent
    intro pv hpv hpe
    obtain ⟨a, ha, hia, b, hb, hjb⟩ := hinrange e he pv hpv
    have h1 : pv.1.1 = i := congrArg Prod.fst hpe
    have h2 : pv.1.2 = j := congrArg Prod.snd hpe
    exact h ⟨⟨a, ha, by rw [← h1, hia]⟩, ⟨b, hb, by rw [← h2, hjb]⟩⟩

theorem enumFrom_mem_snd {α : Type} :
    ∀ (n : Nat) (l : List α) (t : Nat × α), t ∈ l.enumFrom n → t.2 ∈ l := by
  intro n l
  induction l generalizing n with
  | nil =>
    intro t ht
    exact absurd ht (List.not_mem_nil t)
  | cons a rest ih =>
    intro t ht
    rcases List.mem_cons.mp ht with h1 | h1
    · rw [h1]
      exact List.mem_cons_self _ _
    · exact List.mem_cons_of_mem _ (ih (n + 1) t h1)

theorem enum_mem_snd {α : Type} {l : List α} {t : Nat × α} (h : t ∈ l.enum) : t.2 ∈ l :=
  enumFrom_mem_snd 0 l t h

theorem get_zero_of_no_attr_key (c : Conn) {s : Nat} {name : String}
    (hnm : name ≠ "conn")
    (hkex : ¬ ∃ k ∈ nonConnKeys c, k.slot = s ∧ k.name = name)
    (src dest : String) (i j : Int) :
    c.get src dest i j s name = .intV 0 := by
  rw [Conn.get]
  apply datGet_absent
  intro e he hk
  have hmem : e.1 ∈ nonConnKeys c := by
    rw [nonConnKeys]
    refine List.mem_filter.mpr ⟨List.mem_map_of_mem Prod.fst he, ?_⟩
    rw [hk]
    simp [hnm]
  exact hkex ⟨e.1, hmem, by rw [hk], by rw [hk]⟩

theorem get_unflagged_zero (c : Conn)
    (hck : connKeys c = (List.range c.N_mult).map
      (fun s => (⟨c.A_id, c.B_id, s, "conn"⟩ : DKey)))
    (hdown : ∀ i, i < c.N_A → ∀ j, j < c.N_B → ∀ s, s < c.N_mult → ∀ t, t < s →
      pyEqOne (c.get c.A_id c.B_id (i : Int) (j : Int) s "conn") = true →
      pyEqOne (c.get c.A_id c.B_id (i : Int) (j : Int) t "conn") = true)
    (hval01 : ∀ i, i < c.N_A → ∀ j, j < c.N_B → ∀ s, s < c.N_mult →
      c.get c.A_id c.B_id (i : Int) (j : Int) s "conn" = .intV 0 ∨
      c.get c.A_id c.B_id (i : Int) (j : Int) s "conn" = .intV 1)
    (hstab : ∀ k ∈ nonConnKeys c, ∀ i, i < c.N_A → ∀ j, j < c.N_B →
      (pyTruthy (c.get c.A_id c.B_id (i : Int) (j : Int) k.slot k.name) = true →
        coerceParam k.name (c.get c.A_id c.B_id (i : Int) (j : Int) k.slot k.name) =
          .ok (c.get c.A_id c.B_id (i : Int) (j : Int) k.slot k.name)) ∧
      (pyTruthy (c.get c.A_id c.B_id (i : Int) (j : Int) k.slot k.name) = false →
        c.get c.A_id c.B_id (i : Int) (j : Int) k.slot k.name = .intV 0))
    (hnoorph : ∀ k ∈ nonConnKeys c, ∀ i, i < c.N_A → ∀ j, j < c.N_B →
      pyTruthy (c.get c.A_id c.B_id (i : Int) (j : Int) k.slot k.name) = true →
      pyEqOne (c.get c.A_id c.B_id (i : Int) (j : Int) k.slot "conn") = true)
    {a b : Nat} (ha : a < c.N_A) (hb : b < c.N_B) {s : Nat} {name : String}
    (hs : ¬ s < flagCnt c a b) :
    c.get c.A_id c.B_id (a : Int) (b : Int) s name = .intV 0 := by
  by_cases hnm : name = "conn"
  · subst hnm
    by_cases hsm : s < c.N_mult
    · have hfl : ¬ pyEqOne (c.get c.A_id c.B_id (a : Int) (b : Int) s "conn") = true :=
        fun ht => hs ((flag_iff_lt_flagCnt c hck (hdown a ha b hb) s).mp ht)
      rcases hval01 a ha b hb s hsm with h0 | h1
      · exact h0
      · rw [h1] at hfl
        exact absurd (by decide) hfl
    · exact get_conn_ge_nmult c hck (Nat.le_of_not_lt hsm)
  · by_cases hkex : ∃ k ∈ nonConnKeys c, k.slot = s ∧ k.name = name
    · obtain ⟨k, hk, hks, hkn⟩ := hkex
      have htru : ¬ pyTruthy (c.get c.A_id c.B_id (a : Int) (b : Int) s name) = true := by
        intro ht
        have h2 := hnoorph k hk a ha b hb (by rw [hks, hkn]; exact ht)
        rw [hks] at h2
        exact hs ((flag_iff_lt_flagCnt c hck (hdown a ha b hb) s).mp h2)
      have hf : pyTruthy (c.get c.A_id c.B_id (a : Int) (b : Int) s name) = false := by
        cases hbv : pyTruthy (c.get c.A_id c.B_id (a : Int) (b : Int) s name) with
        | false => rfl
        | true => exact absurd hbv htru
      have hst := (hstab k hk a ha b hb).2
      rw [hks, hkn] at hst
      exact hst hf
    · exact get_zero_of_no_attr_key c hnm hkex _ _ _ _

theorem encode_good_of_noorph (c : Conn) (hA : goodId c.A_id) (hB : goodId c.B_id)
    (hAB : c.A_id ≠ c.B_id)
    (hck : connKeys c = (List.range c.N_mult).map
      (fun s => (⟨c.A_id, c.B_id, s, "conn"⟩ : DKey)))
    (hdir : ∀ k ∈ nonConnKeys c, k.src = c.A_id ∧ k.dest = c.B_id)
    (hdown : ∀ i, i < c.N_A → ∀ j, j < c.N_B → ∀ s, s < c.N_mult → ∀ t, t < s →
      pyEqOne (c.get c.A_id c.B_id (i : Int) (j : Int) s "conn") = true →
      pyEqOne (c.get c.A_id c.B_id (i : Int) (j : Int) t "conn") = true)
    (hnoorph : ∀ k ∈ nonConnKeys c, ∀ i, i < c.N_A → ∀ j, j < c.N_B →
      pyTruthy (c.get c.A_id c.B_id (i : Int) (j : Int) k.slot k.name) = true →
      pyEqOne (c.get c.A_id c.B_id (i : Int) (j : Int) k.slot "conn") = true) :
    ∀ op ∈ attrOps c, op.2.1 < pairOpsCnt c op.1.1 op.1.2 := by
  intro op hop
  obtain ⟨k, hk, i, j, hi, hj, htr, hform⟩ := (attrOps_mem_iff c hdir hAB op).mp hop
  subst hform
  show k.slot < pairOpsCnt c (mkLabel c.A_id i) (mkLabel c.B_id j)
  rw [pairOpsCnt_eq c hA hB hAB hck hi hj]
  exact (flag_iff_lt_flagCnt c hck (hdown i hi j hj) k.slot).mp (hnoorph k hk i hi j hj htr)

theorem encode_edges_coerce (c : Conn) (hA : goodId c.A_id) (hB : goodId c.B_id)
    (hAB : c.A_id ≠ c.B_id)
    (hck : connKeys c = (List.range c.N_mult).map
      (fun s => (⟨c.A_id, c.B_id, s, "conn"⟩ : DKey)))
    (hdir : ∀ k ∈ nonConnKeys c, k.src = c.A_id ∧ k.dest = c.B_id)
    (hstab : ∀ k ∈ nonConnKeys c, ∀ i, i < c.N_A → ∀ j, j < c.N_B →
      (pyTruthy (c.get c.A_id c.B_id (i : Int) (j : Int) k.slot k.name) = true →
        coerceParam k.name (c.get c.A_id c.B_id (i : Int) (j : Int) k.slot k.name) =
          .ok (c.get c.A_id c.B_id (i : Int) (j : Int) k.slot k.name)) ∧
      (pyTruthy (c.get c.A_id c.B_id (i : Int) (j : Int) k.slot k.name) = false →
        c.get c.A_id c.B_id (i : Int) (j : Int) k.slot k.name = .intV 0))
    {g : MultiDiGraph} (hinv : attrInv c (attrOps c) g) :
    ∀ e ∈ g.edges, (∃ pa, splitLabel e.1 = .ok pa) ∧
      (∃ pb, splitLabel e.2.1 = .ok pb) ∧
      ∀ t ∈ (keydict g e.1 e.2.1).enum, ∀ nv ∈ t.2.2,
        ∃ w, coerceParam nv.1 nv.2 = .ok w := by
  intro e he
  obtain ⟨a, b, ha, hb, he1, he2, hcnt⟩ := edges_mem_form c hA hB hAB hck hinv e he
  refine ⟨⟨(c.A_id, (a : Int)),
      by rw [he1]; exact splitLabel_ok_iff.mpr (splitLabelO_mkLabel hA a)⟩,
    ⟨(c.B_id, (b : Int)),
      by rw [he2]; exact splitLabel_ok_iff.mpr (splitLabelO_mkLabel hB b)⟩, ?_⟩
  intro t ht nv hnv
  have ht2 : t.2 ∈ keydict g e.1 e.2.1 := enum_mem_snd ht
  rw [hinv e.1 e.2.1] at ht2
  obtain ⟨s', hs', hform⟩ := List.mem_map.mp ht2
  have hsnd : t.2.2 = opsAttrs (attrOps c) e.1 e.2.1 s' := by
    rw [← hform]
  rw [hsnd] at hnv
  obtain ⟨op, hop, h1, h2, h3⟩ := mem_opsAttrs hnv
  obtain ⟨k, hk, i0, j0, hi0, hj0, htr, hopf⟩ := (attrOps_mem_iff c hdir hAB op).mp hop
  subst hopf
  have hnv1 : nv.1 = k.name := by
    rw [← h3]
  have hnv2 : nv.2 = c.get c.A_id c.B_id (i0 : Int) (j0 : Int) k.slot k.name := by
    rw [← h3]
  rw [hnv1, hnv2]
  exact ⟨_, (hstab k hk i0 hi0 j0 hj0).1 htr⟩

theorem charQuery_encode (c : Conn) (hA : goodId c.A_id) (hB : goodId c.B_id)
    (hAB : c.A_id ≠ c.B_id)
    (hck : connKeys c = (List.range c.N_mult).map
      (fun s => (⟨c.A_id, c.B_id, s, "conn"⟩ : DKey)))
    (hdir : ∀ k ∈ nonConnKeys c, k.src = c.A_id ∧ k.dest = c.B_id)
    (hdown : ∀ i, i < c.N_A → ∀ j, j < c.N_B → ∀ s, s < c.N_mult → ∀ t, t < s →
      pyEqOne (c.get c.A_id c.B_id (i : Int) (j : Int) s "conn") = true →
      pyEqOne (c.get c.A_id c.B_id (i : Int) (j : Int) t "conn") = true)
    (hval01 : ∀ i, i < c.N_A → ∀ j, j < c.N_B → ∀ s, s < c.N_mult →
      c.get c.A_id c.B_id (i : Int) (j : Int) s "conn" = .intV 0 ∨
      c.get c.A_id c.B_id (i : Int) (j : Int) s "conn" = .intV 1)
    (hstab : ∀ k ∈ nonConnKeys c, ∀ i, i < c.N_A → ∀ j, j < c.N_B →
      (pyTruthy (c.get c.A_id c.B_id (i : Int) (j : Int) k.slot k.name) = true →
        coerceParam k.name (c.get c.A_id c.B_id (i : Int) (j : Int) k.slot k.name) =
          .ok (c.get c.A_id c.B_id (i : Int) (j : Int) k.slot k.name)) ∧
      (pyTruthy (c.get c.A_id c.B_id (i : Int) (j : Int) k.slot k.name) = false →
        c.get c.A_id c.B_id (i : Int) (j : Int) k.slot k.name = .intV 0))
    (hnoorph : ∀ k ∈ nonConnKeys c, ∀ i, i < c.N_A → ∀ j, j < c.N_B →
      pyTruthy (c.get c.A_id c.B_id (i : Int) (j : Int) k.slot k.name) = true →
      pyEqOne (c.get c.A_id c.B_id (i : Int) (j : Int) k.slot "conn") = true)
    (hinrange : ∀ e ∈ c.dat, ∀ pv ∈ e.2, ∃ a, a < c.N_A ∧ pv.1.1 = (a : Int) ∧
      ∃ b, b < c.N_B ∧ pv.1.2 = (b : Int))
    {g : MultiDiGraph} (hinv : attrInv c (attrOps c) g) :
    ∀ (src dest : String) (i j : Int) (s : Nat) (name : String),
      charQuery g g.edges src i dest j s name = c.get src dest i j s name := by
  have hinjP := InjPairs_encode c hA hB hAB hck hinv
  intro src dest i j s name
  by_cases hcase : ∃ a, a < c.N_A ∧ i = (a : Int) ∧ ∃ b, b < c.N_B ∧ j = (b : Int) ∧
      src = c.A_id ∧ dest = c.B_id ∧ 0 < flagCnt c a b
  · obtain ⟨a, ha, hia, b, hb, hjb, hsrc, hdest, hcnt⟩ := hcase
    subst hia
    subst hjb
    subst hsrc
    subst hdest
    have hkd : keydict g (mkLabel c.A_id a) (mkLabel c.B_id b) =
        (List.range (flagCnt c a b)).map
          (fun t => (t, opsAttrs (attrOps c) (mkLabel c.A_id a) (mkLabel c.B_id b) t)) := by
      rw [hinv, pairOpsCnt_eq c hA hB hAB hck ha hb]
    have hlen : (keydict g (mkLabel c.A_id a) (mkLabel c.B_id b)).length = flagCnt c a b := by
      rw [hkd, List.length_map, List.length_range]
    have hne : keydict g (mkLabel c.A_id a) (mkLabel c.B_id b) ≠ [] := by
      intro hnil
      rw [hnil] at hlen
      simp only [List.length_nil] at hlen
      omega
    have hp : (mkLabel c.A_id a, mkLabel c.B_id b) ∈ pairsOf g := mem_pairs_of_keydict hne
    have hfp : findProc g.edges c.A_id (a : Int) c.B_id (b : Int) =
        some (mkLabel c.A_id a, mkLabel c.B_id b) :=
      findProc_of_pair hinjP hp (splitLabelO_mkLabel hA a) (splitLabelO_mkLabel hB b)
    rw [charQuery_some s name hfp]
    simp only [charPair]
    by_cases hs : s < flagCnt c a b
    · have hgd : (keydict g (mkLabel c.A_id a) (mkLabel c.B_id b)).getD s (0, []) =
          (s, opsAttrs (attrOps c) (mkLabel c.A_id a) (mkLabel c.B_id b) s) := by
        rw [hkd, List.getD_eq_getElem _ _
          (by rw [List.length_map, List.length_range]; exact hs),
          List.getElem_map, List.getElem_range]
      have hslen : s < (keydict g (mkLabel c.A_id a) (mkLabel c.B_id b)).length := by
        rw [hlen]
        exact hs
      rw [if_pos hslen, hgd]
      show (match lastVal (opsAttrs (attrOps c) (mkLabel c.A_id a) (mkLabel c.B_id b) s)
          name with
        | some v0 => totalCoerce name v0
        | none => if name = "conn" then Val.intV 1 else Val.intV 0) =
        c.get c.A_id c.B_id (a : Int) (b : Int) s name
      rw [opsAttrs_lastVal c hA hB hAB hdir ha hb s name]
      by_cases hcond : (∃ k ∈ nonConnKeys c, k.slot = s ∧ k.name = name) ∧
          pyTruthy (c.get c.A_id c.B_id (a : Int) (b : Int) s name) = true
      · rw [if_pos hcond]
        obtain ⟨⟨k, hk, hks, hkn⟩, htru⟩ := hcond
        have hst := (hstab k hk a ha b hb).1
        rw [hks, hkn] at hst
        have hco := hst htru
        show totalCoerce name (c.get c.A_id c.B_id (a : Int) (b : Int) s name) =
          c.get c.A_id c.B_id (a : Int) (b : Int) s name
        rw [totalCoerce, hco]
      · rw [if_neg hcond]
        by_cases hnm : name = "conn"
        · subst hnm
          show (if ("conn" : String) = "conn" then Val.intV 1 else Val.intV 0) =
            c.get c.A_id c.B_id (a : Int) (b : Int) s "conn"
          rw [if_pos rfl]
          have hfl := (flag_iff_lt_flagCnt c hck (hdown a ha b hb) s).mpr hs
          rcases hval01 a ha b hb s (lt_of_lt_of_le hs (flagCnt_le_nmult c a b)) with h0 | h1
          · rw [h0] at hfl
            exact absurd hfl (by decide)
          · rw [h1]
        · show (if name = "conn" then Val.intV 1 else Val.intV 0) =
            c.get c.A_id c.B_id (a : Int) (b : Int) s name
          rw [if_neg hnm]
          by_cases hkex : ∃ k ∈ nonConnKeys c, k.slot = s ∧ k.name = name
          · obtain ⟨k, hk, hks, hkn⟩ := hkex
            have htru : ¬ pyTruthy (c.get c.A_id c.B_id (a : Int) (b : Int) s name) = true :=
              fun ht => hcond ⟨⟨k, hk, hks, hkn⟩, ht⟩
            have hf : pyTruthy (c.get c.A_id c.B_id (a : Int) (b : Int) s name) = false := by
              cases hbv : pyTruthy (c.get c.A_id c.B_id (a : Int) (b : Int) s name) with
              | false => rfl
              | true => exact absurd hbv htru
            have hst := (hstab k hk a ha b hb).2
            rw [hks, hkn] at hst
            rw [hst hf]
          · rw [get_zero_of_no_attr_key c hnm hkex _ _ _ _]
    · have hslen : ¬ s < (keydict g (mkLabel c.A_id a) (mkLabel c.B_id b)).length := by
        rw [hlen]
        exact hs
      rw [if_neg hslen]
      rw [get_unflagged_zero c hck hdown hval01 hstab hnoorph ha hb hs]
  · have hfp : findProc g.edges src i dest j = none := by
      refine findProc_encode_none c hA hB hAB hck hinv ?_
      rintro a b ha hb hcnt ⟨h1, h2, h3, h4⟩
      exact hcase ⟨a, ha, h2, b, hb, h4, h1, h3, hcnt⟩
    rw [charQuery_none s name hfp]
    by_cases hsd : src = c.A_id ∧ dest = c.B_id
    · obtain ⟨h1, h2⟩ := hsd
      subst h1
      subst h2
      by_cases hco : (∃ a : Nat, a < c.N_A ∧ i = (a : Int)) ∧
          (∃ b : Nat, b < c.N_B ∧ j = (b : Int))
      · obtain ⟨⟨a, ha, hia⟩, ⟨b, hb, hjb⟩⟩ := hco
        subst hia
        subst hjb
        have hcnt : ¬ s < flagCnt c a b := by
          intro hlt
          exact hcase ⟨a, ha, rfl, b, hb, rfl, rfl, rfl, Nat.lt_of_le_of_lt (Nat.zero_le s) hlt⟩
        rw [get_unflagged_zero c hck hdown hval01 hstab hnoorph ha hb hcnt]
      · rw [get_intV0_of_coord c hinrange hco _ _ _ _]
    · rw [get_intV0_of_src_ne c hck hdir hsd _ _ _ _]

theorem graph_to_conn_run (g : MultiDiGraph) (ty : Bool) (aid : String) (sa : List Int)
    (bid : String) (sb : List Int) (tc : (Nat × Nat) × Nat × Nat)
    (hbi : isBipartiteStruct g = true)
    (hbnd : buildNodeDict g.nodes = .ok [(aid, sa), (bid, sb)])
    (hca : consecutiveB sa = true) (hcb : consecutiveB sb = true)
    (htc : (if ty then typedCounts g aid sa bid sb
            else .ok ((0, 0), (0, 0))) = .ok tc)
    (hpne : ¬ pairsOf g = []) :
    graph_to_conn g ty = decodeEdges g g.edges
      (if ty then
        ⟨aid, bid, tc.1.1 + tc.1.2, tc.2.1 + tc.2.2, maxMult g, true,
          tc.1.1, tc.1.2, tc.2.1, tc.2.2, defaultTranslate aid tc.1.1 tc.2.1, []⟩
       else
        ⟨aid, bid, sa.length, sb.length, maxMult g, false, 0, 0, 0, 0,
          fun _ _ i => i, []⟩) := by
  rw [graph_to_conn, hbi, hbnd]
  simp only [Bool.not_true, Bool.false_eq_true, if_false, hca, hcb, Bool.and_self,
    htc, if_neg hpne]

theorem decode_encode_ok (c : Conn) (hA : goodId c.A_id) (hB : goodId c.B_id)
    (hAB : c.A_id ≠ c.B_id)
    (hNA : 1 ≤ c.N_A) (hNB : 1 ≤ c.N_B) (hNm : 1 ≤ c.N_mult)
    (hck : connKeys c = (List.range c.N_mult).map
      (fun s => (⟨c.A_id, c.B_id, s, "conn"⟩ : DKey)))
    (hdir : ∀ k ∈ nonConnKeys c, k.src = c.A_id ∧ k.dest = c.B_id)
    (hdown : ∀ i, i < c.N_A → ∀ j, j < c.N_B → ∀ s, s < c.N_mult → ∀ t, t < s →
      pyEqOne (c.get c.A_id c.B_id (i : Int) (j : Int) s "conn") = true →
      pyEqOne (c.get c.A_id c.B_id (i : Int) (j : Int) t "conn") = true)
    (hval01 : ∀ i, i < c.N_A → ∀ j, j < c.N_B → ∀ s, s < c.N_mult →
      c.get c.A_id c.B_id (i : Int) (j : Int) s "conn" = .intV 0 ∨
      c.get c.A_id c.B_id (i : Int) (j : Int) s "conn" = .intV 1)
    (hstab : ∀ k ∈ nonConnKeys c, ∀ i, i < c.N_A → ∀ j, j < c.N_B →
      (pyTruthy (c.get c.A_id c.B_id (i : Int) (j : Int) k.slot k.name) = true →
        coerceParam k.name (c.get c.A_id c.B_id (i : Int) (j : Int) k.slot k.name) =
          .ok (c.get c.A_id c.B_id (i : Int) (j : Int) k.slot k.name)) ∧
      (pyTruthy (c.get c.A_id c.B_id (i : Int) (j : Int) k.slot k.name) = false →
        c.get c.A_id c.B_id (i : Int) (j : Int) k.slot k.name = .intV 0))
    (hnoorph : ∀ k ∈ nonConnKeys c, ∀ i, i < c.N_A → ∀ j, j < c.N_B →
      pyTruthy (c.get c.A_id c.B_id (i : Int) (j : Int) k.slot k.name) = true →
      pyEqOne (c.get c.A_id c.B_id (i : Int) (j : Int) k.slot "conn") = true)
    (hinrange : ∀ e ∈ c.dat, ∀ pv ∈ e.2, ∃ a, a < c.N_A ∧ pv.1.1 = (a : Int) ∧
      ∃ b, b < c.N_B ∧ pv.1.2 = (b : Int))
    (hfull : ∃ i, i < c.N_A ∧ ∃ j, j < c.N_B ∧
      pyEqOne (c.get c.A_id c.B_id (i : Int) (j : Int) (c.N_mult - 1) "conn") = true)
    (htrA : c.typed = true →
      (∀ a, a < c.N_A_gpot → ∀ b, b < c.N_A_gpot →
        c.idxTranslate c.A_id "gpot" a = c.idxTranslate c.A_id "gpot" b → a = b) ∧
      (∀ k, k < c.N_A_gpot → c.idxTranslate c.A_id "gpot" k < c.N_A) ∧
      (∀ a, a < c.N_A_spike → ∀ b, b < c.N_A_spike →
        c.idxTranslate c.A_id "spike" a = c.idxTranslate c.A_id "spike" b → a = b) ∧
      (∀ k, k < c.N_A_spike → c.idxTranslate c.A_id "spike" k < c.N_A) ∧
      (∀ n, n < c.N_A →
        (∃ k, k < c.N_A_gpot ∧ c.idxTranslate c.A_id "gpot" k = n) ∨
        (∃ k, k < c.N_A_spike ∧ c.idxTranslate c.A_id "spike" k = n)) ∧
      (∀ k, k < c.N_A_gpot → ∀ k', k' < c.N_A_spike →
        c.idxTranslate c.A_id "gpot" k ≠ c.idxTranslate c.A_id "spike" k'))
    (htrB : c.typed = true →
      (∀ a, a < c.N_B_gpot → ∀ b, b < c.N_B_gpot →
        c.idxTranslate c.B_id "gpot" a = c.idxTranslate c.B_id "gpot" b → a = b) ∧
      (∀ k, k < c.N_B_gpot → c.idxTranslate c.B_id "gpot" k < c.N_B) ∧
      (∀ a, a < c.N_B_spike → ∀ b, b < c.N_B_spike →
        c.idxTranslate c.B_id "spike" a = c.idxTranslate c.B_id "spike" b → a = b) ∧
      (∀ k, k < c.N_B_spike → c.idxTranslate c.B_id "spike" k < c.N_B) ∧
      (∀ n, n < c.N_B →
        (∃ k, k < c.N_B_gpot ∧ c.idxTranslate c.B_id "gpot" k = n) ∨
        (∃ k, k < c.N_B_spike ∧ c.idxTranslate c.B_id "spike" k = n)) ∧
      (∀ k, k < c.N_B_gpot → ∀ k', k' < c.N_B_spike →
        c.idxTranslate c.B_id "gpot" k ≠ c.idxTranslate c.B_id "spike" k')) :
    ∃ g, conn_to_graph c = .ok g ∧ ∃ c', graph_to_conn g c.typed = .ok c' ∧
      c'.A_id = c.A_id ∧ c'.B_id = c.B_id ∧ c'.N_A = c.N_A ∧ c'.N_B = c.N_B ∧
      c'.N_mult = c.N_mult ∧ c'.typed = c.typed ∧
      (c.typed = true → c'.N_A_gpot = c.N_A_gpot ∧ c'.N_A_spike = c.N_A_spike ∧
        c'.N_B_gpot = c.N_B_gpot ∧ c'.N_B_spike = c.N_B_spike) ∧
      ∀ (src dest : String) (i j : Int) (s : Nat) (name : String),
        c'.get src dest i j s name = c.get src dest i j s name := by
  obtain ⟨g, hok, hinv⟩ := conn_to_graph_ok_char c
    (encode_good_of_noorph c hA hB hAB hck hdir hdown hnoorph)
  refine ⟨g, hok, ?_⟩
  have hbi := encode_bipartite c hA hB hAB hck hok hinv
  have hnodes := conn_to_graph_nodes hok
  have hbnd : buildNodeDict g.nodes = .ok
      [(c.A_id, (List.range c.N_A).map (fun t : Nat => (t : Int))),
       (c.B_id, (List.range c.N_B).map (fun t : Nat => (t : Int)))] := by
    rw [hnodes]
    exact buildNodeDict_encode c hA hB hAB hNA hNB
  have hcA := consecutiveB_range c.N_A hNA
  have hcB := consecutiveB_range c.N_B hNB
  have hpne : ¬ pairsOf g = [] := by
    obtain ⟨i0, hi0, j0, hj0, hflag⟩ := hfull
    have hcnt0 : 0 < flagCnt c i0 j0 := by
      have := (flag_iff_lt_flagCnt c hck (hdown i0 hi0 j0 hj0) (c.N_mult - 1)).mp hflag
      omega
    have hkd0 : keydict g (mkLabel c.A_id i0) (mkLabel c.B_id j0) ≠ [] := by
      rw [hinv, pairOpsCnt_eq c hA hB hAB hck hi0 hj0]
      intro hnil
      have hlen := congrArg List.length hnil
      rw [List.length_map, List.length_range, List.length_nil] at hlen
      omega
    intro hnil
    exact absurd (hnil ▸ mem_pairs_of_keydict hkd0) (List.not_mem_nil _)
  have hmm := encode_maxMult c hA hB hAB hck hinv hNm hdown hfull
  have hgetchar := charQuery_encode c hA hB hAB hck hdir hdown hval01 hstab hnoorph
    hinrange hinv
  have hinjP := InjPairs_encode c hA hB hAB hck hinv
  have hcoerce := encode_edges_coerce c hA hB hAB hck hdir hstab hinv
  by_cases hty : c.typed = true
  · obtain ⟨hinjGA, himgGA, hinjSA, himgSA, hcovA, hdisA⟩ := htrA hty
    obtain ⟨hinjGB, himgGB, hinjSB, himgSB, hcovB, hdisB⟩ := htrB hty
    have htc := typedCounts_encode c g hok hty hA hB hAB hinjGA himgGA hinjSA himgSA
      hcovA hdisA hinjGB himgGB hinjSB himgSB hcovB hdisB
    have hNAsum : c.N_A_gpot + c.N_A_spike = c.N_A :=
      cover_sum hinjGA himgGA hinjSA himgSA hcovA hdisA
    have hNBsum : c.N_B_gpot + c.N_B_spike = c.N_B :=
      cover_sum hinjGB himgGB hinjSB himgSB hcovB hdisB
    obtain ⟨c', hde⟩ := decodeEdges_ok_of hcoerce g.edges (fun _ he => he)
      ⟨c.A_id, c.B_id, c.N_A_gpot + c.N_A_spike, c.N_B_gpot + c.N_B_spike, maxMult g,
        true, c.N_A_gpot, c.N_A_spike, c.N_B_gpot, c.N_B_spike,
        defaultTranslate c.A_id c.N_A_gpot c.N_B_gpot, []⟩
    have hrun : graph_to_conn g c.typed = .ok c' := by
      rw [graph_to_conn_run g c.typed c.A_id
        ((List.range c.N_A).map (fun t : Nat => (t : Int))) c.B_id
        ((List.range c.N_B).map (fun t : Nat => (t : Int)))
        ((c.N_A_gpot, c.N_A_spike), (c.N_B_gpot, c.N_B_spike)) hbi hbnd hcA hcB
        (by rw [if_pos hty]; exact htc) hpne]
      rw [if_pos hty]
      exact hde
    have hshape := decodeEdges_shape hde
    refine ⟨c', hrun, ?_, ?_, ?_, ?_, ?_, ?_, ?_, ?_⟩
    · exact congrArg (fun t => t.1) hshape
    · exact congrArg (fun t => t.2.1) hshape
    · exact (congrArg (fun t => t.2.2.1) hshape).trans hNAsum
    · exact (congrArg (fun t => t.2.2.2.1) hshape).trans hNBsum
    · exact (congrArg (fun t => t.2.2.2.2.1) hshape).trans hmm
    · exact (congrArg (fun t => t.2.2.2.2.2.1) hshape).trans hty.symm
    · intro _
      exact ⟨congrArg (fun t => t.2.2.2.2.2.2.1) hshape,
        congrArg (fun t => t.2.2.2.2.2.2.2.1) hshape,
        congrArg (fun t => t.2.2.2.2.2.2.2.2.1) hshape,
        congrArg (fun t => t.2.2.2.2.2.2.2.2.2) hshape⟩
    · intro src dest i j s name
      rw [decode_get_char hrun hinjP, hgetchar]
  · have hty' : c.typed = false := by
      cases hbv : c.typed with
      | false => rfl
      | true => exact absurd hbv hty
    obtain ⟨c', hde⟩ := decodeEdges_ok_of hcoerce g.edges (fun _ he => he)
      ⟨c.A_id, c.B_id, ((List.range c.N_A).map (fun t : Nat => (t : Int))).length,
        ((List.range c.N_B).map (fun t : Nat => (t : Int))).length, maxMult g, false,
        0, 0, 0, 0, fun _ _ i => i, []⟩
    have hrun : graph_to_conn g c.typed = .ok c' := by
      rw [graph_to_conn_run g c.typed c.A_id
        ((List.range c.N_A).map (fun t : Nat => (t : Int))) c.B_id
        ((List.range c.N_B).map (fun t : Nat => (t : Int)))
        ((0, 0), (0, 0)) hbi hbnd hcA hcB (by rw [if_neg hty]) hpne]
      rw [if_neg hty]
      exact hde
    have hshape := decodeEdges_shape hde
    have hlenA : ((List.range c.N_A).map (fun t : Nat => (t : Int))).length = c.N_A := by
      rw [List.length_map, List.length_range]
    have hlenB : ((List.range c.N_B).map (fun t : Nat => (t : Int))).length = c.N_B := by
      rw [List.length_map, List.length_range]
    refine ⟨c', hrun, ?_, ?_, ?_, ?_, ?_, ?_, ?_, ?_⟩
    · exact congrArg (fun t => t.1) hshape
    · exact congrArg (fun t => t.2.1) hshape
    · exact (congrArg (fun t => t.2.2.1) hshape).trans hlenA
    · exact (congrArg (fun t => t.2.2.2.1) hshape).trans hlenB
    · exact (congrArg (fun t => t.2.2.2.2.1) hshape).trans hmm
    · exact (congrArg (fun t => t.2.2.2.2.2.1) hshape).trans hty'.symm
    · intro h
      exact absurd h hty
    · intro src dest i j s name
      rw [decode_get_char hrun hinjP, hgetchar]

/-! ### Claim C1 -/

/-- C1 (amended): for a connectivity object whose store lays out its
`"conn"` keys canonically (one per slot, in slot order, direction `A` to
`B`), whose other keys point the same direction, whose coordinates are in
range, whose flags are 0/1-valued and downward closed per pair, whose
non-`"conn"` values are coercion-stable when truthy and zero otherwise
(no orphan attributes), whose top slot is flagged somewhere, and (typed
variant) whose translation tables partition each population: encode
succeeds, decode of the encoded graph succeeds, the population ids, the
sizes, the multiplicity, the typedness and (typed) the per-type counts
agree, and the parameter store of the decoded object equals the original
store pointwise — under downward-closed flags the per-pair slot
renumbering of the codec is the identity, so even slot numbers survive
the round trip.  The claim's universal form is refuted separately: a
well-formed model with no flagged connection encodes to an edgeless graph
on which decode raises the uncaught `ValueError` of `max([])` and yields
no model at all. -/
theorem C1_round_trip_amended (c : Conn) (hA : goodId c.A_id) (hB : goodId c.B_id)
    (hAB : c.A_id ≠ c.B_id)
    (hNA : 1 ≤ c.N_A) (hNB : 1 ≤ c.N_B) (hNm : 1 ≤ c.N_mult)
    (hck : connKeys c = (List.range c.N_mult).map
      (fun s => (⟨c.A_id, c.B_id, s, "conn"⟩ : DKey)))
    (hdir : ∀ k ∈ nonConnKeys c, k.src = c.A_id ∧ k.dest = c.B_id)
    (hdown : ∀ i, i < c.N_A → ∀ j, j < c.N_B → ∀ s, s < c.N_mult → ∀ t, t < s →
      pyEqOne (c.get c.A_id c.B_id (i : Int) (j : Int) s "conn") = true →
      pyEqOne (c.get c.A_id c.B_id (i : Int) (j : Int) t "conn") = true)
    (hval01 : ∀ i, i < c.N_A → ∀ j, j < c.N_B → ∀ s, s < c.N_mult →
      c.get c.A_id c.B_id (i : Int) (j : Int) s "conn" = .intV 0 ∨
      c.get c.A_id c.B_id (i : Int) (j : Int) s "conn" = .intV 1)
    (hstab : ∀ k ∈ nonConnKeys c, ∀ i, i < c.N_A → ∀ j, j < c.N_B →
      (pyTruthy (c.get c.A_id c.B_id (i : Int) (j : Int) k.slot k.name) = true →
        coerceParam k.name (c.get c.A_id c.B_id (i : Int) (j : Int) k.slot k.name) =
          .ok (c.get c.A_id c.B_id (i : Int) (j : Int) k.slot k.name)) ∧
      (pyTruthy (c.get c.A_id c.B_id (i : Int) (j : Int) k.slot k.name) = false →
        c.get c.A_id c.B_id (i : Int) (j : Int) k.slot k.name = .intV 0))
    (hnoorph : ∀ k ∈ nonConnKeys c, ∀ i, i < c.N_A → ∀ j, j < c.N_B →
      pyTruthy (c.get c.A_id c.B_id (i : Int) (j : Int) k.slot k.name) = true →
      pyEqOne (c.get c.A_id c.B_id (i : Int) (j : Int) k.slot "conn") = true)
    (hinrange : ∀ e ∈ c.dat, ∀ pv ∈ e.2, 0 ≤ pv.1.1 ∧ pv.1.1 < (c.N_A : Int) ∧
      0 ≤ pv.1.2 ∧ pv.1.2 < (c.N_B : Int))
    (hfull : ∃ i, i < c.N_A ∧ ∃ j, j < c.N_B ∧
      pyEqOne (c.get c.A_id c.B_id (i : Int) (j : Int) (c.N_mult - 1) "conn") = true)
    (htrA : c.typed = true →
      (∀ a, a < c.N_A_gpot → ∀ b, b < c.N_A_gpot →
        c.idxTranslate c.A_id "gpot" a = c.idxTranslate c.A_id "gpot" b → a = b) ∧
      (∀ k, k < c.N_A_gpot → c.idxTranslate c.A_id "gpot" k < c.N_A) ∧
      (∀ a, a < c.N_A_spike → ∀ b, b < c.N_A_spike →
        c.idxTranslate c.A_id "spike" a = c.idxTranslate c.A_id "spike" b → a = b) ∧
      (∀ k, k < c.N_A_spike → c.idxTranslate c.A_id "spike" k < c.N_A) ∧
      (∀ n, n < c.N_A →
        (∃ k, k < c.N_A_gpot ∧ c.idxTranslate c.A_id "gpot" k = n) ∨
        (∃ k, k < c.N_A_spike ∧ c.idxTranslate c.A_id "spike" k = n)) ∧
      (∀ k, k < c.N_A_gpot → ∀ k', k' < c.N_A_spike →
        c.idxTranslate c.A_id "gpot" k ≠ c.idxTranslate c.A_id "spike" k'))
    (htrB : c.typed = true →
      (∀ a, a < c.N_B_gpot → ∀ b, b < c.N_B_gpot →
        c.idxTranslate c.B_id "gpot" a = c.idxTranslate c.B_id "gpot" b → a = b) ∧
      (∀ k, k < c.N_B_gpot → c.idxTranslate c.B_id "gpot" k < c.N_B) ∧
      (∀ a, a < c.N_B_spike → ∀ b, b < c.N_B_spike →
        c.idxTranslate c.B_id "spike" a = c.idxTranslate c.B_id "spike" b → a = b) ∧
      (∀ k, k < c.N_B_spike → c.idxTranslate c.B_id "spike" k < c.N_B) ∧
      (∀ n, n < c.N_B →
        (∃ k, k < c.N_B_gpot ∧ c.idxTranslate c.B_id "gpot" k = n) ∨
        (∃ k, k < c.N_B_spike ∧ c.idxTranslate c.B_id "spike" k = n)) ∧
      (∀ k, k < c.N_B_gpot → ∀ k', k' < c.N_B_spike →
        c.idxTranslate c.B_id "gpot" k ≠ c.idxTranslate c.B_id "spike" k')) :
    ∃ g, conn_to_graph c = .ok g ∧ ∃ c', graph_to_conn g c.typed = .ok c' ∧
      c'.A_id = c.A_id ∧ c'.B_id = c.B_id ∧ c'.N_A = c.N_A ∧ c'.N_B = c.N_B ∧
      c'.N_mult = c.N_mult ∧ c'.typed = c.typed ∧
      (c.typed = true → c'.N_A_gpot = c.N_A_gpot ∧ c'.N_A_spike = c.N_A_spike ∧
        c'.N_B_gpot = c.N_B_gpot ∧ c'.N_B_spike = c.N_B_spike) ∧
      ∀ (src dest : String) (i j : Int) (s : Nat) (name : String),
        c'.get src dest i j s name = c.get src dest i j s name := by
  refine decode_encode_ok c hA hB hAB hNA hNB hNm hck hdir hdown hval01 hstab hnoorph
    ?_ hfull htrA htrB
  intro e he pv hpv
  obtain ⟨h1, h2, h3, h4⟩ := hinrange e he pv hpv
  exact ⟨pv.1.1.toNat, by omega, (Int.toNat_of_nonneg h1).symm,
    pv.1.2.toNat, by omega, (Int.toNat_of_nonneg h3).symm⟩

/-- A well-formed model with no flagged connection: one population pair of
size one, a single parallel slot whose `"conn"` flag is `0`, no other
parameters. -/
def mEmpty : Conn :=
  ⟨"A", "B", 1, 1, 1, false, 0, 0, 0, 0, fun _ _ i => i,
    [(⟨"A", "B", 0, "conn"⟩, [((0, 0), .intV 0)])]⟩

/-- C1 counterexample: the well-formed model `mEmpty` encodes successfully
(to an edgeless two-node graph), but decoding the encoded graph raises the
uncaught `ValueError` of `max([])` instead of yielding a connectivity
object — `decode(encode(m))` does not yield a model for every well-formed
`m`. -/
theorem C1_round_trip_counterexample :
    (∃ g, conn_to_graph mEmpty = .ok g) ∧
    graph_to_conn (encOk mEmpty) mEmpty.typed = .error .emptyMax :=
  ⟨⟨encOk mEmpty, rfl⟩, rfl⟩

/-- A well-formed one-pair, one-slot model with a flagged connection and a
truthy float attribute, exercising the amended round trip. -/
def mC1 : Conn :=
  ⟨"A", "B", 1, 1, 1, false, 0, 0, 0, 0, fun _ _ i => i,
    [(⟨"A", "B", 0, "conn"⟩, [((0, 0), .intV 1)]),
     (⟨"A", "B", 0, "w"⟩, [((0, 0), .floatV 1)])]⟩

/-- Witness for the amended C1 round trip at the concrete model `mC1`. -/
theorem C1_round_trip_witness :
    ∃ g, conn_to_graph mC1 = .ok g ∧ ∃ c', graph_to_conn g mC1.typed = .ok c' ∧
      c'.A_id = mC1.A_id ∧ c'.B_id = mC1.B_id ∧ c'.N_A = mC1.N_A ∧ c'.N_B = mC1.N_B ∧
      c'.N_mult = mC1.N_mult ∧ c'.typed = mC1.typed ∧
      (mC1.typed = true → c'.N_A_gpot = mC1.N_A_gpot ∧ c'.N_A_spike = mC1.N_A_spike ∧
        c'.N_B_gpot = mC1.N_B_gpot ∧ c'.N_B_spike = mC1.N_B_spike) ∧
      ∀ (src dest : String) (i j : Int) (s : Nat) (name : String),
        c'.get src dest i j s name = mC1.get src dest i j s name :=
  C1_round_trip_amended mC1 (by decide) (by decide) (by decide) (by decide) (by decide)
    (by decide) rfl (by decide) (by decide) (by decide) (by decide) (by decide)
    (by decide) ⟨0, by decide, 0, by decide, by decide⟩
    (fun h => absurd h (by decide)) (fun h => absurd h (by decide))

end NK

